import Mathlib


/-!
# DungeonMaker: a shallow embedding of the generators and the pathfinder

The definitions below follow `SimplePRNG.cpp`, `DataStructures.cpp` and
`Dungeon.cpp`.  C++ `int` values are modelled by `Int`, the `unsigned int`
seed by a `Nat` reduced modulo `2^32`, a `char` by its byte value as a `Nat`.
A raw array access outside its array is undefined behaviour in C++; the model
makes it an explicit fault.  Loops whose number of iterations is not a literal
run on a fuel counter, and running out of fuel is a fault as well.
-/

namespace DungeonMaker

/-! ## Constants.h -/

def DUNGEON_WIDTH : Int := 79
def DUNGEON_HEIGHT : Int := 25

/-- The byte `(char)219`. -/
def WALL_CHAR : Nat := 219
/-- The byte of the blank character. -/
def FLOOR_CHAR : Nat := 32
def START_CHAR : Nat := 83
def END_CHAR : Nat := 69

/-! ## Machine integers -/

/-- Conversion of a C++ `int` to `unsigned int` (reduction modulo `2^32`). -/
def toUInt32 (i : Int) : Nat := (i % 4294967296).toNat

/-- Conversion of an `unsigned int` value to `int` (two's complement). -/
def toInt32 (n : Nat) : Int :=
  if n % 4294967296 < 2147483648 then ((n % 4294967296 : Nat) : Int)
  else ((n % 4294967296 : Nat) : Int) - 4294967296

/-- The value of a signed 32-bit expression whose mathematical value is `i`
(wrapping; a signed overflow is undefined behaviour in C++). -/
def wrapInt32 (i : Int) : Int := toInt32 (toUInt32 i)

/-- The values a C++ `int` can hold. -/
def IsInt32 (i : Int) : Prop := -2147483648 ≤ i ∧ i ≤ 2147483647

instance instDecidableIsInt32 (i : Int) : Decidable (IsInt32 i) := by
  unfold IsInt32; infer_instance

/-! ## SimplePRNG -/

/-- The generator state: the `unsigned int seed` member. -/
structure SimplePRNG where
  seed : Nat
deriving DecidableEq

/-- `SimplePRNG::setSeed`. -/
def SimplePRNG.setSeed (_p : SimplePRNG) (newSeed : Nat) : SimplePRNG :=
  { seed := newSeed % 4294967296 }

/-- The statement `seed = 1103515245 * seed + 12345;` in `unsigned int`. -/
def SimplePRNG.next (p : SimplePRNG) : SimplePRNG :=
  { seed := (1103515245 * p.seed + 12345) % 4294967296 }

/-- `SimplePRNG::randInt`: the value returned and the new state.  In
`min + (seed / 65536) % (max - min + 1)` the operand `max - min + 1` is an
`int`, converted to `unsigned int` for `%`; `min` is converted to
`unsigned int` for `+`, and the sum is converted back to `int` on return.
This is the call wherever `max < min` or `max - min + 1` is representable in
`int`, which holds at every call the program makes (`randInt(0, 100)`,
`randInt(0, 39)`, `randInt(0, 12)`, `randInt(0, neighborCount - 1)`).  Where
`max - min + 1` overflows the call is undefined and is modelled by
`SimplePRNG.randIntCall` below; the value given here is then the one of
wrapping arithmetic and stands for nothing. -/
def SimplePRNG.randInt (p : SimplePRNG) (min max : Int) : Int × SimplePRNG :=
  let p1 := p.next
  if max < min then (min, p1)
  else
    (toInt32 ((toUInt32 min + (p1.seed / 65536) % toUInt32 (wrapInt32 (max - min + 1)))
        % 4294967296), p1)

/-! ## DataStructures -/

/-- `struct Point`. -/
structure Point where
  x : Int
  y : Int
deriving DecidableEq

/-- What makes a run of the model undefined: a raw array access outside the
array, a loop that used up its fuel, or an `int` expression whose value is
not representable. -/
inductive Fault where
  | outOfBounds
  | outOfFuel
  | signedOverflow
deriving DecidableEq

/-- `SimplePRNG::randInt` as a call that may fail to return.  The statement
`seed = 1103515245 * seed + 12345;` comes first.  With `max < min` the call
returns `min`.  Otherwise `max - min + 1` is computed in `int`: when its value
exceeds `INT_MAX` the computation overflows, which is undefined behaviour (at
`min = INT_MIN`, `max = INT_MAX` the wrapped value is 0 and `%` divides by
zero, so the call does not return); when it is representable the call returns
`min + (seed / 65536) % (max - min + 1)`, computed in `unsigned int` and
converted back to `int`. -/
def SimplePRNG.randIntCall (p : SimplePRNG) (min max : Int) :
    Except Fault (Int × SimplePRNG) :=
  let p1 := p.next
  if max < min then .ok (min, p1)
  else if max - min + 1 > 2147483647 then .error .signedOverflow
  else
    .ok (toInt32 ((toUInt32 min + (p1.seed / 65536) % toUInt32 (max - min + 1))
      % 4294967296), p1)

/-- `struct PathNode`.  The `parent` pointer points into the node table; it is
modelled by the cell of the node it points to, `none` for `NULL`. -/
structure PathNode where
  pos : Point
  gCost : Int
  hCost : Int
  fCost : Int
  parent : Option Point
  isOpen : Bool
  isClosed : Bool

/-- `class PointStack`: the entries `items[0..top]`, the top first. -/
structure PointStack where
  items : List Point

/-- `PointStack::PointStack`. -/
def PointStack.empty : PointStack := { items := [] }

/-- `PointStack::isEmpty`. -/
def PointStack.isEmpty (s : PointStack) : Bool := s.items.isEmpty

/-- `PointStack::push`: nothing is stored when the array is full. -/
def PointStack.push (s : PointStack) (p : Point) : PointStack :=
  if (s.items.length : Int) - 1 < DUNGEON_WIDTH * DUNGEON_HEIGHT - 1 then { items := p :: s.items }
  else s

/-- `PointStack::pop`: the value returned and the stack afterwards. -/
def PointStack.pop (s : PointStack) : Point × PointStack :=
  match s.items with
  | [] => (⟨-1, -1⟩, s)
  | p :: rest => (p, { items := rest })

/-- `PointStack::peek`. -/
def PointStack.peek (s : PointStack) : Point :=
  match s.items with
  | [] => ⟨-1, -1⟩
  | p :: _ => p

/-! ## Dungeon: the grid -/

/-- The member `char grid[DUNGEON_HEIGHT][DUNGEON_WIDTH]`: `g ⟨x, y⟩` stands for
`grid[y][x]`.  Only the points with `0 ≤ x < 79` and `0 ≤ y < 25` are cells of
the array. -/
abbrev Grid := Point → Nat

/-- The assignment `grid[p.y][p.x] = c`. -/
def Grid.set (g : Grid) (p : Point) (c : Nat) : Grid :=
  fun q => if q = p then c else g q

/-- `class Dungeon`: the grid and the generator. -/
structure Dungeon where
  grid : Grid
  prng : SimplePRNG

/-- `Dungeon::initialize` (a reserved word in Lean, hence the longer name). -/
def initializeGrid (fillChar : Nat) : Grid := fun _ => fillChar

/-- `Dungeon::isInBounds`. -/
def isInBounds (x y : Int) : Bool :=
  decide (x ≥ 0) && decide (x < DUNGEON_WIDTH) && decide (y ≥ 0) && decide (y < DUNGEON_HEIGHT)

/-- `Dungeon::setChar`. -/
def setChar (g : Grid) (x y : Int) (c : Nat) : Grid :=
  if isInBounds x y then g.set ⟨x, y⟩ c else g

/-- A raw write `grid[p.y][p.x] = c`, undefined outside the array. -/
def Grid.write (g : Grid) (p : Point) (c : Nat) : Except Fault Grid :=
  if isInBounds p.x p.y then .ok (g.set p c) else .error .outOfBounds

/-! ## Dungeon::generateCellularAutomata -/

/-- The values of `x` in `for (int x = 1; x < DUNGEON_WIDTH - 1; ++x)`. -/
def interiorXs : List Int := (List.range' 1 (DUNGEON_WIDTH.toNat - 2)).map Int.ofNat

/-- The values of `y` in `for (int y = 1; y < DUNGEON_HEIGHT - 1; ++y)`. -/
def interiorYs : List Int := (List.range' 1 (DUNGEON_HEIGHT.toNat - 2)).map Int.ofNat

/-- The body of the inner loop of step 1 at the cell `(x, y)`. -/
def fillCell (wallProbability : Int) (y : Int) (st : Grid × SimplePRNG) (x : Int) :
    Grid × SimplePRNG :=
  let r := st.2.randInt 0 100
  if r.1 < wallProbability then (st.1.set ⟨x, y⟩ WALL_CHAR, r.2)
  else (st.1.set ⟨x, y⟩ FLOOR_CHAR, r.2)

/-- Step 1: the random fill of the interior, row by row. -/
def randomFill (wallProbability : Int) (st : Grid × SimplePRNG) : Grid × SimplePRNG :=
  interiorYs.foldl (fun st y => interiorXs.foldl (fillCell wallProbability y) st) st

/-- The loops over `ny` and `nx` counting the Wall cells around `(x, y)`. -/
def wallCount (g : Grid) (x y : Int) : Int :=
  [y - 1, y, y + 1].foldl (fun wc ny =>
    [x - 1, x, x + 1].foldl (fun wc nx =>
      if ny = y ∧ nx = x then wc
      else if g ⟨nx, ny⟩ = WALL_CHAR then wc + 1 else wc) wc) 0

/-- The body of the rule loop at the cell `(x, y)`: reads `grid`, writes
`tempGrid`. -/
def smoothCell (grid : Grid) (y : Int) (tempGrid : Grid) (x : Int) : Grid :=
  let wc := wallCount grid x y
  if grid ⟨x, y⟩ = WALL_CHAR then
    (if wc < 4 then tempGrid.set ⟨x, y⟩ FLOOR_CHAR else tempGrid)
  else
    (if wc > 4 then tempGrid.set ⟨x, y⟩ WALL_CHAR else tempGrid)

/-- One iteration of step 2: copy to `tempGrid`, apply the rule to every
interior cell, copy back. -/
def smoothPass (grid : Grid) : Grid :=
  interiorYs.foldl (fun tempGrid y => interiorXs.foldl (smoothCell grid y) tempGrid) grid

/-- The loop `for (int i = 0; i < iterations; ++i)`. -/
def smoothLoop : Nat → Grid → Grid
  | 0, grid => grid
  | n + 1, grid => smoothLoop n (smoothPass grid)

/-- `Dungeon::generateCellularAutomata`. -/
def generateCellularAutomata (d : Dungeon) (iterations wallProbability : Int) : Dungeon :=
  let st := randomFill wallProbability (initializeGrid WALL_CHAR, d.prng)
  { grid := smoothLoop iterations.toNat st.1, prng := st.2 }

/-! ## Dungeon::generateRecursiveBacktracker -/

/-- The arrays `dx[] = {0, 0, 2, -2}` and `dy[] = {2, -2, 0, 0}`. -/
def mazeDirs : List (Int × Int) := [(0, 2), (0, -2), (2, 0), (-2, 0)]

/-- The array `neighbors[0..neighborCount-1]` filled by the loop over `i`. -/
def mazeNeighbors (g : Grid) (current : Point) : List Point :=
  (mazeDirs.map (fun d => (⟨current.x + d.1, current.y + d.2⟩ : Point))).filter
    (fun n => isInBounds n.x n.y && decide (g n = WALL_CHAR))

/-- The state of the carving loop. -/
structure MazeState where
  grid : Grid
  stack : PointStack
  prng : SimplePRNG

/-- One iteration of `while (!stack.isEmpty())`. -/
def mazeStep (st : MazeState) : Except Fault MazeState :=
  let current := st.stack.peek
  let neighbors := mazeNeighbors st.grid current
  if (neighbors.length : Int) > 0 then
    let r := st.prng.randInt 0 ((neighbors.length : Int) - 1)
    if r.1 < 0 then .error .outOfBounds
    else
      match neighbors.get? r.1.toNat with
      | none => .error .outOfBounds
      | some next =>
        match st.grid.write next FLOOR_CHAR with
        | .error e => .error e
        | .ok g1 =>
          match g1.write ⟨current.x + (next.x - current.x).tdiv 2,
              current.y + (next.y - current.y).tdiv 2⟩ FLOOR_CHAR with
          | .error e => .error e
          | .ok g2 => .ok { grid := g2, stack := st.stack.push next, prng := r.2 }
  else
    .ok { grid := st.grid, stack := (st.stack.pop).2, prng := st.prng }

/-- The loop `while (!stack.isEmpty())`. -/
def mazeLoop : Nat → MazeState → Except Fault MazeState
  | 0, st => if st.stack.isEmpty then .ok st else .error .outOfFuel
  | fuel + 1, st =>
    if st.stack.isEmpty then .ok st
    else
      match mazeStep st with
      | .error e => .error e
      | .ok st1 => mazeLoop fuel st1

/-- The start cell `{randInt(0, W / 2) * 2 + 1, randInt(0, H / 2) * 2 + 1}` and
the generator after the two draws (a braced initialiser evaluates left to
right). -/
def mazeStart (p : SimplePRNG) : Point × SimplePRNG :=
  let rx := p.randInt 0 (DUNGEON_WIDTH.tdiv 2)
  let ry := rx.2.randInt 0 (DUNGEON_HEIGHT.tdiv 2)
  (⟨rx.1 * 2 + 1, ry.1 * 2 + 1⟩, ry.2)

/-- More iterations than the carving loop can make: every iteration pushes or
pops, and there are fewer pushes than cells. -/
def mazeFuel : Nat := 2 * (DUNGEON_WIDTH * DUNGEON_HEIGHT).toNat

/-- `Dungeon::generateRecursiveBacktracker`. -/
def generateRecursiveBacktracker (d : Dungeon) : Except Fault Dungeon :=
  let s := mazeStart d.prng
  match (initializeGrid WALL_CHAR).write s.1 FLOOR_CHAR with
  | .error e => .error e
  | .ok g0 =>
    match mazeLoop mazeFuel { grid := g0, stack := PointStack.empty.push s.1, prng := s.2 } with
    | .error e => .error e
    | .ok st => .ok { grid := st.grid, prng := st.prng }

/-! ## Dungeon::findPath -/

/-- The table `PathNode nodes[DUNGEON_HEIGHT][DUNGEON_WIDTH]`: `nodes ⟨x, y⟩`
stands for `nodes[y][x]`. -/
abbrev NodeTable := Point → PathNode

/-- The assignment of a whole node `nodes[p.y][p.x]`. -/
def NodeTable.set (nodes : NodeTable) (p : Point) (n : PathNode) : NodeTable :=
  fun q => if q = p then n else nodes q

/-- The node table after the initialisation loops. -/
def initNodes : NodeTable := fun p =>
  { pos := p, gCost := 1000000, hCost := 0, fCost := 1000000, parent := none,
    isOpen := false, isClosed := false }

/-- The expression `(dx_h > 0 ? dx_h : -dx_h) + (dy_h > 0 ? dy_h : -dy_h)` with
`dx_h = end.x - n.x` and `dy_h = end.y - n.y`. -/
def manhattan (n e : Point) : Int :=
  (if e.x - n.x > 0 then e.x - n.x else -(e.x - n.x))
    + (if e.y - n.y > 0 then e.y - n.y else -(e.y - n.y))

/-- The arrays `dx[]` and `dy[]` of the eight moves. -/
def dirs8 : List (Int × Int) :=
  [(0, 1), (0, -1), (1, 0), (-1, 0), (1, 1), (-1, 1), (1, -1), (-1, -1)]

/-- The open list `openList[0..openListSize-1]` (each pointer by the cell of its
node) together with the node table. -/
structure SearchState where
  nodes : NodeTable
  openList : List Point

/-- The scan `for (int i = 1; i < openListSize; ++i)` for `bestNodeIndex`. -/
def bestNodeIndex (nodes : NodeTable) (openList : List Point) : Nat :=
  (List.range' 1 (openList.length - 1)).foldl (fun best i =>
    if (nodes (openList.getD i ⟨0, 0⟩)).fCost < (nodes (openList.getD best ⟨0, 0⟩)).fCost
    then i else best) 0

/-- The statement `openList[bestNodeIndex] = openList[--openListSize];`. -/
def removeAt (openList : List Point) (best : Nat) : List Point :=
  (openList.set best (openList.getD (openList.length - 1) ⟨0, 0⟩)).take (openList.length - 1)

/-- The body of `for (int i = 0; i < 8; ++i)` for the move `d` from `current`. -/
def relaxNeighbor (grid : Grid) (e : Point) (useAStar : Bool) (current : Point)
    (st : SearchState) (d : Int × Int) : SearchState :=
  let n : Point := ⟨current.x + d.1, current.y + d.2⟩
  if !isInBounds n.x n.y || decide (grid n = WALL_CHAR) || (st.nodes n).isClosed then st
  else
    let tentativeGCost := (st.nodes current).gCost + 1
    if tentativeGCost < (st.nodes n).gCost then
      let n1 : PathNode := { st.nodes n with parent := some current, gCost := tentativeGCost }
      let n2 : PathNode := if useAStar then { n1 with hCost := manhattan n e } else n1
      let n3 : PathNode := { n2 with fCost := n2.gCost + n2.hCost }
      if !n3.isOpen then
        { nodes := st.nodes.set n { n3 with isOpen := true }, openList := st.openList ++ [n] }
      else { nodes := st.nodes.set n n3, openList := st.openList }
    else st

/-- `Dungeon::getPathCharacter`. -/
def getPathCharacter (prev current next : Point) : Nat :=
  let from_up := decide (prev.y < current.y)
  let from_down := decide (prev.y > current.y)
  let from_left := decide (prev.x < current.x)
  let to_up := decide (next.y < current.y)
  let to_down := decide (next.y > current.y)
  let to_left := decide (next.x < current.x)
  let to_right := decide (next.x > current.x)
  if (from_up && to_down) || (from_down && to_up) then 179
  else if (from_left && to_right) || (to_left && !from_left) then 196
  else if (from_down && to_right) || (from_left && to_up) then 192
  else if (from_down && to_left) || (!from_left && to_up) then 217
  else if (from_up && to_right) || (from_left && to_down) then 218
  else if (from_up && to_left) || (!from_left && to_down) then 191
  else 43

/-- The statement `if (successor != NULL && predecessor != NULL) { ... }` in
the loop of `reconstructPath`: the grid after it. -/
def drawSegment (nodes : NodeTable) (grid : Grid) (successor : Option Point) (current : Point)
    (predecessor : Option Point) : Grid :=
  match successor, predecessor with
  | some s, some p =>
    let p_prev := (nodes p).pos
    let p_curr := (nodes current).pos
    let p_succ := (nodes s).pos
    if grid p_curr = FLOOR_CHAR then grid.set p_curr (getPathCharacter p_prev p_curr p_succ)
    else grid
  | _, _ => grid

/-- The loop `while (current != NULL)` of `reconstructPath`, with `successor`
and `current` as optional cells. -/
def reconstructLoop (nodes : NodeTable) : Nat → Grid → Option Point → Option Point →
    Except Fault Grid
  | _, grid, _, none => .ok grid
  | 0, _, _, some _ => .error .outOfFuel
  | fuel + 1, grid, successor, some current =>
    let predecessor := (nodes current).parent
    reconstructLoop nodes fuel (drawSegment nodes grid successor current predecessor)
      (some current) predecessor

/-- The number of cells of the grid, a bound on the length of a parent chain
and on the number of iterations of the search loop. -/
def cellCount : Nat := (DUNGEON_WIDTH * DUNGEON_HEIGHT).toNat

/-- `Dungeon::reconstructPath` called on the node of the cell `endNode`. -/
def reconstructPath (nodes : NodeTable) (grid : Grid) (endNode : Point) : Except Fault Grid :=
  reconstructLoop nodes cellCount grid none (some endNode)

/-- What a call of `findPath` leaves behind: which message it printed
(`found`), the grid, and the node table at the moment of return. -/
structure PathResult where
  found : Bool
  grid : Grid
  nodes : NodeTable

/-- One iteration of `while (openListSize > 0)` past the loop test: either the
search ends with a result, or it goes on from a new state. -/
def searchStep (grid : Grid) (e : Point) (useAStar : Bool) (st : SearchState) :
    Except Fault (PathResult ⊕ SearchState) :=
  let best := bestNodeIndex st.nodes st.openList
  let current := st.openList.getD best ⟨0, 0⟩
  let openList1 := removeAt st.openList best
  let nodes1 := st.nodes.set current { st.nodes current with isOpen := false, isClosed := true }
  if (nodes1 current).pos.x = e.x ∧ (nodes1 current).pos.y = e.y then
    match reconstructPath nodes1 grid current with
    | .error f => .error f
    | .ok grid1 => .ok (.inl { found := true, grid := grid1, nodes := nodes1 })
  else
    .ok (.inr (dirs8.foldl (relaxNeighbor grid e useAStar current)
      { nodes := nodes1, openList := openList1 }))

/-- The loop `while (openListSize > 0)`. -/
def searchLoop (grid : Grid) (e : Point) (useAStar : Bool) :
    Nat → SearchState → Except Fault PathResult
  | 0, st =>
    if st.openList.length > 0 then .error .outOfFuel
    else .ok { found := false, grid := grid, nodes := st.nodes }
  | fuel + 1, st =>
    if st.openList.length > 0 then
      match searchStep grid e useAStar st with
      | .error f => .error f
      | .ok (.inl r) => .ok r
      | .ok (.inr st1) => searchLoop grid e useAStar fuel st1
    else .ok { found := false, grid := grid, nodes := st.nodes }

/-- The node table and open list before the main loop: the start node has
`gCost = 0`, the heuristic in A* mode, and is the only open node. -/
def searchInit (start e : Point) (useAStar : Bool) : SearchState :=
  let n1 : PathNode := { initNodes start with gCost := 0 }
  let n2 : PathNode := if useAStar then { n1 with hCost := manhattan start e } else n1
  let n3 : PathNode := { n2 with fCost := n2.gCost + n2.hCost }
  { nodes := initNodes.set start { n3 with isOpen := true }, openList := [start] }

/-- `Dungeon::findPath` on the grid `grid`.  The node table is indexed with
`start` unchecked, so a start outside the grid is a fault. -/
def findPath (grid : Grid) (start e : Point) (useAStar : Bool) : Except Fault PathResult :=
  if !isInBounds start.x start.y then .error .outOfBounds
  else searchLoop grid e useAStar cellCount (searchInit start e useAStar)

/-- The cells met by following the parent links from the node of `p` up to a
node without parent, `p` first; `none` when more than `fuel` links are
followed. -/
def parentChain (nodes : NodeTable) : Nat → Point → Option (List Point)
  | 0, p => match (nodes p).parent with
    | none => some [p]
    | some _ => none
  | fuel + 1, p => match (nodes p).parent with
    | none => some [p]
    | some q => (parentChain nodes fuel q).map (fun l => p :: l)

/-- The cells of the route a successful search returned, from the end cell
back along the parent links. -/
def routeCells (r : PathResult) (e : Point) : Option (List Point) :=
  parentChain r.nodes cellCount e

/-- The number of steps of the route a successful search returned: the number
of parent links from the end node back to the start node. -/
def routeSteps (r : PathResult) (e : Point) : Option Nat :=
  (routeCells r e).map (fun l => l.length - 1)

end DungeonMaker


namespace DungeonMaker

/-! ## Specification vocabulary for the pathfinder -/

/-- Two cells are 8-adjacent: distinct, and at most one apart in each coordinate. -/
def Adj8 (p q : Point) : Prop :=
  q ≠ p ∧ (q.x - p.x).natAbs ≤ 1 ∧ (q.y - p.y).natAbs ≤ 1

instance instDecidableAdj8 (p q : Point) : Decidable (Adj8 p q) := by
  unfold Adj8; infer_instance

/-- A cell that a route may enter: inside the grid and not Wall. -/
def Passable (grid : Grid) (q : Point) : Prop :=
  isInBounds q.x q.y = true ∧ grid q ≠ WALL_CHAR

instance instDecidablePassable (grid : Grid) (q : Point) : Decidable (Passable grid q) := by
  unfold Passable; infer_instance

/-- `Walk grid s p k`: there are cells `c0 = s, c1, ..., ck = p`, consecutive
ones 8-adjacent, each of `c1, ..., ck` inside the grid and not Wall. -/
inductive Walk (grid : Grid) (s : Point) : Point → Nat → Prop
  | start : Walk grid s s 0
  | step {p q : Point} {k : Nat} :
      Walk grid s p k → Adj8 p q → Passable grid q → Walk grid s q (k + 1)

/-- `n` is the least number of steps of a walk from `s` to `e`. -/
def IsShortest (grid : Grid) (s e : Point) (n : Nat) : Prop :=
  Walk grid s e n ∧ ∀ m, Walk grid s e m → n ≤ m

/-- Whether `findPath` printed `Path found!`. -/
def pathFound (grid : Grid) (start e : Point) (useAStar : Bool) : Bool :=
  match findPath grid start e useAStar with
  | .ok r => r.found
  | .error _ => false

/-- The number of steps of the route `findPath` found, `none` when it found
none. -/
def routeLength (grid : Grid) (start e : Point) (useAStar : Bool) : Option Nat :=
  match findPath grid start e useAStar with
  | .ok r => if r.found then routeSteps r e else none
  | .error _ => none

/-- A grid that is Wall except for the cells listed. -/
def gridOfFloor (cells : List Point) : Grid :=
  fun p => if p ∈ cells then FLOOR_CHAR else WALL_CHAR

/-- Seven Floor cells in the corner of a Wall grid:
```
  x 0123
y=0 W...
y=1 .W.W
y=2 ..WW
```
-/
def cornerGrid : Grid :=
  gridOfFloor [⟨0, 1⟩, ⟨0, 2⟩, ⟨1, 0⟩, ⟨1, 2⟩, ⟨2, 0⟩, ⟨2, 1⟩, ⟨3, 0⟩]

/-! ## The invariant of the search loop -/

/-- The cell reached from `q` by the move `d`. -/
def moveBy (q : Point) (d : Int × Int) : Point := ⟨q.x + d.1, q.y + d.2⟩

/-- The node of `p` is on the open list or closed. -/
def Visited (st : SearchState) (p : Point) : Prop :=
  (st.nodes p).isOpen = true ∨ (st.nodes p).isClosed = true

/-- The facts about the node table and the open list that hold throughout the
search from `s` on `grid`, after `k` extractions. -/
structure SearchCore (grid : Grid) (s : Point) (useAStar : Bool) (k : Nat)
    (st : SearchState) : Prop where
  pos : ∀ p, (st.nodes p).pos = p
  open_iff : ∀ p, p ∈ st.openList ↔ (st.nodes p).isOpen = true
  nodup : st.openList.Nodup
  open_not_closed : ∀ p, (st.nodes p).isOpen = true → (st.nodes p).isClosed = false
  inb : ∀ p, Visited st p → isInBounds p.x p.y = true
  fresh : ∀ p, (st.nodes p).isOpen = false → (st.nodes p).isClosed = false →
    st.nodes p = initNodes p
  start_node : (st.nodes s).parent = none ∧ (st.nodes s).gCost = 0 ∧ Visited st s
  start_first : (k = 0 → st.openList = [s]) ∧ (0 < k → (st.nodes s).isClosed = true)
  parent : ∀ p, p ≠ s → Visited st p →
    ∃ q, (st.nodes p).parent = some q ∧ (st.nodes q).isClosed = true ∧
      (st.nodes p).gCost = (st.nodes q).gCost + 1 ∧ Adj8 q p ∧ Passable grid p
  g_nonneg : ∀ p, Visited st p → 0 ≤ (st.nodes p).gCost
  g_open : ∀ p, (st.nodes p).isOpen = true → (st.nodes p).gCost ≤ k
  g_closed : ∀ p, (st.nodes p).isClosed = true → (st.nodes p).gCost < k
  reach : ∀ p, Visited st p → Walk grid s p (st.nodes p).gCost.toNat
  closed_list : ∃ cl : List Point, cl.Nodup ∧ cl.length = k ∧
    ∀ p, p ∈ cl ↔ (st.nodes p).isClosed = true
  uniform : useAStar = false → ∀ p, (st.nodes p).hCost = 0 ∧
    (st.nodes p).fCost = (st.nodes p).gCost
  optimal : useAStar = false → ∀ q, (st.nodes q).isClosed = true →
    ∀ n, Walk grid s q n → (st.nodes q).gCost ≤ n

/-- Every closed node has had its moves relaxed, except that of `cur` only the
moves in `done` have been: the cell a move leads to, when it can be entered,
is closed, or open with a cost at most one more. -/
def Relaxed (grid : Grid) (cur : Point) (done : List (Int × Int)) (st : SearchState) : Prop :=
  ∀ q, (st.nodes q).isClosed = true → ∀ d ∈ dirs8, (q = cur → d ∈ done) →
    Passable grid (moveBy q d) →
      (st.nodes (moveBy q d)).isClosed = true ∨
      ((st.nodes (moveBy q d)).isOpen = true ∧
        (st.nodes (moveBy q d)).gCost ≤ (st.nodes q).gCost + 1)

/-- The invariant at the head of the loop `while (openListSize > 0)`. -/
structure LoopInv (grid : Grid) (s e : Point) (useAStar : Bool) (k : Nat)
    (st : SearchState) : Prop where
  core : SearchCore grid s useAStar k st
  relaxed : ∀ cur, Relaxed grid cur dirs8 st
  not_end : ∀ q, (st.nodes q).isClosed = true → q ≠ e

/-- The invariant inside an iteration, after `cur` was extracted and the moves
in `done` were relaxed. -/
structure MidInv (grid : Grid) (s e : Point) (useAStar : Bool) (k : Nat)
    (cur : Point) (done : List (Int × Int)) (st : SearchState) : Prop where
  core : SearchCore grid s useAStar k st
  cur_closed : (st.nodes cur).isClosed = true
  start_closed : (st.nodes s).isClosed = true
  relaxed : Relaxed grid cur done st
  not_end : ∀ q, (st.nodes q).isClosed = true → q ≠ cur → q ≠ e

/-- What a result of `findPath` on `grid` from `s` to `e` satisfies: without a
route found the grid is the one given and no walk leads from `s` to `e`; with
a route found, the parent chain from the end node leads back to the start
node and has as many links as the end node's `gCost`, that many steps lead
from `s` to `e`, and in Dijkstra mode no walk is shorter. -/
def SearchPost (grid : Grid) (s e : Point) (useAStar : Bool) (r : PathResult) : Prop :=
  (r.found = false → r.grid = grid ∧ ∀ n, ¬ Walk grid s e n) ∧
  (r.found = true → ∃ (n : Nat) (l : List Point), routeCells r e = some l ∧
    l.head? = some e ∧ l.getLast? = some s ∧ l.length = n + 1 ∧
    (r.nodes e).gCost = (n : Int) ∧
    Walk grid s e n ∧ (useAStar = false → ∀ m, Walk grid s e m → n ≤ m))

end DungeonMaker


namespace DungeonMaker

/-! ## The invariant of the carving loop -/

/-- The cells of the odd-coordinate lattice inside the grid: `x` in
`1, 3, ..., 77` and `y` in `1, 3, ..., 23`. -/
def latticeCells : List Point :=
  (List.range 12).flatMap (fun (j : Nat) =>
    (List.range 39).map (fun (i : Nat) => (⟨2 * (i : Int) + 1, 2 * (j : Int) + 1⟩ : Point)))

/-- The number of lattice cells that still hold Wall. -/
def latticeWalls (grid : Grid) : Nat :=
  latticeCells.countP (fun p => decide (grid p = WALL_CHAR))

/-- What holds of the state of the carving loop at the head of every
iteration: the cells on the stack are lattice cells, and the stack together
with the unvisited lattice cells is no larger than the lattice. -/
structure MazeInv (st : MazeState) : Prop where
  on_lattice : ∀ p ∈ st.stack.items, p ∈ latticeCells
  room : st.stack.items.length + latticeWalls st.grid ≤ 468

/-- The number that every iteration of the carving loop decreases. -/
def mazeMeasure (st : MazeState) : Nat :=
  2 * latticeWalls st.grid + st.stack.items.length

end DungeonMaker


namespace DungeonMaker

/-! ## Specification vocabulary for the cave rule and the route glyphs -/

/-- The eight cells around `p`. -/
def neighbours8 (p : Point) : List Point :=
  [⟨p.x - 1, p.y - 1⟩, ⟨p.x, p.y - 1⟩, ⟨p.x + 1, p.y - 1⟩, ⟨p.x - 1, p.y⟩, ⟨p.x + 1, p.y⟩,
    ⟨p.x - 1, p.y + 1⟩, ⟨p.x, p.y + 1⟩, ⟨p.x + 1, p.y + 1⟩]

/-- The number of Wall cells among the eight cells around `p` in `grid`. -/
def wallNeighbours (grid : Grid) (p : Point) : Nat :=
  (neighbours8 p).countP (fun q => decide (grid q = WALL_CHAR))

/-- An interior cell: `1 ≤ x ≤ 77` and `1 ≤ y ≤ 23`. -/
def IsInterior (p : Point) : Prop := 1 ≤ p.x ∧ p.x ≤ 77 ∧ 1 ≤ p.y ∧ p.y ≤ 23

instance instDecidableIsInterior (p : Point) : Decidable (IsInterior p) := by
  unfold IsInterior; infer_instance

/-- The synchronous cave rule, following the words of the specification: the
grid after one pass as a function of the grid before it.  An interior Wall
cell with fewer than 4 Wall neighbours becomes Floor, an interior cell that is
not Wall with more than 4 Wall neighbours becomes Wall, every other cell keeps
its value. -/
def syncPass (grid : Grid) : Grid := fun p =>
  if IsInterior p then
    if grid p = WALL_CHAR then (if wallNeighbours grid p < 4 then FLOOR_CHAR else grid p)
    else (if wallNeighbours grid p > 4 then WALL_CHAR else grid p)
  else grid p

/-- The pass of the specification applied `n` times. -/
def syncPasses : Nat → Grid → Grid
  | 0, grid => grid
  | n + 1, grid => syncPasses n (syncPass grid)

/-- The bytes `getPathCharacter` can return: the six line glyphs and `+`. -/
def routeGlyphs : List Nat := [179, 196, 192, 217, 218, 191, 43]

end DungeonMaker


namespace DungeonMaker

/-! ## The steps of the search loop -/

/-- The cell of the node that the scan of an iteration selects. -/
def extractBest (st : SearchState) : Point :=
  st.openList.getD (bestNodeIndex st.nodes st.openList) ⟨0, 0⟩

/-- The state right after the extraction: the selected node is closed and off
the open list. -/
def closeBest (st : SearchState) : SearchState :=
  { nodes := st.nodes.set (extractBest st)
      { st.nodes (extractBest st) with isOpen := false, isClosed := true },
    openList := removeAt st.openList (bestNodeIndex st.nodes st.openList) }

/-- The state at the end of an iteration that did not extract the end node:
the eight moves of the selected node are relaxed. -/
def relaxAll (grid : Grid) (e : Point) (useAStar : Bool) (st : SearchState) : SearchState :=
  dirs8.foldl (relaxNeighbor grid e useAStar (extractBest st)) (closeBest st)

/-- The states at the head of the loop `while (openListSize > 0)` during a run
of `findPath`, with the number of iterations made before. -/
inductive SearchRun (grid : Grid) (s e : Point) (useAStar : Bool) : Nat → SearchState → Prop
  | init : SearchRun grid s e useAStar 0 (searchInit s e useAStar)
  | step {k : Nat} {st st1 : SearchState} :
      SearchRun grid s e useAStar k st → st.openList.length > 0 →
      searchStep grid e useAStar st = .ok (.inr st1) → SearchRun grid s e useAStar (k + 1) st1

/-- What the result of a successful search is made of: a node table that
satisfies the invariant of the search, with the end node closed, and the grid
that `reconstructPath` draws from it. -/
def FoundPost (grid : Grid) (s e : Point) (useAStar : Bool) (r : PathResult) : Prop :=
  ∃ (k : Nat) (st : SearchState), SearchCore grid s useAStar k st ∧ st.nodes = r.nodes ∧
    (r.nodes e).isClosed = true ∧ reconstructPath r.nodes grid e = .ok r.grid

/-- Two grids with the same Wall cells. -/
def WallEq (g1 g2 : Grid) : Prop := ∀ p, g1 p = WALL_CHAR ↔ g2 p = WALL_CHAR

/-- The grid that a call of `findPath` leaves behind. -/
def resultGrid (grid : Grid) (start e : Point) (useAStar : Bool) : Grid :=
  match findPath grid start e useAStar with
  | .ok r => r.grid
  | .error _ => grid

/-- How a state of the search grows out of an earlier one: the closed nodes
are the same, reached nodes stay reached, and every entry of the open list was
there before or belongs to a node not reached before. -/
def Grows (st st1 : SearchState) : Prop :=
  (∀ p, (st1.nodes p).isClosed = (st.nodes p).isClosed) ∧
  (∀ p, Visited st p → Visited st1 p) ∧
  (∀ p, p ∈ st1.openList → p ∈ st.openList ∨ ¬ Visited st p)

end DungeonMaker


namespace DungeonMaker

/-! ## The run of the carving loop -/

/-- The cells that the start of the maze generator can be: odd coordinates
with `1 ≤ x ≤ 79` and `1 ≤ y ≤ 25`. -/
def ExtLattice (p : Point) : Prop :=
  p.x % 2 = 1 ∧ p.y % 2 = 1 ∧ 1 ≤ p.x ∧ p.x ≤ 79 ∧ 1 ≤ p.y ∧ p.y ≤ 25

/-- The cell carved between `current` and `next`. -/
def midCell (current next : Point) : Point :=
  ⟨current.x + (next.x - current.x).tdiv 2, current.y + (next.y - current.y).tdiv 2⟩

/-- The state in which the carving loop starts, on the grid `g0`: the start
cell drawn from the generator `p` is the only entry of the stack. -/
def mazeInitState (g0 : Grid) (p : SimplePRNG) : MazeState :=
  { grid := g0, stack := PointStack.empty.push (mazeStart p).1, prng := (mazeStart p).2 }

/-- The test `neighborCount > 0` of an iteration: whether it pushes. -/
def isPush (st : MazeState) : Bool :=
  decide (((mazeNeighbors st.grid st.stack.peek).length : Int) > 0)

/-- The states at the head of the carving loop started in `st0`, with the
number of iterations made and the number of calls of `push` made so far, the
one before the loop included. -/
inductive MazeRun (st0 : MazeState) : Nat → Nat → MazeState → Prop
  | init : MazeRun st0 0 1 st0
  | step {n k : Nat} {st st1 : MazeState} :
      MazeRun st0 n k st → st.stack.isEmpty = false → mazeStep st = .ok st1 →
      MazeRun st0 (n + 1) (k + if isPush st = true then 1 else 0) st1

/-- The invariant of the carving loop for any start cell the generator can
draw, after `n` iterations and `k` pushes. -/
structure MazeInvX (n k : Nat) (st : MazeState) : Prop where
  on_ext : ∀ p ∈ st.stack.items, ExtLattice p
  room : st.stack.items.length + latticeWalls st.grid ≤ 469
  pushes : k + latticeWalls st.grid ≤ 469
  steps : n + mazeMeasure st ≤ 937

/-- The invariant behind the covering of the lattice: the grid holds Wall and
Floor only, the start cell holds Floor, and every Floor lattice cell that is
not on the stack has Floor at each of its lattice neighbours. -/
structure MazeCover (start : Point) (st : MazeState) : Prop where
  values : ∀ p, st.grid p = WALL_CHAR ∨ st.grid p = FLOOR_CHAR
  start_floor : st.grid start = FLOOR_CHAR
  finished : ∀ c ∈ latticeCells, st.grid c = FLOOR_CHAR →
    c ∈ st.stack.items ∨
    ∀ d ∈ mazeDirs, isInBounds (c.x + d.1) (c.y + d.2) = true →
      st.grid ⟨c.x + d.1, c.y + d.2⟩ = FLOOR_CHAR

end DungeonMaker


namespace DungeonMaker

/-! ## The costs of the nodes in A* mode -/

/-- The `fCost` of a reached node is its `gCost` plus the heuristic towards `e`,
as the search in A* mode keeps it. -/
def HeurInv (e : Point) (st : SearchState) : Prop :=
  ∀ p, Visited st p → (st.nodes p).fCost = (st.nodes p).gCost + manhattan p e

end DungeonMaker


namespace DungeonMaker

/-! ## The turns of the parent links -/

/-- No two parent links in a row join 8-adjacent cells: when a reached node
`n` hangs on `c` and `c` hangs on `q`, the cells `q` and `n` are not
8-adjacent. -/
def TurnInv (st : SearchState) : Prop :=
  ∀ n c q, Visited st n → (st.nodes n).parent = some c → (st.nodes c).parent = some q →
    ¬ Adj8 q n

end DungeonMaker


namespace DungeonMaker

/-! ## Theorems: SimplePRNG -/

theorem toUInt32_cast (i : Int) : ((toUInt32 i : Nat) : Int) = i % 4294967296 := by
  unfold toUInt32
  exact Int.toNat_of_nonneg (Int.emod_nonneg _ (by norm_num))

theorem toUInt32_of_nonneg {i : Int} (h0 : 0 ≤ i) (h1 : i < 4294967296) :
    ((toUInt32 i : Nat) : Int) = i := by
  rw [toUInt32_cast]
  exact Int.emod_eq_of_lt h0 h1

theorem toInt32_toUInt32 {i : Int} (h : IsInt32 i) : toInt32 (toUInt32 i) = i := by
  obtain ⟨h0, h1⟩ := h
  have hc := toUInt32_cast i
  have hlt : toUInt32 i < 4294967296 := by
    have : ((toUInt32 i : Nat) : Int) < 4294967296 := by
      rw [hc]; exact Int.emod_lt_of_pos _ (by norm_num)
    exact_mod_cast this
  unfold toInt32
  rw [Nat.mod_eq_of_lt hlt]
  split
  · rename_i hs
    have hs' : ((toUInt32 i : Nat) : Int) < 2147483648 := by exact_mod_cast hs
    rw [hc] at hs' ⊢
    omega
  · rename_i hs
    have hs' : ¬ ((toUInt32 i : Nat) : Int) < 2147483648 := by
      intro hh; apply hs; exact_mod_cast hh
    rw [hc] at hs' ⊢
    omega

/-- The value computed by the return statement of `randInt` on a valid range. -/
theorem randInt_value (p : SimplePRNG) (min max : Int)
    (hmin : IsInt32 min) (hmax : IsInt32 max) (hle : min ≤ max)
    (hno : max - min + 1 ≤ 2147483647) :
    (p.randInt min max).1 = min + ((p.next.seed / 65536 : Nat) : Int) % (max - min + 1) := by
  have hn : IsInt32 (max - min + 1) := ⟨by omega, hno⟩
  have hw : wrapInt32 (max - min + 1) = max - min + 1 := toInt32_toUInt32 hn
  have hpos : 0 < max - min + 1 := by omega
  set r : Int := ((p.next.seed / 65536 : Nat) : Int) % (max - min + 1) with hr
  have hr0 : 0 ≤ r := Int.emod_nonneg _ (by omega)
  have hr1 : r < max - min + 1 := Int.emod_lt_of_pos _ hpos
  have hres : IsInt32 (min + r) := ⟨by have := hmin.1; omega, by have := hmax.2; omega⟩
  have hu : ((toUInt32 (max - min + 1) : Nat) : Int) = max - min + 1 :=
    toUInt32_of_nonneg (by omega) (by omega)
  have hmod : (((p.next.seed / 65536) % toUInt32 (max - min + 1) : Nat) : Int) = r := by
    rw [Int.natCast_mod, hu]
  have hsum : (toUInt32 min + (p.next.seed / 65536) % toUInt32 (max - min + 1)) % 4294967296
      = toUInt32 (min + r) := by
    apply Int.ofNat.inj
    simp only [Int.ofNat_eq_coe]
    rw [Int.natCast_mod, Nat.cast_add, hmod, toUInt32_cast, toUInt32_cast]
    simp [Int.emod_emod_of_dvd, Int.add_emod]
  unfold SimplePRNG.randInt
  simp only [not_lt.mpr hle, if_false, hw]
  rw [hsum]
  exact toInt32_toUInt32 hres

theorem randInt_state (p : SimplePRNG) (min max : Int) : (p.randInt min max).2 = p.next := by
  unfold SimplePRNG.randInt
  simp only
  split <;> rfl

theorem randInt_bounds (p : SimplePRNG) (min max : Int)
    (hmin : IsInt32 min) (hmax : IsInt32 max) (hle : min ≤ max)
    (hno : max - min + 1 ≤ 2147483647) :
    min ≤ (p.randInt min max).1 ∧ (p.randInt min max).1 ≤ max := by
  rw [randInt_value p min max hmin hmax hle hno]
  have hpos : 0 < max - min + 1 := by omega
  have hr0 := Int.emod_nonneg ((p.next.seed / 65536 : Nat) : Int) (show max - min + 1 ≠ 0 by omega)
  have hr1 := Int.emod_lt_of_pos ((p.next.seed / 65536 : Nat) : Int) hpos
  constructor <;> omega

/-- C8. For every generator state and all `int` values `min`, `max` for which
`max - min + 1` does not overflow, `randInt(min, max)` returns a value in
`[min, max]` when `min ≤ max`, and exactly `min` when `max < min`. -/
theorem randInt_range (p : SimplePRNG) (min max : Int)
    (hmin : IsInt32 min) (hmax : IsInt32 max) (hno : max - min + 1 ≤ 2147483647) :
    (min ≤ max → min ≤ (p.randInt min max).1 ∧ (p.randInt min max).1 ≤ max) ∧
    (max < min → (p.randInt min max).1 = min) := by
  refine ⟨fun hle => randInt_bounds p min max hmin hmax hle hno, fun hlt => ?_⟩
  unfold SimplePRNG.randInt
  simp only [hlt, if_true]

theorem randInt_range_witness :
    (IsInt32 (-7) ∧ IsInt32 5 ∧ (5 : Int) - (-7) + 1 ≤ 2147483647) ∧
    (((-7 : Int) ≤ 5 → (-7 : Int) ≤ ((SimplePRNG.mk 42).randInt (-7) 5).1 ∧
        ((SimplePRNG.mk 42).randInt (-7) 5).1 ≤ 5) ∧
      ((5 : Int) < -7 → ((SimplePRNG.mk 42).randInt (-7) 5).1 = -7)) :=
  ⟨⟨by decide, by decide, by decide⟩,
    randInt_range (SimplePRNG.mk 42) (-7) 5 (by decide) (by decide) (by decide)⟩

/-- Where the call is defined, that is with `max < min` or with
`max - min + 1` representable, `randIntCall` returns what `randInt` computes. -/
theorem randIntCall_eq (p : SimplePRNG) (min max : Int)
    (h : max < min ∨ max - min + 1 ≤ 2147483647) :
    p.randIntCall min max = .ok (p.randInt min max) := by
  unfold SimplePRNG.randIntCall SimplePRNG.randInt
  simp only
  by_cases hlt : max < min
  · rw [if_pos hlt, if_pos hlt]
  · have hno : max - min + 1 ≤ 2147483647 := by omega
    have hn : IsInt32 (max - min + 1) := ⟨by omega, hno⟩
    have hw : wrapInt32 (max - min + 1) = max - min + 1 := toInt32_toUInt32 hn
    rw [if_neg hlt, if_neg hlt, if_neg (by omega), hw]

/-- Every call of `randInt` that the program makes is defined: the generators
call `randInt(0, 100)`, `randInt(0, 39)`, `randInt(0, 12)` and
`randInt(0, n - 1)` with `n` the number of neighbours found. -/
theorem randIntCall_program (p : SimplePRNG) (n : Int) (hn : 0 ≤ n) (hn4 : n ≤ 4) :
    p.randIntCall 0 100 = .ok (p.randInt 0 100) ∧
    p.randIntCall 0 39 = .ok (p.randInt 0 39) ∧
    p.randIntCall 0 12 = .ok (p.randInt 0 12) ∧
    p.randIntCall 0 (n - 1) = .ok (p.randInt 0 (n - 1)) :=
  ⟨randIntCall_eq p 0 100 (Or.inr (by decide)), randIntCall_eq p 0 39 (Or.inr (by decide)),
    randIntCall_eq p 0 12 (Or.inr (by decide)), randIntCall_eq p 0 (n - 1) (Or.inr (by omega))⟩

/-- A call with `min ≤ max` whose `max - min + 1` is not representable does
not return a value. -/
theorem randIntCall_overflow (p : SimplePRNG) (min max : Int) (_hle : min ≤ max)
    (hov : max - min + 1 > 2147483647) :
    p.randIntCall min max = .error .signedOverflow := by
  unfold SimplePRNG.randIntCall
  simp only
  rw [if_neg (by omega), if_pos hov]

/-- C9 at a concrete input: the call `randInt(INT_MIN, INT_MAX)` does not
return, so it leaves no state.  Here `min ≤ max`, the value of `max - min + 1`
is `2^32`, which overflows `int`; wrapped to 32 bits it is 0, the divisor of
`%`. -/
theorem randInt_full_range_traps :
    (IsInt32 (-2147483648) ∧ IsInt32 2147483647 ∧ (-2147483648 : Int) ≤ 2147483647) ∧
    (2147483647 : Int) - (-2147483648) + 1 = 4294967296 ∧
    toUInt32 (wrapInt32 ((2147483647 : Int) - (-2147483648) + 1)) = 0 ∧
    (SimplePRNG.mk 42).randIntCall (-2147483648) 2147483647 = .error .signedOverflow ∧
    ¬ ∃ r, (SimplePRNG.mk 42).randIntCall (-2147483648) 2147483647 = .ok r := by
  have h : (SimplePRNG.mk 42).randIntCall (-2147483648) 2147483647 = .error .signedOverflow :=
    randIntCall_overflow _ _ _ (by decide) (by decide)
  refine ⟨⟨by decide, by decide, by decide⟩, by decide, by decide, h, ?_⟩
  rintro ⟨r, hr⟩
  rw [h] at hr
  cases hr

/-- C9, amended. Every call `randInt(min, max)` on the state `s` with
`max < min`, or with `min ≤ max` and `max - min + 1` representable, returns
and leaves the state `s' = (1103515245 * s + 12345) mod 2^32`; with `max < min`
the value returned is `min`, and with `min ≤ max` it is
`min + ((s' div 65536) mod (max - min + 1))`, also for a negative `min`. -/
theorem randInt_exact (p : SimplePRNG) (min max : Int) (hmin : IsInt32 min)
    (hmax : IsInt32 max) (hdef : max < min ∨ max - min + 1 ≤ 2147483647) :
    ∃ r, p.randIntCall min max = .ok r ∧
      r.2.seed = (1103515245 * p.seed + 12345) % 4294967296 ∧
      (max < min → r.1 = min) ∧
      (min ≤ max → r.1 =
        min + ((((1103515245 * p.seed + 12345) % 4294967296) / 65536 : Nat) : Int)
          % (max - min + 1)) := by
  refine ⟨p.randInt min max, randIntCall_eq p min max hdef, ?_, fun hlt => ?_, fun hle => ?_⟩
  · rw [randInt_state]
    rfl
  · unfold SimplePRNG.randInt
    simp only
    rw [if_pos hlt]
  · have hno : max - min + 1 ≤ 2147483647 := by omega
    rw [randInt_value p min max hmin hmax hle hno]
    rfl

theorem randInt_exact_witness :
    (IsInt32 (-7) ∧ IsInt32 5 ∧ ((5 : Int) < -7 ∨ (5 : Int) - (-7) + 1 ≤ 2147483647)) ∧
    ∃ r, (SimplePRNG.mk 42).randIntCall (-7) 5 = .ok r ∧
      r.2.seed = (1103515245 * (SimplePRNG.mk 42).seed + 12345) % 4294967296 ∧
      ((5 : Int) < -7 → r.1 = -7) ∧
      ((-7 : Int) ≤ 5 → r.1 =
        -7 + ((((1103515245 * (SimplePRNG.mk 42).seed + 12345) % 4294967296) / 65536 : Nat)
          : Int) % ((5 : Int) - (-7) + 1)) :=
  ⟨⟨by decide, by decide, by decide⟩,
    randInt_exact (SimplePRNG.mk 42) (-7) 5 (by decide) (by decide) (by decide)⟩

end DungeonMaker


namespace DungeonMaker

/-! ## Theorems: the grid and the cave generator -/

theorem gridSet_same (g : Grid) (p : Point) (c : Nat) : g.set p c p = c := by
  simp [Grid.set]

theorem gridSet_other (g : Grid) {p q : Point} (c : Nat) (h : q ≠ p) : g.set p c q = g q := by
  simp [Grid.set, h]

theorem mem_interiorXs (x : Int) : x ∈ interiorXs ↔ 1 ≤ x ∧ x ≤ 77 := by
  simp only [interiorXs, DUNGEON_WIDTH, List.mem_map, List.mem_range'_1]
  constructor
  · rintro ⟨a, ⟨h1, h2⟩, rfl⟩
    simp only [Int.ofNat_eq_coe]
    omega
  · rintro ⟨h1, h2⟩
    refine ⟨x.toNat, ⟨by omega, ?_⟩, ?_⟩
    · omega
    · simp only [Int.ofNat_eq_coe]
      omega

theorem mem_interiorYs (y : Int) : y ∈ interiorYs ↔ 1 ≤ y ∧ y ≤ 23 := by
  simp only [interiorYs, DUNGEON_HEIGHT, List.mem_map, List.mem_range'_1]
  constructor
  · rintro ⟨a, ⟨h1, h2⟩, rfl⟩
    simp only [Int.ofNat_eq_coe]
    omega
  · rintro ⟨h1, h2⟩
    refine ⟨y.toNat, ⟨by omega, ?_⟩, ?_⟩
    · omega
    · simp only [Int.ofNat_eq_coe]
      omega

theorem fillCell_other (wp y : Int) (st : Grid × SimplePRNG) (x : Int) (q : Point)
    (h : q ≠ ⟨x, y⟩) : (fillCell wp y st x).1 q = st.1 q := by
  unfold fillCell
  simp only
  split <;> exact gridSet_other _ _ h

theorem foldl_fillCell_other (wp y : Int) (xs : List Int) (st : Grid × SimplePRNG) (q : Point)
    (h : q.y ≠ y ∨ q.x ∉ xs) : (xs.foldl (fillCell wp y) st).1 q = st.1 q := by
  induction xs generalizing st with
  | nil => rfl
  | cons x xs ih =>
    rw [List.foldl_cons, ih]
    · apply fillCell_other
      rintro rfl
      rcases h with h | h
      · exact h rfl
      · exact h (List.mem_cons_self _ _)
    · rcases h with h | h
      · exact Or.inl h
      · exact Or.inr (fun hm => h (List.mem_cons_of_mem _ hm))

theorem foldl_rows_fillCell_other (wp : Int) (ys xs : List Int) (st : Grid × SimplePRNG)
    (q : Point) (h : q.y ∉ ys ∨ q.x ∉ xs) :
    (ys.foldl (fun st y => xs.foldl (fillCell wp y) st) st).1 q = st.1 q := by
  induction ys generalizing st with
  | nil => rfl
  | cons y ys ih =>
    rw [List.foldl_cons, ih]
    · apply foldl_fillCell_other
      rcases h with h | h
      · exact Or.inl (fun hy => h (hy ▸ List.mem_cons_self _ _))
      · exact Or.inr h
    · rcases h with h | h
      · exact Or.inl (fun hm => h (List.mem_cons_of_mem _ hm))
      · exact Or.inr h

/-- The random fill leaves every cell outside the interior as it was. -/
theorem randomFill_other (wp : Int) (st : Grid × SimplePRNG) (q : Point)
    (h : q.y ∉ interiorYs ∨ q.x ∉ interiorXs) : (randomFill wp st).1 q = st.1 q :=
  foldl_rows_fillCell_other wp interiorYs interiorXs st q h

theorem smoothCell_other (grid : Grid) (y : Int) (t : Grid) (x : Int) (q : Point)
    (h : q ≠ ⟨x, y⟩) : smoothCell grid y t x q = t q := by
  unfold smoothCell
  split <;> split <;> first | rfl | exact gridSet_other _ _ h

theorem foldl_smoothCell_other (grid : Grid) (y : Int) (xs : List Int) (t : Grid) (q : Point)
    (h : q.y ≠ y ∨ q.x ∉ xs) : xs.foldl (smoothCell grid y) t q = t q := by
  induction xs generalizing t with
  | nil => rfl
  | cons x xs ih =>
    rw [List.foldl_cons, ih]
    · apply smoothCell_other
      rintro rfl
      rcases h with h | h
      · exact h rfl
      · exact h (List.mem_cons_self _ _)
    · rcases h with h | h
      · exact Or.inl h
      · exact Or.inr (fun hm => h (List.mem_cons_of_mem _ hm))

theorem foldl_rows_smoothCell_other (grid : Grid) (ys xs : List Int) (t : Grid)
    (q : Point) (h : q.y ∉ ys ∨ q.x ∉ xs) :
    ys.foldl (fun t y => xs.foldl (smoothCell grid y) t) t q = t q := by
  induction ys generalizing t with
  | nil => rfl
  | cons y ys ih =>
    rw [List.foldl_cons, ih]
    · apply foldl_smoothCell_other
      rcases h with h | h
      · exact Or.inl (fun hy => h (hy ▸ List.mem_cons_self _ _))
      · exact Or.inr h
    · rcases h with h | h
      · exact Or.inl (fun hm => h (List.mem_cons_of_mem _ hm))
      · exact Or.inr h

/-- A smoothing pass leaves every cell outside the interior as it was. -/
theorem smoothPass_other (grid : Grid) (q : Point)
    (h : q.y ∉ interiorYs ∨ q.x ∉ interiorXs) : smoothPass grid q = grid q :=
  foldl_rows_smoothCell_other grid interiorYs interiorXs grid q h

theorem smoothLoop_other (n : Nat) (grid : Grid) (q : Point)
    (h : q.y ∉ interiorYs ∨ q.x ∉ interiorXs) : smoothLoop n grid q = grid q := by
  induction n generalizing grid with
  | zero => rfl
  | succ n ih => rw [smoothLoop, ih, smoothPass_other grid q h]

/-- C7. For every seed, every number of iterations and every wall probability,
after `generateCellularAutomata` every border cell (`x = 0`, `x = 78`, `y = 0`
or `y = 24`) holds Wall. -/
theorem cave_border_wall (d : Dungeon) (iterations wallProbability : Int) (x y : Int)
    (_hb : isInBounds x y = true) (hborder : x = 0 ∨ x = 78 ∨ y = 0 ∨ y = 24) :
    (generateCellularAutomata d iterations wallProbability).grid ⟨x, y⟩ = WALL_CHAR := by
  have h : (⟨x, y⟩ : Point).y ∉ interiorYs ∨ (⟨x, y⟩ : Point).x ∉ interiorXs := by
    simp only [mem_interiorXs, mem_interiorYs]
    omega
  unfold generateCellularAutomata
  simp only
  rw [smoothLoop_other _ _ _ h, randomFill_other _ _ _ h]
  rfl

theorem cave_border_wall_witness :
    (isInBounds 78 5 = true ∧ ((78 : Int) = 0 ∨ (78 : Int) = 78 ∨ (5 : Int) = 0 ∨ (5 : Int) = 24)) ∧
    (generateCellularAutomata ⟨initializeGrid FLOOR_CHAR, ⟨42⟩⟩ 5 45).grid ⟨78, 5⟩ = WALL_CHAR :=
  ⟨⟨by decide, by decide⟩,
    cave_border_wall ⟨initializeGrid FLOOR_CHAR, ⟨42⟩⟩ 5 45 78 5 (by decide) (by decide)⟩

end DungeonMaker


namespace DungeonMaker

/-! ## Theorems: lists, bounds and moves -/

theorem isInBounds_iff (x y : Int) :
    isInBounds x y = true ↔ 0 ≤ x ∧ x < 79 ∧ 0 ≤ y ∧ y < 25 := by
  simp only [isInBounds, DUNGEON_WIDTH, DUNGEON_HEIGHT, Bool.and_eq_true, decide_eq_true_eq,
    ge_iff_le]
  tauto

theorem mem_dirs8 (d : Int × Int) :
    d ∈ dirs8 ↔ (d.1 = -1 ∨ d.1 = 0 ∨ d.1 = 1) ∧ (d.2 = -1 ∨ d.2 = 0 ∨ d.2 = 1) ∧
      ¬ (d.1 = 0 ∧ d.2 = 0) := by
  obtain ⟨a, b⟩ := d
  simp only [dirs8, List.mem_cons, Prod.mk.injEq, List.mem_singleton, List.not_mem_nil, or_false]
  constructor
  · rintro (h | h | h | h | h | h | h | h) <;> obtain ⟨rfl, rfl⟩ := h <;> decide
  · rintro ⟨h1, h2, h3⟩
    rcases h1 with rfl | rfl | rfl <;> rcases h2 with rfl | rfl | rfl <;> simp at h3 ⊢

/-- The eight moves of `findPath` lead exactly to the 8-adjacent cells. -/
theorem adj8_iff (p q : Point) : Adj8 p q ↔ ∃ d ∈ dirs8, q = moveBy p d := by
  constructor
  · rintro ⟨hne, hx, hy⟩
    refine ⟨(q.x - p.x, q.y - p.y), ?_, ?_⟩
    · rw [mem_dirs8]
      refine ⟨by omega, by omega, ?_⟩
      rintro ⟨h1, h2⟩
      apply hne
      obtain ⟨qx, qy⟩ := q
      obtain ⟨px, py⟩ := p
      simp only at h1 h2
      simp only [Point.mk.injEq]
      omega
    · obtain ⟨qx, qy⟩ := q
      simp only [moveBy, Point.mk.injEq]
      omega
  · rintro ⟨d, hd, rfl⟩
    rw [mem_dirs8] at hd
    obtain ⟨h1, h2, h3⟩ := hd
    refine ⟨?_, ?_, ?_⟩
    · intro h
      apply h3
      obtain ⟨px, py⟩ := p
      simp only [moveBy, Point.mk.injEq] at h
      omega
    · simp only [moveBy]; omega
    · simp only [moveBy]; omega

theorem adj8_moveBy {p : Point} {d : Int × Int} (hd : d ∈ dirs8) : Adj8 p (moveBy p d) :=
  (adj8_iff p _).mpr ⟨d, hd, rfl⟩

/-- A list of distinct cells of the grid has at most `79 * 25` entries. -/
theorem inBounds_nodup_length (l : List Point) (hn : l.Nodup)
    (hb : ∀ p ∈ l, isInBounds p.x p.y = true) : l.length ≤ cellCount := by
  let f : Point → Fin 79 × Fin 25 := fun r =>
    (⟨r.x.toNat % 79, Nat.mod_lt _ (by norm_num)⟩, ⟨r.y.toNat % 25, Nat.mod_lt _ (by norm_num)⟩)
  have hinj : ∀ p ∈ l, ∀ q ∈ l, f p = f q → p = q := by
    intro p hp q hq h
    have h1 := (isInBounds_iff _ _).mp (hb p hp)
    have h2 := (isInBounds_iff _ _).mp (hb q hq)
    obtain ⟨px, py⟩ := p
    obtain ⟨qx, qy⟩ := q
    simp only [f, Prod.mk.injEq, Fin.mk.injEq] at h
    simp only at h1 h2
    simp only [Point.mk.injEq]
    omega
  have hmap : (l.map f).Nodup := List.Nodup.map_on hinj hn
  have hlen := List.Nodup.length_le_card hmap
  rw [List.length_map] at hlen
  have hc : Fintype.card (Fin 79 × Fin 25) = cellCount := by
    rw [Fintype.card_prod, Fintype.card_fin, Fintype.card_fin]
    rfl
  omega

end DungeonMaker


namespace DungeonMaker

/-! ## Theorems: the open list -/

/-- The linear scan returns the first index of least cost. -/
theorem scan_spec (c : Nat → Int) (n : Nat) :
    (List.range' 1 n).foldl (fun best i => if c i < c best then i else best) 0 ≤ n ∧
    (∀ i, i ≤ n →
      c ((List.range' 1 n).foldl (fun best i => if c i < c best then i else best) 0) ≤ c i) ∧
    (∀ i, i < (List.range' 1 n).foldl (fun best i => if c i < c best then i else best) 0 →
      c ((List.range' 1 n).foldl (fun best i => if c i < c best then i else best) 0) < c i) := by
  induction n with
  | zero =>
    refine ⟨le_refl _, ?_, ?_⟩
    · intro i hi
      have : i = 0 := by omega
      subst this
      exact le_refl _
    · intro i hi
      simp at hi
  | succ n ih =>
    rw [List.range'_concat, List.foldl_append]
    simp only [List.foldl_cons, List.foldl_nil, Nat.one_mul]
    obtain ⟨h1, h2, h3⟩ := ih
    set r := (List.range' 1 n).foldl (fun best i => if c i < c best then i else best) 0 with hr
    by_cases hlt : c (1 + n) < c r
    · rw [if_pos hlt]
      refine ⟨by omega, ?_, ?_⟩
      · intro i hi
        by_cases hin : i ≤ n
        · exact le_of_lt (lt_of_lt_of_le hlt (h2 i hin))
        · have : i = 1 + n := by omega
          subst this
          exact le_refl _
      · intro i hi
        exact lt_of_lt_of_le hlt (h2 i (by omega))
    · rw [if_neg hlt]
      refine ⟨by omega, ?_, h3⟩
      intro i hi
      by_cases hin : i ≤ n
      · exact h2 i hin
      · have : i = 1 + n := by omega
        subst this
        exact not_lt.mp hlt

theorem bestNodeIndex_lt (nodes : NodeTable) (l : List Point) (h : l ≠ []) :
    bestNodeIndex nodes l < l.length := by
  have hpos : 0 < l.length := List.length_pos.mpr h
  have := (scan_spec (fun i => (nodes (l.getD i ⟨0, 0⟩)).fCost) (l.length - 1)).1
  unfold bestNodeIndex
  omega

theorem bestNodeIndex_mem (nodes : NodeTable) (l : List Point) (h : l ≠ []) :
    l.getD (bestNodeIndex nodes l) ⟨0, 0⟩ ∈ l := by
  have hlt := bestNodeIndex_lt nodes l h
  rw [List.getD_eq_getElem _ _ hlt]
  exact List.getElem_mem _

/-- The node extracted has the least `fCost` on the open list. -/
theorem bestNodeIndex_min (nodes : NodeTable) (l : List Point) (p : Point) (hp : p ∈ l) :
    (nodes (l.getD (bestNodeIndex nodes l) ⟨0, 0⟩)).fCost ≤ (nodes p).fCost := by
  obtain ⟨i, hi, rfl⟩ := List.mem_iff_getElem.mp hp
  have := (scan_spec (fun i => (nodes (l.getD i ⟨0, 0⟩)).fCost) (l.length - 1)).2.1 i (by omega)
  simp only [List.getD_eq_getElem _ _ hi] at this
  exact this

theorem set_perm_erase (last d : Point) (init : List Point) (b : Nat)
    (hn : (init ++ [last]).Nodup) (hb : b < init.length) :
    (init.set b last).Perm ((init ++ [last]).erase (init.getD b d)) := by
  induction init generalizing b with
  | nil => simp at hb
  | cons a init ih =>
    cases b with
    | zero =>
      simp only [List.set_cons_zero, List.getD_cons_zero, List.cons_append, List.erase_cons_head]
      exact (List.perm_append_singleton last init).symm
    | succ b =>
      have hb' : b < init.length := by simpa using hb
      have hn' : (init ++ [last]).Nodup := by
        simp only [List.cons_append, List.nodup_cons] at hn
        exact hn.2
      have hmem : init.getD b d ∈ init := by
        rw [List.getD_eq_getElem _ _ hb']
        exact List.getElem_mem _
      have hne : a ≠ init.getD b d := by
        intro h
        simp only [List.cons_append, List.nodup_cons, List.mem_append] at hn
        exact hn.1 (Or.inl (h ▸ hmem))
      simp only [List.set_cons_succ, List.getD_cons_succ, List.cons_append]
      rw [List.erase_cons_tail (by simpa using hne)]
      exact List.Perm.cons a (ih b hn' hb')

/-- Removing the extracted entry leaves the other entries, in some order. -/
theorem removeAt_perm (l : List Point) (hn : l.Nodup) (b : Nat) (hb : b < l.length) :
    (removeAt l b).Perm (l.erase (l.getD b ⟨0, 0⟩)) := by
  have hne : l ≠ [] := by
    intro h
    simp [h] at hb
  obtain ⟨init, last, rfl⟩ : ∃ init last, l = init ++ [last] :=
    ⟨l.dropLast, l.getLast hne, (List.dropLast_append_getLast hne).symm⟩
  unfold removeAt
  have hlen : (init ++ [last]).length - 1 = init.length := by simp
  have hlast : (init ++ [last]).getD init.length ⟨0, 0⟩ = last := by simp
  rw [hlen, hlast]
  by_cases hlt : b < init.length
  · rw [List.set_append_left _ _ hlt]
    have htake : (init.set b last ++ [last]).take init.length = init.set b last := by
      have : init.length = (init.set b last).length := by simp
      rw [this, List.take_left]
    rw [htake]
    have hget : (init ++ [last]).getD b ⟨0, 0⟩ = init.getD b ⟨0, 0⟩ := by
      rw [List.getD_eq_getElem _ _ hb, List.getD_eq_getElem _ _ hlt,
        List.getElem_append_left hlt]
    rw [hget]
    exact set_perm_erase last _ init b hn hlt
  · have hbe : b = init.length := by
      simp at hb
      omega
    subst hbe
    rw [List.set_append_right _ _ (le_refl _)]
    simp only [Nat.sub_self, List.set_cons_zero, List.take_left, hlast]
    have hni : last ∉ init := by
      intro h
      rw [List.nodup_append] at hn
      exact hn.2.2 h (List.mem_singleton_self _)
    rw [List.erase_append_right _ hni]
    simp

theorem mem_removeAt (l : List Point) (hn : l.Nodup) (b : Nat) (hb : b < l.length) (p : Point) :
    p ∈ removeAt l b ↔ p ∈ l ∧ p ≠ l.getD b ⟨0, 0⟩ := by
  rw [(removeAt_perm l hn b hb).mem_iff, hn.mem_erase_iff]
  tauto

theorem nodup_removeAt (l : List Point) (hn : l.Nodup) (b : Nat) (hb : b < l.length) :
    (removeAt l b).Nodup :=
  (removeAt_perm l hn b hb).nodup_iff.mpr (hn.erase _)

end DungeonMaker


namespace DungeonMaker

/-! ## Theorems: one relaxation step -/

theorem nodeSet_same (nodes : NodeTable) (p : Point) (n : PathNode) :
    nodes.set p n p = n := by
  simp [NodeTable.set]

theorem nodeSet_other (nodes : NodeTable) {p q : Point} (n : PathNode) (h : q ≠ p) :
    nodes.set p n q = nodes q := by
  simp [NodeTable.set, h]

/-- The body of the loop over the eight moves, with its local names expanded. -/
theorem relaxNeighbor_eq (grid : Grid) (e : Point) (a : Bool) (cur : Point)
    (st : SearchState) (d : Int × Int) :
    relaxNeighbor grid e a cur st d =
      if (!isInBounds (moveBy cur d).x (moveBy cur d).y ||
          decide (grid (moveBy cur d) = WALL_CHAR) || (st.nodes (moveBy cur d)).isClosed) = true
      then st
      else if (st.nodes cur).gCost + 1 < (st.nodes (moveBy cur d)).gCost then
        if (st.nodes (moveBy cur d)).isOpen = true then
          { nodes := st.nodes.set (moveBy cur d)
              { pos := (st.nodes (moveBy cur d)).pos,
                gCost := (st.nodes cur).gCost + 1,
                hCost := if a = true then manhattan (moveBy cur d) e
                  else (st.nodes (moveBy cur d)).hCost,
                fCost := (st.nodes cur).gCost + 1 +
                  (if a = true then manhattan (moveBy cur d) e
                    else (st.nodes (moveBy cur d)).hCost),
                parent := some cur,
                isOpen := (st.nodes (moveBy cur d)).isOpen,
                isClosed := (st.nodes (moveBy cur d)).isClosed },
            openList := st.openList }
        else
          { nodes := st.nodes.set (moveBy cur d)
              { pos := (st.nodes (moveBy cur d)).pos,
                gCost := (st.nodes cur).gCost + 1,
                hCost := if a = true then manhattan (moveBy cur d) e
                  else (st.nodes (moveBy cur d)).hCost,
                fCost := (st.nodes cur).gCost + 1 +
                  (if a = true then manhattan (moveBy cur d) e
                    else (st.nodes (moveBy cur d)).hCost),
                parent := some cur,
                isOpen := true,
                isClosed := (st.nodes (moveBy cur d)).isClosed },
            openList := st.openList ++ [moveBy cur d] }
      else st := by
  unfold relaxNeighbor
  simp only [show (⟨cur.x + d.1, cur.y + d.2⟩ : Point) = moveBy cur d from rfl]
  cases a <;> cases h : (st.nodes (moveBy cur d)).isOpen <;> simp [h, moveBy]

/-- What the body of the loop over the eight moves does: nothing, when the cell
cannot be entered, is closed or has no larger cost; otherwise it rewrites the
node of the cell and appends the cell to the open list unless it is there. -/
theorem relaxNeighbor_cases (grid : Grid) (e : Point) (a : Bool) (cur : Point)
    (st : SearchState) (d : Int × Int) :
    (relaxNeighbor grid e a cur st d = st ∧
      (¬ Passable grid (moveBy cur d) ∨ (st.nodes (moveBy cur d)).isClosed = true ∨
        ((st.nodes (moveBy cur d)).isClosed = false ∧
          (st.nodes (moveBy cur d)).gCost ≤ (st.nodes cur).gCost + 1))) ∨
    (Passable grid (moveBy cur d) ∧ (st.nodes (moveBy cur d)).isClosed = false ∧
      (st.nodes cur).gCost + 1 < (st.nodes (moveBy cur d)).gCost ∧
      ∃ nd : PathNode, nd.pos = (st.nodes (moveBy cur d)).pos ∧
        nd.gCost = (st.nodes cur).gCost + 1 ∧ nd.parent = some cur ∧
        nd.isOpen = true ∧ nd.isClosed = false ∧
        (a = false → nd.hCost = (st.nodes (moveBy cur d)).hCost) ∧
        nd.fCost = nd.gCost + nd.hCost ∧
        relaxNeighbor grid e a cur st d =
          { nodes := st.nodes.set (moveBy cur d) nd,
            openList := if (st.nodes (moveBy cur d)).isOpen = true then st.openList
              else st.openList ++ [moveBy cur d] }) := by
  rw [relaxNeighbor_eq]
  unfold Passable
  generalize moveBy cur d = n
  by_cases hb : isInBounds n.x n.y = true
  swap
  · left
    simp only [Bool.not_eq_true] at hb
    simp [hb]
  by_cases hw : grid n = WALL_CHAR
  · left
    simp [hw]
  by_cases hc : (st.nodes n).isClosed = true
  · left
    simp [hc]
  have hc' : (st.nodes n).isClosed = false := by simpa using hc
  have hcond : (!isInBounds n.x n.y ||
      decide (grid n = WALL_CHAR) || (st.nodes n).isClosed) = false := by
    simp [hb, hw, hc']
  simp only [hcond, Bool.false_eq_true, if_false]
  by_cases hlt : (st.nodes cur).gCost + 1 < (st.nodes n).gCost
  swap
  · left
    simp only [if_neg hlt, true_and]
    right; right
    exact ⟨hc', not_lt.mp hlt⟩
  right
  simp only [if_pos hlt]
  refine ⟨⟨hb, hw⟩, hc', hlt, ?_⟩
  by_cases ho : (st.nodes n).isOpen = true
  · simp only [ho, if_true]
    exact ⟨{
        pos := (st.nodes n).pos, gCost := (st.nodes cur).gCost + 1,
        hCost := if a = true then manhattan n e else (st.nodes n).hCost,
        fCost := (st.nodes cur).gCost + 1 +
          (if a = true then manhattan n e else (st.nodes n).hCost),
        parent := some cur, isOpen := true, isClosed := (st.nodes n).isClosed },
      rfl, rfl, rfl, rfl, hc', fun ha => by simp [ha], rfl, rfl⟩
  · simp only [ho, if_false]
    exact ⟨{
        pos := (st.nodes n).pos, gCost := (st.nodes cur).gCost + 1,
        hCost := if a = true then manhattan n e else (st.nodes n).hCost,
        fCost := (st.nodes cur).gCost + 1 +
          (if a = true then manhattan n e else (st.nodes n).hCost),
        parent := some cur, isOpen := true, isClosed := (st.nodes n).isClosed },
      rfl, rfl, rfl, rfl, hc', fun ha => by simp [ha], rfl, rfl⟩

end DungeonMaker


namespace DungeonMaker

/-! ## Theorems: the invariant is kept by the relaxation of a move -/

theorem SearchCore.k_le {grid : Grid} {s : Point} {a : Bool} {k : Nat} {st : SearchState}
    (h : SearchCore grid s a k st) : k ≤ cellCount := by
  obtain ⟨cl, hn, hl, hm⟩ := h.closed_list
  rw [← hl]
  exact inBounds_nodup_length cl hn (fun p hp => h.inb p (Or.inr ((hm p).mp hp)))

theorem initNodes_gCost (p : Point) : (initNodes p).gCost = 1000000 := rfl

theorem cellCount_eq : cellCount = 1975 := rfl

/-- A node that is neither open nor closed has the cost `1000000`, which no
node reached by the search has. -/
theorem SearchCore.visited_of_gCost_le {grid : Grid} {s : Point} {a : Bool} {k : Nat}
    {st : SearchState} (h : SearchCore grid s a k st) (p : Point) (c : Int)
    (hc : c ≤ k) (hp : (st.nodes p).gCost ≤ c + 1) (hnc : (st.nodes p).isClosed = false) :
    (st.nodes p).isOpen = true := by
  by_contra ho
  have ho' : (st.nodes p).isOpen = false := by simpa using ho
  have hf := h.fresh p ho' hnc
  rw [hf, initNodes_gCost] at hp
  have := h.k_le
  rw [cellCount_eq] at this
  omega

theorem relaxed_skip {grid : Grid} {s e : Point} {a : Bool} {k : Nat} {cur : Point}
    {done : List (Int × Int)} {st : SearchState} (d : Int × Int)
    (h : MidInv grid s e a k cur done st)
    (hcase : ¬ Passable grid (moveBy cur d) ∨ (st.nodes (moveBy cur d)).isClosed = true ∨
        ((st.nodes (moveBy cur d)).isClosed = false ∧
          (st.nodes (moveBy cur d)).gCost ≤ (st.nodes cur).gCost + 1)) :
    Relaxed grid cur (done ++ [d]) st := by
  intro q hq d' hd' hcond hpass
  by_cases hqc : q = cur
  · subst hqc
    have hmem := hcond rfl
    rw [List.mem_append, List.mem_singleton] at hmem
    rcases hmem with hmem | rfl
    · exact h.relaxed q hq d' hd' (fun _ => hmem) hpass
    · rcases hcase with hnp | hcl | ⟨hncl, hle⟩
      · exact absurd hpass hnp
      · exact Or.inl hcl
      · right
        refine ⟨?_, hle⟩
        have hg := h.core.g_closed q hq
        exact h.core.visited_of_gCost_le _ _ (le_of_lt hg) hle hncl
  · exact h.relaxed q hq d' hd' (fun hc => absurd hc hqc) hpass

theorem toNat_succ_of_nonneg {g : Int} (h : 0 ≤ g) : (g + 1).toNat = g.toNat + 1 := by
  omega

/-- Relaxing one more move of the extracted cell keeps the invariant. -/
theorem mid_relax {grid : Grid} {s e : Point} {a : Bool} {k : Nat} {cur : Point}
    {done : List (Int × Int)} {st : SearchState} (d : Int × Int) (hd : d ∈ dirs8)
    (h : MidInv grid s e a k cur done st) :
    MidInv grid s e a k cur (done ++ [d]) (relaxNeighbor grid e a cur st d) := by
  rcases relaxNeighbor_cases grid e a cur st d with
    ⟨heq, hcase⟩ | ⟨hpass, hnc, hlt, nd, hpos, hg, hpar, hop, hcl, hh, hf, heq⟩
  · rw [heq]
    exact ⟨h.core, h.cur_closed, h.start_closed, relaxed_skip d h hcase, h.not_end⟩
  rw [heq]
  have hc := h.core
  set n := moveBy cur d with hn
  have hncur : cur ≠ n := by
    intro hEq
    have := h.cur_closed
    rw [hEq, hnc] at this
    exact Bool.false_ne_true this
  have hns : s ≠ n := by
    intro hEq
    have := h.start_closed
    rw [hEq, hnc] at this
    exact Bool.false_ne_true this
  have hgcur := hc.g_closed cur h.cur_closed
  have hgcur0 := hc.g_nonneg cur (Or.inr h.cur_closed)
  obtain ⟨ol, hol, hmem, hnd⟩ : ∃ ol : List Point,
      (if (st.nodes n).isOpen = true then st.openList else st.openList ++ [n]) = ol ∧
      (∀ p, p ∈ ol ↔ (p ∈ st.openList ∨ p = n)) ∧ ol.Nodup := by
    by_cases ho : (st.nodes n).isOpen = true
    · refine ⟨st.openList, by simp [ho], fun p => ⟨Or.inl, ?_⟩, hc.nodup⟩
      rintro (hp | rfl)
      · exact hp
      · exact (hc.open_iff _).mpr ho
    · refine ⟨st.openList ++ [n], by simp [ho], fun p => by simp, ?_⟩
      rw [List.nodup_append]
      refine ⟨hc.nodup, List.nodup_singleton _, ?_⟩
      intro x hx hx'
      rw [List.mem_singleton] at hx'
      subst hx'
      exact ho ((hc.open_iff _).mp hx)
  rw [hol]
  have hclosed_iff : ∀ p, (st.nodes.set n nd p).isClosed = (st.nodes p).isClosed := by
    intro p
    by_cases hp : p = n
    · subst hp; rw [nodeSet_same, hcl, hnc]
    · rw [nodeSet_other _ _ hp]
  have hvis : ∀ p, p ≠ n → (Visited ⟨st.nodes.set n nd, ol⟩ p ↔ Visited st p) := by
    intro p hp
    simp only [Visited, nodeSet_other _ _ hp]
  have hcore : SearchCore grid s a k ⟨st.nodes.set n nd, ol⟩ := by
    refine
      { pos := ?_, open_iff := ?_, nodup := ?_, open_not_closed := ?_, inb := ?_, fresh := ?_,
        start_node := ?_, start_first := ?_, parent := ?_, g_nonneg := ?_, g_open := ?_,
        g_closed := ?_, reach := ?_, closed_list := ?_, uniform := ?_, optimal := ?_ }
    · intro p
      by_cases hp : p = n
      · subst hp; simp only [nodeSet_same]; rw [hpos]; exact hc.pos _
      · simp only [nodeSet_other _ _ hp]; exact hc.pos p
    · intro p
      dsimp only
      rw [hmem]
      by_cases hp : p = n
      · subst hp
        simp only [nodeSet_same, hop, or_true]
      · simp only [nodeSet_other _ _ hp, hp, or_false]
        exact hc.open_iff p
    · exact hnd
    · intro p hpo
      by_cases hp : p = n
      · subst hp; simp only [nodeSet_same]; exact hcl
      · simp only [nodeSet_other _ _ hp] at hpo ⊢; exact hc.open_not_closed p hpo
    · intro p hv
      by_cases hp : p = n
      · subst hp; exact hpass.1
      · exact hc.inb p ((hvis p hp).mp hv)
    · intro p hpo hpc
      by_cases hp : p = n
      · subst hp
        simp only [nodeSet_same] at hpo
        rw [hop] at hpo
        exact absurd hpo (by simp)
      · simp only [nodeSet_other _ _ hp] at hpo hpc ⊢; exact hc.fresh p hpo hpc
    · simp only [nodeSet_other _ _ hns]
      exact ⟨hc.start_node.1, hc.start_node.2.1, (hvis s hns).mpr hc.start_node.2.2⟩
    · refine ⟨fun hk => ?_, fun _ => ?_⟩
      · omega
      · simp only [nodeSet_other _ _ hns]; exact h.start_closed
    · intro p hps hv
      by_cases hp : p = n
      · subst hp
        refine ⟨cur, ?_, ?_, ?_, adj8_moveBy hd, hpass⟩
        · simp only [nodeSet_same]; exact hpar
        · simp only [nodeSet_other _ _ hncur]; exact h.cur_closed
        · simp only [nodeSet_same, nodeSet_other _ _ hncur]; exact hg
      · obtain ⟨q, hq1, hq2, hq3, hq4, hq5⟩ := hc.parent p hps ((hvis p hp).mp hv)
        have hqn : q ≠ n := by
          rintro rfl
          rw [hnc] at hq2
          exact Bool.false_ne_true hq2
        refine ⟨q, ?_, ?_, ?_, hq4, hq5⟩
        · simp only [nodeSet_other _ _ hp]; exact hq1
        · simp only [nodeSet_other _ _ hqn]; exact hq2
        · simp only [nodeSet_other _ _ hp, nodeSet_other _ _ hqn]; exact hq3
    · intro p hv
      by_cases hp : p = n
      · subst hp; simp only [nodeSet_same]; omega
      · simp only [nodeSet_other _ _ hp]; exact hc.g_nonneg p ((hvis p hp).mp hv)
    · intro p hpo
      by_cases hp : p = n
      · subst hp; simp only [nodeSet_same]; omega
      · simp only [nodeSet_other _ _ hp] at hpo ⊢; exact hc.g_open p hpo
    · intro p hpc
      dsimp only at hpc
      rw [hclosed_iff] at hpc
      have hp : p ≠ n := by
        rintro rfl
        rw [hnc] at hpc
        exact Bool.false_ne_true hpc
      simp only [nodeSet_other _ _ hp]
      exact hc.g_closed p hpc
    · intro p hv
      by_cases hp : p = n
      · subst hp
        simp only [nodeSet_same]
        rw [hg, toNat_succ_of_nonneg hgcur0]
        exact Walk.step (hc.reach cur (Or.inr h.cur_closed)) (adj8_moveBy hd) hpass
      · simp only [nodeSet_other _ _ hp]; exact hc.reach p ((hvis p hp).mp hv)
    · obtain ⟨cl, h1, h2, h3⟩ := hc.closed_list
      refine ⟨cl, h1, h2, fun p => ?_⟩
      dsimp only
      rw [hclosed_iff]
      exact h3 p
    · intro ha p
      by_cases hp : p = n
      · subst hp
        simp only [nodeSet_same]
        have h0 := (hc.uniform ha n).1
        rw [hf, hh ha, h0]
        exact ⟨rfl, by omega⟩
      · simp only [nodeSet_other _ _ hp]; exact hc.uniform ha p
    · intro ha q hq m hw
      dsimp only at hq
      rw [hclosed_iff] at hq
      have hp : q ≠ n := by
        rintro rfl
        rw [hnc] at hq
        exact Bool.false_ne_true hq
      simp only [nodeSet_other _ _ hp]
      exact hc.optimal ha q hq m hw
  refine ⟨hcore, ?_, ?_, ?_, ?_⟩
  · simp only [nodeSet_other _ _ hncur]; exact h.cur_closed
  · simp only [nodeSet_other _ _ hns]; exact h.start_closed
  · intro q hq d' hd' hcond hpass'
    dsimp only at hq ⊢
    rw [hclosed_iff] at hq
    have hqn : q ≠ n := by
      rintro rfl
      rw [hnc] at hq
      exact Bool.false_ne_true hq
    rw [hclosed_iff, nodeSet_other _ _ hqn]
    by_cases ht : moveBy q d' = n
    · right
      rw [ht, nodeSet_same]
      refine ⟨hop, ?_⟩
      rw [hg]
      by_cases hqc : q = cur
      · subst hqc; exact le_refl _
      · have := h.relaxed q hq d' hd' (fun hc' => absurd hc' hqc) hpass'
        rw [ht] at this
        rcases this with hcl' | ⟨_, hle⟩
        · rw [hnc] at hcl'
          exact absurd hcl' Bool.false_ne_true
        · omega
    · rw [nodeSet_other _ _ ht]
      by_cases hqc : q = cur
      · have hmem := hcond hqc
        rw [List.mem_append, List.mem_singleton] at hmem
        rcases hmem with hmem | rfl
        · exact h.relaxed q hq d' hd' (fun _ => hmem) hpass'
        · exact absurd (hqc ▸ rfl) ht
      · exact h.relaxed q hq d' hd' (fun hc' => absurd hc' hqc) hpass'
  · intro q hq hqcur
    dsimp only at hq
    rw [hclosed_iff] at hq
    exact h.not_end q hq hqcur

/-- Relaxing a list of moves keeps the invariant. -/
theorem mid_fold {grid : Grid} {s e : Point} {a : Bool} {k : Nat} {cur : Point}
    (ds : List (Int × Int)) (hds : ∀ d ∈ ds, d ∈ dirs8) (done : List (Int × Int))
    (st : SearchState) (h : MidInv grid s e a k cur done st) :
    MidInv grid s e a k cur (done ++ ds) (ds.foldl (relaxNeighbor grid e a cur) st) := by
  induction ds generalizing done st with
  | nil => simpa using h
  | cons d ds ih =>
    rw [List.foldl_cons]
    have := ih (fun d' hd' => hds d' (List.mem_cons_of_mem _ hd')) (done ++ [d]) _
      (mid_relax d (hds d (List.mem_cons_self _ _)) h)
    simpa using this

end DungeonMaker


namespace DungeonMaker

/-! ## Theorems: the extraction step -/

/-- In Dijkstra mode, at the head of the loop, a walk of `n` steps ends in a
closed node of cost at most `n`, or some open node has cost at most `n`. -/
theorem frontier {grid : Grid} {s e : Point} {a : Bool} {k : Nat} {st : SearchState}
    (h : LoopInv grid s e a k st) (ha : a = false) (p : Point) (n : Nat)
    (hw : Walk grid s p n) :
    ((st.nodes p).isClosed = true ∧ (st.nodes p).gCost ≤ n) ∨
    ∃ w, (st.nodes w).isOpen = true ∧ (st.nodes w).gCost ≤ n := by
  induction hw with
  | start =>
    have hs := h.core.start_node
    rcases hs.2.2 with ho | hcl
    · exact Or.inr ⟨s, ho, by rw [hs.2.1]; exact le_refl _⟩
    · exact Or.inl ⟨hcl, by rw [hs.2.1]; exact le_refl _⟩
  | @step p q m hwp hadj hpass ih =>
    rcases ih with ⟨hcl, hle⟩ | ⟨w, hwo, hwle⟩
    · obtain ⟨d, hd, rfl⟩ := (adj8_iff p q).mp hadj
      rcases h.relaxed p p hcl d hd (fun _ => hd) hpass with hclq | ⟨hoq, hleq⟩
      · exact Or.inl ⟨hclq, h.core.optimal ha _ hclq (m + 1) (Walk.step hwp hadj hpass)⟩
      · refine Or.inr ⟨_, hoq, ?_⟩
        push_cast
        omega
    · refine Or.inr ⟨w, hwo, ?_⟩
      push_cast
      omega

/-- Extracting the best open node leads from the invariant at the head of the
loop to the invariant inside the iteration, with no move relaxed yet. -/
theorem extract_mid {grid : Grid} {s e : Point} {a : Bool} {k : Nat} {st : SearchState}
    (h : LoopInv grid s e a k st) (hne : st.openList ≠ []) :
    MidInv grid s e a (k + 1) (st.openList.getD (bestNodeIndex st.nodes st.openList) ⟨0, 0⟩) []
      { nodes := st.nodes.set (st.openList.getD (bestNodeIndex st.nodes st.openList) ⟨0, 0⟩)
          { st.nodes (st.openList.getD (bestNodeIndex st.nodes st.openList) ⟨0, 0⟩) with
            isOpen := false, isClosed := true },
        openList := removeAt st.openList (bestNodeIndex st.nodes st.openList) } := by
  have hc := h.core
  have hblt := bestNodeIndex_lt st.nodes st.openList hne
  have hbmem := bestNodeIndex_mem st.nodes st.openList hne
  have hbmin := bestNodeIndex_min st.nodes st.openList
  set cur := st.openList.getD (bestNodeIndex st.nodes st.openList) ⟨0, 0⟩ with hcur
  have hopen : (st.nodes cur).isOpen = true := (hc.open_iff cur).mp hbmem
  have hncl : (st.nodes cur).isClosed = false := hc.open_not_closed cur hopen
  set nd : PathNode := { st.nodes cur with isOpen := false, isClosed := true } with hnd
  have hclosed : ∀ p, (st.nodes.set cur nd p).isClosed = true ↔
      (p = cur ∨ (st.nodes p).isClosed = true) := by
    intro p
    by_cases hp : p = cur
    · subst hp; simp [nodeSet_same, hnd]
    · simp [nodeSet_other _ _ hp, hp]
  have hopen_iff : ∀ p, (st.nodes.set cur nd p).isOpen = true ↔
      (p ≠ cur ∧ (st.nodes p).isOpen = true) := by
    intro p
    by_cases hp : p = cur
    · subst hp; simp [nodeSet_same, hnd]
    · simp [nodeSet_other _ _ hp, hp]
  have hg : ∀ p, (st.nodes.set cur nd p).gCost = (st.nodes p).gCost := by
    intro p
    by_cases hp : p = cur
    · subst hp; simp [nodeSet_same, hnd]
    · simp [nodeSet_other _ _ hp]
  have hpar : ∀ p, (st.nodes.set cur nd p).parent = (st.nodes p).parent := by
    intro p
    by_cases hp : p = cur
    · subst hp; simp [nodeSet_same, hnd]
    · simp [nodeSet_other _ _ hp]
  have hvis : ∀ p, Visited ⟨st.nodes.set cur nd,
      removeAt st.openList (bestNodeIndex st.nodes st.openList)⟩ p ↔ Visited st p := by
    intro p
    simp only [Visited, hclosed, hopen_iff]
    constructor
    · rintro (⟨_, ho⟩ | rfl | hcl)
      · exact Or.inl ho
      · exact Or.inl hopen
      · exact Or.inr hcl
    · rintro (ho | hcl)
      · by_cases hp : p = cur
        · exact Or.inr (Or.inl hp)
        · exact Or.inl ⟨hp, ho⟩
      · exact Or.inr (Or.inr hcl)
  have hstart : (st.nodes.set cur nd s).isClosed = true := by
    rw [hclosed]
    by_cases hk : k = 0
    · left
      have := hc.start_first.1 hk
      rw [this] at hbmem
      exact (List.mem_singleton.mp hbmem).symm
    · exact Or.inr (hc.start_first.2 (Nat.pos_of_ne_zero hk))
  have hcore : SearchCore grid s a (k + 1) ⟨st.nodes.set cur nd,
      removeAt st.openList (bestNodeIndex st.nodes st.openList)⟩ := by
    refine
      { pos := ?_, open_iff := ?_, nodup := ?_, open_not_closed := ?_, inb := ?_, fresh := ?_,
        start_node := ?_, start_first := ?_, parent := ?_, g_nonneg := ?_, g_open := ?_,
        g_closed := ?_, reach := ?_, closed_list := ?_, uniform := ?_, optimal := ?_ }
    · intro p
      by_cases hp : p = cur
      · subst hp; simp only [nodeSet_same, hnd]; exact hc.pos _
      · simp only [nodeSet_other _ _ hp]; exact hc.pos p
    · intro p
      dsimp only
      rw [mem_removeAt _ hc.nodup _ hblt, hopen_iff, hc.open_iff]
      tauto
    · exact nodup_removeAt _ hc.nodup _ hblt
    · intro p hpo
      dsimp only at hpo ⊢
      rw [hopen_iff] at hpo
      rw [nodeSet_other _ _ hpo.1]
      exact hc.open_not_closed p hpo.2
    · intro p hv
      exact hc.inb p ((hvis p).mp hv)
    · intro p hpo hpc
      by_cases hp : p = cur
      · subst hp
        simp [nodeSet_same, hnd] at hpc
      · simp only [nodeSet_other _ _ hp] at hpo hpc ⊢
        exact hc.fresh p hpo hpc
    · refine ⟨?_, ?_, (hvis s).mpr hc.start_node.2.2⟩
      · dsimp only; rw [hpar]; exact hc.start_node.1
      · dsimp only; rw [hg]; exact hc.start_node.2.1
    · exact ⟨fun hk => absurd hk (Nat.succ_ne_zero k), fun _ => hstart⟩
    · intro p hps hv
      obtain ⟨q, hq1, hq2, hq3, hq4, hq5⟩ := hc.parent p hps ((hvis p).mp hv)
      refine ⟨q, ?_, ?_, ?_, hq4, hq5⟩
      · dsimp only; rw [hpar]; exact hq1
      · dsimp only; rw [hclosed]; exact Or.inr hq2
      · dsimp only; rw [hg, hg]; exact hq3
    · intro p hv
      dsimp only
      rw [hg]
      exact hc.g_nonneg p ((hvis p).mp hv)
    · intro p hpo
      dsimp only at hpo ⊢
      rw [hopen_iff] at hpo
      rw [hg]
      have := hc.g_open p hpo.2
      push_cast
      omega
    · intro p hpc
      dsimp only at hpc ⊢
      rw [hclosed] at hpc
      rw [hg]
      push_cast
      rcases hpc with rfl | hpc
      · have := hc.g_open _ hopen
        omega
      · have := hc.g_closed p hpc
        omega
    · intro p hv
      dsimp only
      rw [hg]
      exact hc.reach p ((hvis p).mp hv)
    · obtain ⟨cl, h1, h2, h3⟩ := hc.closed_list
      refine ⟨cur :: cl, ?_, by simp [h2], fun p => ?_⟩
      · rw [List.nodup_cons]
        refine ⟨fun hm => ?_, h1⟩
        have := (h3 cur).mp hm
        rw [hncl] at this
        exact Bool.false_ne_true this
      · dsimp only
        rw [hclosed, List.mem_cons, h3]
    · intro ha p
      by_cases hp : p = cur
      · subst hp; simp only [nodeSet_same, hnd]; exact hc.uniform ha _
      · simp only [nodeSet_other _ _ hp]; exact hc.uniform ha p
    · intro ha q hq m hw
      dsimp only at hq ⊢
      rw [hclosed] at hq
      rw [hg]
      rcases hq with rfl | hq
      · rcases frontier h ha _ m hw with ⟨hcl, _⟩ | ⟨w, hwo, hwle⟩
        · rw [hncl] at hcl
          exact absurd hcl Bool.false_ne_true
        · have h1 := hbmin w ((hc.open_iff w).mpr hwo)
          rw [(hc.uniform ha _).2, (hc.uniform ha w).2] at h1
          exact le_trans h1 hwle
      · exact hc.optimal ha q hq m hw
  refine ⟨hcore, ?_, hstart, ?_, ?_⟩
  · dsimp only; rw [hclosed]; exact Or.inl rfl
  · intro q hq d hd hcond hpass
    dsimp only at hq ⊢
    rw [hclosed] at hq
    have hqc : q ≠ cur := fun hEq => by
      have := hcond hEq
      simp at this
    rcases hq with hq | hq
    · exact absurd hq hqc
    · rw [hclosed, hopen_iff, hg, hg]
      rcases h.relaxed q q hq d hd (fun _ => hd) hpass with hcl | ⟨ho, hle⟩
      · exact Or.inl (Or.inr hcl)
      · by_cases ht : moveBy q d = cur
        · exact Or.inl (Or.inl ht)
        · exact Or.inr ⟨⟨ht, ho⟩, hle⟩
  · intro q hq hqc
    dsimp only at hq
    rw [hclosed] at hq
    rcases hq with hq | hq
    · exact absurd hq hqc
    · exact h.not_end q hq

/-- Once all eight moves are relaxed and the extracted cell was not the end,
the invariant at the head of the loop holds again. -/
theorem mid_to_loop {grid : Grid} {s e : Point} {a : Bool} {k : Nat} {cur : Point}
    {st : SearchState} (h : MidInv grid s e a k cur dirs8 st) (hce : cur ≠ e) :
    LoopInv grid s e a k st := by
  refine ⟨h.core, ?_, ?_⟩
  · intro cur' q hq d hd _ hpass
    exact h.relaxed q hq d hd (fun _ => hd) hpass
  · intro q hq
    by_cases hqc : q = cur
    · rw [hqc]; exact hce
    · exact h.not_end q hq hqc

end DungeonMaker


namespace DungeonMaker

/-! ## Theorems: the search loop -/

/-- The parent links of a reached node lead to a node of cost one less, and the
start node has none. -/
theorem SearchCore.parent_cases {grid : Grid} {s : Point} {a : Bool} {k : Nat}
    {st : SearchState} (h : SearchCore grid s a k st) (p : Point) (hv : Visited st p) :
    ((st.nodes p).parent = none ∧ (st.nodes p).gCost = 0 ∧ p = s) ∨
    ∃ q, (st.nodes p).parent = some q ∧ Visited st q ∧
      (st.nodes p).gCost = (st.nodes q).gCost + 1 := by
  by_cases hp : p = s
  · subst hp
    exact Or.inl ⟨h.start_node.1, h.start_node.2.1, rfl⟩
  · obtain ⟨q, h1, h2, h3, _, _⟩ := h.parent p hp hv
    exact Or.inr ⟨q, h1, Or.inr h2, h3⟩

theorem reconstructLoop_none (nodes : NodeTable) (fuel : Nat) (g : Grid) (succ : Option Point) :
    reconstructLoop nodes fuel g succ none = .ok g := by
  cases fuel <;> rfl

theorem reconstructLoop_succ (nodes : NodeTable) (fuel : Nat) (g : Grid) (succ : Option Point)
    (cur : Point) :
    reconstructLoop nodes (fuel + 1) g succ (some cur) =
      reconstructLoop nodes fuel (drawSegment nodes g succ cur (nodes cur).parent) (some cur)
        (nodes cur).parent := rfl

/-- The loop of `reconstructPath` ends within the fuel, which exceeds the cost
of the node it starts from. -/
theorem reconstructLoop_ok {grid : Grid} {s : Point} {a : Bool} {k : Nat}
    {st : SearchState} (h : SearchCore grid s a k st) (fuel : Nat) (g : Grid)
    (succ : Option Point) (p : Point) (hv : Visited st p)
    (hf : (st.nodes p).gCost < fuel) :
    ∃ g1, reconstructLoop st.nodes fuel g succ (some p) = .ok g1 := by
  induction fuel generalizing g succ p with
  | zero =>
    have := h.g_nonneg p hv
    simp at hf
    omega
  | succ fuel ih =>
    rw [reconstructLoop_succ]
    rcases h.parent_cases p hv with ⟨hp, _, _⟩ | ⟨q, hq, hvq, hg⟩
    · rw [hp]
      exact ⟨_, reconstructLoop_none _ _ _ _⟩
    · rw [hq]
      apply ih
      · exact hvq
      · push_cast at hf
        omega

/-- The parent chain of a reached node leads back to the start node and has
as many links as the node's cost. -/
theorem parentChain_spec {grid : Grid} {s : Point} {a : Bool} {k : Nat}
    {st : SearchState} (h : SearchCore grid s a k st) (fuel : Nat) (p : Point)
    (hv : Visited st p) (hf : (st.nodes p).gCost ≤ fuel) :
    ∃ l, parentChain st.nodes fuel p = some l ∧ l.head? = some p ∧ l.getLast? = some s ∧
      l.length = (st.nodes p).gCost.toNat + 1 := by
  induction fuel generalizing p with
  | zero =>
    have h0 := h.g_nonneg p hv
    rcases h.parent_cases p hv with ⟨hp, hg, hps⟩ | ⟨q, hq, hvq, hgq⟩
    · refine ⟨[p], by simp [parentChain, hp], rfl, by simp [hps], by simp [hg]⟩
    · have := h.g_nonneg q hvq
      simp at hf
      omega
  | succ fuel ih =>
    rcases h.parent_cases p hv with ⟨hp, hg, hps⟩ | ⟨q, hq, hvq, hgq⟩
    · refine ⟨[p], by simp [parentChain, hp], rfl, by simp [hps], by simp [hg]⟩
    · have h0 := h.g_nonneg q hvq
      have hfq : (st.nodes q).gCost ≤ fuel := by
        push_cast at hf
        omega
      obtain ⟨l, hl, hhead, hlast, hlen⟩ := ih q hvq hfq
      refine ⟨p :: l, by simp [parentChain, hq, hl], rfl, ?_, ?_⟩
      · cases l with
        | nil => simp at hhead
        | cons b l => rw [List.getLast?_cons_cons]; exact hlast
      · rw [List.length_cons, hlen, hgq]
        omega

/-- The state before the first iteration satisfies the invariant. -/
theorem init_inv (grid : Grid) (s e : Point) (a : Bool) (hs : isInBounds s.x s.y = true) :
    LoopInv grid s e a 0 (searchInit s e a) := by
  have hnodes_s : (searchInit s e a).nodes s =
      { pos := s, gCost := 0, hCost := if a = true then manhattan s e else 0,
        fCost := 0 + (if a = true then manhattan s e else 0), parent := none,
        isOpen := true, isClosed := false } := by
    unfold searchInit
    simp only [nodeSet_same]
    cases a <;> rfl
  have hnodes_o : ∀ p, p ≠ s → (searchInit s e a).nodes p = initNodes p := by
    intro p hp
    unfold searchInit
    simp only [nodeSet_other _ _ hp]
  have hol : (searchInit s e a).openList = [s] := rfl
  have hclosed : ∀ p, ((searchInit s e a).nodes p).isClosed = false := by
    intro p
    by_cases hp : p = s
    · subst hp; rw [hnodes_s]
    · rw [hnodes_o p hp]; rfl
  have hopen : ∀ p, ((searchInit s e a).nodes p).isOpen = true ↔ p = s := by
    intro p
    by_cases hp : p = s
    · subst hp; rw [hnodes_s]; simp
    · rw [hnodes_o p hp]; simp [initNodes, hp]
  have hvis : ∀ p, Visited (searchInit s e a) p ↔ p = s := by
    intro p
    simp only [Visited, hclosed, hopen]
    simp
  have hcl_false : ∀ p, ((searchInit s e a).nodes p).isClosed = true → False := by
    intro p hp
    rw [hclosed] at hp
    exact Bool.false_ne_true hp
  refine ⟨?_, ?_, fun q hq => (hcl_false q hq).elim⟩
  · refine
      { pos := ?_, open_iff := ?_, nodup := ?_, open_not_closed := ?_, inb := ?_, fresh := ?_,
        start_node := ?_, start_first := ?_, parent := ?_, g_nonneg := ?_, g_open := ?_,
        g_closed := ?_, reach := ?_, closed_list := ?_, uniform := ?_, optimal := ?_ }
    · intro p
      by_cases hp : p = s
      · subst hp; rw [hnodes_s]
      · rw [hnodes_o p hp]; rfl
    · intro p
      rw [hol, hopen, List.mem_singleton]
    · rw [hol]; exact List.nodup_singleton _
    · intro p _; exact hclosed p
    · intro p hv
      rw [(hvis p).mp hv]; exact hs
    · intro p hpo _
      have hp : p ≠ s := by
        intro hEq
        rw [(hopen p).mpr hEq] at hpo
        exact Bool.noConfusion hpo
      exact hnodes_o p hp
    · refine ⟨?_, ?_, (hvis s).mpr rfl⟩
      · rw [hnodes_s]
      · rw [hnodes_s]
    · exact ⟨fun _ => hol, fun hk => absurd hk (lt_irrefl 0)⟩
    · intro p hps hv
      exact absurd ((hvis p).mp hv) hps
    · intro p hv
      rw [(hvis p).mp hv, hnodes_s]
    · intro p hpo
      rw [(hopen p).mp hpo, hnodes_s]
      simp
    · intro p hpc; exact (hcl_false p hpc).elim
    · intro p hv
      rw [(hvis p).mp hv, hnodes_s]
      exact Walk.start
    · exact ⟨[], List.nodup_nil, rfl, fun p => by simp [hclosed]⟩
    · intro ha p
      by_cases hp : p = s
      · subst hp; rw [hnodes_s]; simp [ha]
      · rw [hnodes_o p hp]; exact ⟨rfl, rfl⟩
    · intro _ q hq; exact (hcl_false q hq).elim
  · intro cur q hq; exact (hcl_false q hq).elim

/-- When the open list is empty, every cell a walk from the start leads to is
closed. -/
theorem all_closed {grid : Grid} {s e : Point} {a : Bool} {k : Nat} {st : SearchState}
    (h : LoopInv grid s e a k st) (hol : st.openList = []) (p : Point) (n : Nat)
    (hw : Walk grid s p n) : (st.nodes p).isClosed = true := by
  have hno : ∀ q, (st.nodes q).isOpen = true → False := by
    intro q hq
    have := (h.core.open_iff q).mpr hq
    rw [hol] at this
    simp at this
  induction hw with
  | start =>
    rcases h.core.start_node.2.2 with ho | hcl
    · exact (hno s ho).elim
    · exact hcl
  | @step p q m _ hadj hpass ih =>
    obtain ⟨d, hd, rfl⟩ := (adj8_iff p q).mp hadj
    rcases h.relaxed p p ih d hd (fun _ => hd) hpass with hcl | ⟨ho, _⟩
    · exact hcl
    · exact (hno _ ho).elim

/-- At the head of the loop with no fuel left, the open list is empty. -/
theorem open_empty_of_full {grid : Grid} {s e : Point} {a : Bool} {st : SearchState}
    (h : LoopInv grid s e a cellCount st) : st.openList = [] := by
  by_contra hne
  obtain ⟨p, hp⟩ := List.exists_mem_of_ne_nil _ hne
  have ho := (h.core.open_iff p).mp hp
  have hnc := h.core.open_not_closed p ho
  obtain ⟨cl, h1, h2, h3⟩ := h.core.closed_list
  have hnd : (p :: cl).Nodup := by
    rw [List.nodup_cons]
    refine ⟨fun hm => ?_, h1⟩
    have := (h3 p).mp hm
    rw [hnc] at this
    exact Bool.false_ne_true this
  have hb : ∀ q ∈ p :: cl, isInBounds q.x q.y = true := by
    intro q hq
    rw [List.mem_cons] at hq
    rcases hq with rfl | hq
    · exact h.core.inb _ (Or.inl ho)
    · exact h.core.inb q (Or.inr ((h3 q).mp hq))
  have := inBounds_nodup_length _ hnd hb
  simp only [List.length_cons, h2] at this
  omega

theorem post_not_found {grid : Grid} {s e : Point} {a : Bool} {k : Nat} {st : SearchState}
    (h : LoopInv grid s e a k st) (hol : st.openList = []) :
    SearchPost grid s e a { found := false, grid := grid, nodes := st.nodes } := by
  refine ⟨fun _ => ⟨rfl, fun n hw => ?_⟩, fun hf => absurd hf (by simp)⟩
  exact h.not_end e (all_closed h hol e n hw) rfl

/-- One iteration of the loop either ends the search with a result that meets
the postcondition, or leads to a state that satisfies the invariant again. -/
theorem searchStep_spec {grid : Grid} {s e : Point} {a : Bool} {k : Nat} {st : SearchState}
    (h : LoopInv grid s e a k st) (hne : st.openList ≠ []) :
    (∃ r, searchStep grid e a st = .ok (.inl r) ∧ SearchPost grid s e a r) ∨
    (∃ st1, searchStep grid e a st = .ok (.inr st1) ∧ LoopInv grid s e a (k + 1) st1) := by
  have hmid := extract_mid h hne
  unfold searchStep
  simp only
  set cur := st.openList.getD (bestNodeIndex st.nodes st.openList) ⟨0, 0⟩ with hcur
  set nodes1 := st.nodes.set cur { st.nodes cur with isOpen := false, isClosed := true }
    with hnodes1
  have hpos : (nodes1 cur).pos = cur := hmid.core.pos cur
  rw [hpos]
  by_cases hce : cur = e
  · left
    have hcond : cur.x = e.x ∧ cur.y = e.y := by rw [hce]; exact ⟨rfl, rfl⟩
    rw [if_pos hcond]
    have hv : Visited ⟨nodes1, removeAt st.openList (bestNodeIndex st.nodes st.openList)⟩ cur :=
      Or.inr hmid.cur_closed
    have hg := hmid.core.g_closed cur hmid.cur_closed
    have hk := hmid.core.k_le
    have hg0 := hmid.core.g_nonneg cur hv
    obtain ⟨g1, hg1⟩ := reconstructLoop_ok hmid.core cellCount grid none cur hv
      (by push_cast at hg ⊢; omega)
    unfold reconstructPath
    dsimp only at hg1
    rw [hg1]
    refine ⟨_, rfl, fun hf => absurd hf (by simp), fun _ => ?_⟩
    obtain ⟨l, hl, hhead, hlast, hlen⟩ := parentChain_spec hmid.core cellCount cur hv
      (by push_cast at hg ⊢; omega)
    refine ⟨(nodes1 cur).gCost.toNat, l, ?_, ?_, hlast, hlen, ?_, ?_, ?_⟩
    · rw [← hce]
      exact hl
    · rw [← hce]
      exact hhead
    · rw [← hce]
      dsimp only at hg0 ⊢
      omega
    · rw [← hce]
      exact hmid.core.reach cur hv
    · intro ha m hw
      rw [← hce] at hw
      have := hmid.core.optimal ha cur hmid.cur_closed m hw
      dsimp only at this hg0
      omega
  · right
    have hcond : ¬ (cur.x = e.x ∧ cur.y = e.y) := by
      rintro ⟨hx, hy⟩
      apply hce
      obtain ⟨cx, cy⟩ := cur
      obtain ⟨ex, ey⟩ := e
      simp only at hx hy
      rw [hx, hy]
    rw [if_neg hcond]
    refine ⟨_, rfl, ?_⟩
    have := mid_fold dirs8 (fun d hd => hd) [] _ hmid
    rw [List.nil_append] at this
    exact mid_to_loop this hce

/-- The loop ends within its fuel with a result that meets the postcondition. -/
theorem searchLoop_spec {grid : Grid} {s e : Point} {a : Bool} (fuel : Nat) (k : Nat)
    (st : SearchState) (h : LoopInv grid s e a k st) (hk : k + fuel = cellCount) :
    ∃ r, searchLoop grid e a fuel st = .ok r ∧ SearchPost grid s e a r := by
  induction fuel generalizing k st with
  | zero =>
    have hk' : k = cellCount := by omega
    subst hk'
    have hol := open_empty_of_full h
    refine ⟨_, ?_, post_not_found h hol⟩
    simp [searchLoop, hol]
  | succ fuel ih =>
    rw [searchLoop]
    by_cases hol : st.openList = []
    · refine ⟨_, ?_, post_not_found h hol⟩
      simp [hol]
    · have hlen : st.openList.length > 0 := List.length_pos.mpr hol
      rw [if_pos hlen]
      rcases searchStep_spec h hol with ⟨r, hr, hpost⟩ | ⟨st1, hst1, hinv⟩
      · exact ⟨r, by rw [hr], hpost⟩
      · rw [hst1]
        exact ih (k + 1) st1 hinv (by omega)

/-- `findPath` from a start inside the grid returns, and its result meets the
postcondition. -/
theorem findPath_spec (grid : Grid) (s e : Point) (a : Bool)
    (hs : isInBounds s.x s.y = true) :
    ∃ r, findPath grid s e a = .ok r ∧ SearchPost grid s e a r := by
  unfold findPath
  simp only [hs, Bool.not_true, Bool.false_eq_true, if_false]
  exact searchLoop_spec cellCount 0 _ (init_inv grid s e a hs) (by omega)

end DungeonMaker


namespace DungeonMaker

/-! ## Theorems: the claims about `findPath` -/

theorem routeSteps_of_cells {r : PathResult} {e : Point} {l : List Point} {n : Nat}
    (hl : routeCells r e = some l) (hlen : l.length = n + 1) : routeSteps r e = some n := by
  simp [routeSteps, hl, hlen]

/-- C1. Dijkstra optimality: for every grid and every start and end inside the
grid, `findPath` with `useAStar = false` returns, and if it reaches the goal
then the number of steps of the returned route (the length of the parent chain
from the end node back to the start node, equal to the end node's `gCost`) is
the least length of a walk from start to end made of 8-directional steps in
which every cell entered is inside the grid and not Wall. -/
theorem dijkstra_optimal (grid : Grid) (s e : Point)
    (hs : isInBounds s.x s.y = true) (_he : isInBounds e.x e.y = true) :
    ∃ r, findPath grid s e false = .ok r ∧
      (r.found = true → ∃ (n : Nat) (l : List Point), routeCells r e = some l ∧
        l.head? = some e ∧ l.getLast? = some s ∧ l.length = n + 1 ∧
        routeSteps r e = some n ∧ (r.nodes e).gCost = (n : Int) ∧ IsShortest grid s e n) := by
  obtain ⟨r, hr, hpost⟩ := findPath_spec grid s e false hs
  refine ⟨r, hr, fun hf => ?_⟩
  obtain ⟨n, l, h1, h2, h3, h4, h5, h6, h7⟩ := hpost.2 hf
  exact ⟨n, l, h1, h2, h3, h4, routeSteps_of_cells h1 h4, h5, h6, h7 rfl⟩

theorem dijkstra_optimal_witness :
    (isInBounds 0 2 = true ∧ isInBounds 3 0 = true) ∧
    pathFound cornerGrid ⟨0, 2⟩ ⟨3, 0⟩ false = true ∧
    ∃ r, findPath cornerGrid ⟨0, 2⟩ ⟨3, 0⟩ false = .ok r ∧
      (r.found = true → ∃ (n : Nat) (l : List Point), routeCells r ⟨3, 0⟩ = some l ∧
        l.head? = some ⟨3, 0⟩ ∧ l.getLast? = some ⟨0, 2⟩ ∧ l.length = n + 1 ∧
        routeSteps r ⟨3, 0⟩ = some n ∧ (r.nodes ⟨3, 0⟩).gCost = (n : Int) ∧
        IsShortest cornerGrid ⟨0, 2⟩ ⟨3, 0⟩ n) :=
  ⟨⟨by decide, by decide⟩, by decide,
    dijkstra_optimal cornerGrid ⟨0, 2⟩ ⟨3, 0⟩ (by decide) (by decide)⟩

/-- C2 at a concrete input: on `cornerGrid` from `(0, 2)` to `(3, 0)` both
modes succeed, the A* route has 4 steps and the Dijkstra route has 3. -/
theorem astar_route_longer :
    (isInBounds 0 2 = true ∧ isInBounds 3 0 = true) ∧
    routeLength cornerGrid ⟨0, 2⟩ ⟨3, 0⟩ true = some 4 ∧
    routeLength cornerGrid ⟨0, 2⟩ ⟨3, 0⟩ false = some 3 :=
  ⟨⟨by decide, by decide⟩, by decide, by decide⟩

/-- C2, amended. For every grid and every start and end inside the grid,
`findPath` with `useAStar = true` and with `useAStar = false` both return and
either both fail or both succeed; when they succeed, the Dijkstra route has at
most as many steps as the A* route. -/
theorem astar_dijkstra_agree (grid : Grid) (s e : Point)
    (hs : isInBounds s.x s.y = true) (_he : isInBounds e.x e.y = true) :
    ∃ rA rD, findPath grid s e true = .ok rA ∧ findPath grid s e false = .ok rD ∧
      rA.found = rD.found ∧
      (rA.found = true → ∃ nA nD : Nat, routeSteps rA e = some nA ∧
        routeSteps rD e = some nD ∧ nD ≤ nA) := by
  obtain ⟨rA, hA, hpA⟩ := findPath_spec grid s e true hs
  obtain ⟨rD, hD, hpD⟩ := findPath_spec grid s e false hs
  refine ⟨rA, rD, hA, hD, ?_, ?_⟩
  · cases hfA : rA.found <;> cases hfD : rD.found
    · rfl
    · obtain ⟨n, _, _, _, _, _, _, hw, _⟩ := hpD.2 hfD
      exact absurd hw ((hpA.1 hfA).2 n)
    · obtain ⟨n, _, _, _, _, _, _, hw, _⟩ := hpA.2 hfA
      exact absurd hw ((hpD.1 hfD).2 n)
    · rfl
  · intro hfA
    obtain ⟨nA, lA, h1, _, _, h4, _, hwA, _⟩ := hpA.2 hfA
    have hfD : rD.found = true := by
      cases hfD : rD.found
      · exact absurd hwA ((hpD.1 hfD).2 nA)
      · rfl
    obtain ⟨nD, lD, h2, _, _, h5, _, _, hmin⟩ := hpD.2 hfD
    exact ⟨nA, nD, routeSteps_of_cells h1 h4, routeSteps_of_cells h2 h5, hmin rfl nA hwA⟩

theorem astar_dijkstra_agree_witness :
    (isInBounds 0 2 = true ∧ isInBounds 3 0 = true) ∧
    pathFound cornerGrid ⟨0, 2⟩ ⟨3, 0⟩ true = true ∧
    ∃ rA rD, findPath cornerGrid ⟨0, 2⟩ ⟨3, 0⟩ true = .ok rA ∧
      findPath cornerGrid ⟨0, 2⟩ ⟨3, 0⟩ false = .ok rD ∧ rA.found = rD.found ∧
      (rA.found = true → ∃ nA nD : Nat, routeSteps rA ⟨3, 0⟩ = some nA ∧
        routeSteps rD ⟨3, 0⟩ = some nD ∧ nD ≤ nA) :=
  ⟨⟨by decide, by decide⟩, by decide,
    astar_dijkstra_agree cornerGrid ⟨0, 2⟩ ⟨3, 0⟩ (by decide) (by decide)⟩

/-- C3. Reachability: for every grid, every start and end inside the grid and
either mode, `findPath` returns, and it reports success if and only if there
is a walk from start to end of 8-adjacent cells in which every cell entered is
inside the grid and not Wall (the start cell itself may be Wall); otherwise it
reports failure. -/
theorem findPath_reachability (grid : Grid) (s e : Point) (useAStar : Bool)
    (hs : isInBounds s.x s.y = true) (_he : isInBounds e.x e.y = true) :
    ∃ r, findPath grid s e useAStar = .ok r ∧
      (r.found = true ↔ ∃ k, Walk grid s e k) ∧
      (r.found = false ↔ ¬ ∃ k, Walk grid s e k) := by
  obtain ⟨r, hr, hpost⟩ := findPath_spec grid s e useAStar hs
  have h1 : r.found = true ↔ ∃ k, Walk grid s e k := by
    constructor
    · intro hf
      obtain ⟨n, _, _, _, _, _, _, hw, _⟩ := hpost.2 hf
      exact ⟨n, hw⟩
    · rintro ⟨k, hw⟩
      cases hf : r.found
      · exact absurd hw ((hpost.1 hf).2 k)
      · rfl
  refine ⟨r, hr, h1, ?_⟩
  rw [← h1]
  cases r.found <;> simp

theorem findPath_reachability_witness :
    (isInBounds 0 0 = true ∧ isInBounds 3 0 = true) ∧
    cornerGrid ⟨0, 0⟩ = WALL_CHAR ∧
    pathFound cornerGrid ⟨0, 0⟩ ⟨3, 0⟩ true = true ∧
    ∃ r, findPath cornerGrid ⟨0, 0⟩ ⟨3, 0⟩ true = .ok r ∧
      (r.found = true ↔ ∃ k, Walk cornerGrid ⟨0, 0⟩ ⟨3, 0⟩ k) ∧
      (r.found = false ↔ ¬ ∃ k, Walk cornerGrid ⟨0, 0⟩ ⟨3, 0⟩ k) :=
  ⟨⟨by decide, by decide⟩, by decide, by decide,
    findPath_reachability cornerGrid ⟨0, 0⟩ ⟨3, 0⟩ true (by decide) (by decide)⟩

/-- C4. No-route atomicity: for every grid, every start and end inside the
grid and either mode, `findPath` returns, and whenever it reports failure the
grid after the call is the grid before the call, cell for cell. -/
theorem findPath_failure_keeps_grid (grid : Grid) (s e : Point) (useAStar : Bool)
    (hs : isInBounds s.x s.y = true) (_he : isInBounds e.x e.y = true) :
    ∃ r, findPath grid s e useAStar = .ok r ∧ (r.found = false → ∀ p, r.grid p = grid p) := by
  obtain ⟨r, hr, hpost⟩ := findPath_spec grid s e useAStar hs
  exact ⟨r, hr, fun hf p => by rw [(hpost.1 hf).1]⟩

theorem findPath_failure_keeps_grid_witness :
    (isInBounds 0 2 = true ∧ isInBounds 5 0 = true) ∧
    pathFound cornerGrid ⟨0, 2⟩ ⟨5, 0⟩ false = false ∧
    ∃ r, findPath cornerGrid ⟨0, 2⟩ ⟨5, 0⟩ false = .ok r ∧
      (r.found = false → ∀ p, r.grid p = cornerGrid p) :=
  ⟨⟨by decide, by decide⟩, by decide,
    findPath_failure_keeps_grid cornerGrid ⟨0, 2⟩ ⟨5, 0⟩ false (by decide) (by decide)⟩

end DungeonMaker


namespace DungeonMaker

/-! ## Theorems: the start cell of the maze generator -/

/-- C6 at the seeds 29 and 111: the start cell drawn is `(79, 15)` with the
seed 29 and `(9, 25)` with the seed 111; neither is inside the grid, since
`randInt(0, 39) * 2 + 1` reaches 79 and `randInt(0, 12) * 2 + 1` reaches 25. -/
theorem maze_start_out_of_bounds :
    (mazeStart ⟨29⟩).1 = ⟨79, 15⟩ ∧ isInBounds 79 15 = false ∧
    (mazeStart ⟨111⟩).1 = ⟨9, 25⟩ ∧ isInBounds 9 25 = false :=
  ⟨by decide, by decide, by decide, by decide⟩

/-- A start cell outside the grid makes the first write of the generator a
fault. -/
theorem maze_fault_of_start (d : Dungeon)
    (h : isInBounds (mazeStart d.prng).1.x (mazeStart d.prng).1.y = false) :
    generateRecursiveBacktracker d = .error .outOfBounds := by
  unfold generateRecursiveBacktracker Grid.write
  simp only [h, Bool.false_eq_true, if_false]

/-- C5 at the seed 29: the first write of `generateRecursiveBacktracker`,
`grid[15][79]`, is outside the array, whatever the grid held before, so the
run is undefined and no maze is produced. -/
theorem maze_undefined_at_seed_29 (grid : Grid) :
    generateRecursiveBacktracker ⟨grid, ⟨29⟩⟩ = .error .outOfBounds :=
  maze_fault_of_start ⟨grid, ⟨29⟩⟩
    (show isInBounds (mazeStart ⟨29⟩).1.x (mazeStart ⟨29⟩).1.y = false by decide)

end DungeonMaker


namespace DungeonMaker

/-! ## Theorems: the carving loop returns -/

theorem mem_latticeCells (p : Point) :
    p ∈ latticeCells ↔ isInBounds p.x p.y = true ∧ p.x % 2 = 1 ∧ p.y % 2 = 1 := by
  rw [isInBounds_iff]
  simp only [latticeCells, List.mem_flatMap, List.mem_map, List.mem_range]
  constructor
  · rintro ⟨j, hj, i, hi, rfl⟩
    simp only
    omega
  · rintro ⟨⟨h1, h2, h3, h4⟩, h5, h6⟩
    refine ⟨(p.y / 2).toNat, by omega, (p.x / 2).toNat, by omega, ?_⟩
    obtain ⟨x, y⟩ := p
    simp only [Point.mk.injEq]
    simp only at h1 h2 h3 h4 h5 h6
    omega

theorem latticeCells_length : latticeCells.length = 468 := by
  simp [latticeCells, List.length_flatMap, Function.comp_def]

theorem countP_le_of_imp {α : Type} (l : List α) (f g : α → Bool)
    (h : ∀ x ∈ l, f x = true → g x = true) : l.countP f ≤ l.countP g := by
  induction l with
  | nil => simp
  | cons a l ih =>
    have ih' := ih (fun x hx => h x (List.mem_cons_of_mem _ hx))
    rw [List.countP_cons, List.countP_cons]
    by_cases hf : f a = true
    · have hg := h a (List.mem_cons_self _ _) hf
      simp only [hf, hg, if_true]
      omega
    · simp only [hf, Bool.false_eq_true, if_false]
      split <;> omega

theorem countP_lt_of_imp {α : Type} (l : List α) (f g : α → Bool)
    (h : ∀ x ∈ l, f x = true → g x = true) (a : α) (ha : a ∈ l) (hfa : f a = false)
    (hga : g a = true) : l.countP f < l.countP g := by
  induction l with
  | nil => simp at ha
  | cons b l ih =>
    have hmono := countP_le_of_imp l f g (fun x hx => h x (List.mem_cons_of_mem _ hx))
    rw [List.countP_cons, List.countP_cons]
    rw [List.mem_cons] at ha
    rcases ha with rfl | ha
    · simp only [hfa, hga, Bool.false_eq_true, if_false, if_true]
      omega
    · have ih' := ih (fun x hx => h x (List.mem_cons_of_mem _ hx)) ha
      by_cases hf : f b = true
      · have hg := h b (List.mem_cons_self _ _) hf
        simp only [hf, hg, if_true]
        omega
      · simp only [hf, Bool.false_eq_true, if_false]
        split <;> omega

theorem FLOOR_ne_WALL : FLOOR_CHAR ≠ WALL_CHAR := by decide

/-- Writing Floor never adds a Wall lattice cell. -/
theorem latticeWalls_set_le (g : Grid) (p : Point) :
    latticeWalls (g.set p FLOOR_CHAR) ≤ latticeWalls g := by
  apply countP_le_of_imp
  intro x _ hx
  simp only [decide_eq_true_eq] at hx ⊢
  by_cases hxp : x = p
  · subst hxp
    rw [gridSet_same] at hx
    exact absurd hx FLOOR_ne_WALL
  · rwa [gridSet_other _ _ hxp] at hx

/-- Writing Floor into a Wall lattice cell removes one Wall lattice cell at least. -/
theorem latticeWalls_set_lt (g : Grid) (p : Point) (hp : p ∈ latticeCells)
    (hw : g p = WALL_CHAR) : latticeWalls (g.set p FLOOR_CHAR) < latticeWalls g := by
  apply countP_lt_of_imp _ _ _ _ p hp
  · simp only [decide_eq_false_iff_not, gridSet_same]
    exact FLOOR_ne_WALL
  · simpa using hw
  · intro x _ hx
    simp only [decide_eq_true_eq] at hx ⊢
    by_cases hxp : x = p
    · subst hxp
      rw [gridSet_same] at hx
      exact absurd hx FLOOR_ne_WALL
    · rwa [gridSet_other _ _ hxp] at hx

theorem latticeWalls_allWall : latticeWalls (initializeGrid WALL_CHAR) = 468 := by
  unfold latticeWalls
  rw [← latticeCells_length]
  apply List.countP_eq_length.mpr
  intro p _
  simp [initializeGrid]

theorem mem_mazeNeighbors (g : Grid) (cur n : Point) :
    n ∈ mazeNeighbors g cur ↔
      (∃ d ∈ mazeDirs, n = ⟨cur.x + d.1, cur.y + d.2⟩) ∧ isInBounds n.x n.y = true ∧
        g n = WALL_CHAR := by
  simp only [mazeNeighbors, List.mem_filter, List.mem_map, Bool.and_eq_true, decide_eq_true_eq]
  constructor
  · rintro ⟨⟨d, hd, rfl⟩, h1, h2⟩
    exact ⟨⟨d, hd, rfl⟩, h1, h2⟩
  · rintro ⟨⟨d, hd, rfl⟩, h1, h2⟩
    exact ⟨⟨d, hd, rfl⟩, h1, h2⟩

theorem mazeNeighbors_length_le (g : Grid) (cur : Point) : (mazeNeighbors g cur).length ≤ 4 := by
  unfold mazeNeighbors
  refine le_trans (List.length_filter_le _ _) ?_
  simp [mazeDirs]

theorem mem_mazeDirs (d : Int × Int) :
    d ∈ mazeDirs ↔ d = (0, 2) ∨ d = (0, -2) ∨ d = (2, 0) ∨ d = (-2, 0) := by
  simp [mazeDirs]

/-- One iteration of the carving loop from a state that satisfies the invariant
returns a state that satisfies it, with a smaller measure. -/
theorem mazeStep_ok (st : MazeState) (h : MazeInv st) (hne : st.stack.items ≠ []) :
    ∃ st1, mazeStep st = .ok st1 ∧ MazeInv st1 ∧ mazeMeasure st1 < mazeMeasure st := by
  obtain ⟨cur, rest, hitems⟩ := List.exists_cons_of_ne_nil hne
  have hpeek : st.stack.peek = cur := by simp [PointStack.peek, hitems]
  have hcur : cur ∈ latticeCells := h.on_lattice cur (by rw [hitems]; exact List.mem_cons_self _ _)
  have hcurb := (mem_latticeCells cur).mp hcur
  have hroom := h.room
  unfold mazeStep
  simp only [hpeek]
  by_cases hn : ((mazeNeighbors st.grid cur).length : Int) > 0
  · rw [if_pos hn]
    have hlen4 := mazeNeighbors_length_le st.grid cur
    have hb := randInt_bounds st.prng 0 (((mazeNeighbors st.grid cur).length : Int) - 1)
      (by unfold IsInt32; omega) (by unfold IsInt32; omega) (by omega) (by omega)
    set r := st.prng.randInt 0 (((mazeNeighbors st.grid cur).length : Int) - 1) with hr
    have hr0 : ¬ r.1 < 0 := by omega
    rw [if_neg hr0]
    have hidx : r.1.toNat < (mazeNeighbors st.grid cur).length := by omega
    rw [List.get?_eq_get hidx]
    simp only
    set next := (mazeNeighbors st.grid cur).get ⟨r.1.toNat, hidx⟩ with hnext
    have hmem : next ∈ mazeNeighbors st.grid cur := List.get_mem _ _ _
    obtain ⟨⟨d, hd, hnd⟩, hnb, hnw⟩ := (mem_mazeNeighbors _ _ _).mp hmem
    have hnb' := (isInBounds_iff _ _).mp hnb
    have hcb' := (isInBounds_iff _ _).mp hcurb.1
    have hnx : next.x = cur.x + d.1 := by rw [hnd]
    have hny : next.y = cur.y + d.2 := by rw [hnd]
    have hnlat : next ∈ latticeCells := by
      rw [mem_latticeCells]
      refine ⟨hnb, ?_, ?_⟩
      · rw [hnx]
        rcases (mem_mazeDirs d).mp hd with rfl | rfl | rfl | rfl <;> simp only <;> omega
      · rw [hny]
        rcases (mem_mazeDirs d).mp hd with rfl | rfl | rfl | rfl <;> simp only <;> omega
    have hmidb : isInBounds (cur.x + (next.x - cur.x).tdiv 2) (cur.y + (next.y - cur.y).tdiv 2)
        = true := by
      rw [isInBounds_iff, hnx, hny]
      rw [hnx, hny] at hnb'
      have t0 : (0 : Int).tdiv 2 = 0 := by decide
      have t1 : (2 : Int).tdiv 2 = 1 := by decide
      have t2 : (-2 : Int).tdiv 2 = -1 := by decide
      rcases (mem_mazeDirs d).mp hd with rfl | rfl | rfl | rfl <;>
        simp only [add_sub_cancel_left, t0, t1, t2] <;> omega
    simp only [Grid.write, hnb, hmidb, if_true]
    refine ⟨_, rfl, ⟨?_, ?_⟩, ?_⟩
    · intro p hp
      simp only [PointStack.push] at hp
      split at hp
      · simp only [List.mem_cons] at hp
        rcases hp with rfl | hp
        · exact hnlat
        · exact h.on_lattice p hp
      · exact h.on_lattice p hp
    · have h1 := latticeWalls_set_lt st.grid next hnlat hnw
      have h2 := latticeWalls_set_le (st.grid.set next FLOOR_CHAR)
        ⟨cur.x + (next.x - cur.x).tdiv 2, cur.y + (next.y - cur.y).tdiv 2⟩
      simp only [PointStack.push]
      split
      · simp only [List.length_cons]
        omega
      · omega
    · have h1 := latticeWalls_set_lt st.grid next hnlat hnw
      have h2 := latticeWalls_set_le (st.grid.set next FLOOR_CHAR)
        ⟨cur.x + (next.x - cur.x).tdiv 2, cur.y + (next.y - cur.y).tdiv 2⟩
      simp only [mazeMeasure, PointStack.push]
      split
      · simp only [List.length_cons]
        omega
      · omega
  · rw [if_neg hn]
    refine ⟨_, rfl, ⟨?_, ?_⟩, ?_⟩
    · intro p hp
      simp only [PointStack.pop, hitems] at hp
      exact h.on_lattice p (by rw [hitems]; exact List.mem_cons_of_mem _ hp)
    · simp only [PointStack.pop, hitems]
      rw [hitems] at hroom
      simp only [List.length_cons] at hroom
      omega
    · simp only [mazeMeasure, PointStack.pop, hitems, List.length_cons]
      omega

/-- The carving loop returns when its fuel is at least the measure. -/
theorem mazeLoop_ok (fuel : Nat) (st : MazeState) (h : MazeInv st)
    (hf : mazeMeasure st ≤ fuel) : ∃ st1, mazeLoop fuel st = .ok st1 := by
  induction fuel generalizing st with
  | zero =>
    have hlen : st.stack.items.length = 0 := by
      unfold mazeMeasure at hf
      omega
    have : st.stack.isEmpty = true := by
      simp [PointStack.isEmpty, List.length_eq_zero.mp hlen]
    exact ⟨st, by simp [mazeLoop, this]⟩
  | succ fuel ih =>
    rw [mazeLoop]
    by_cases he : st.stack.isEmpty = true
    · exact ⟨st, by simp [he]⟩
    · simp only [he, Bool.false_eq_true, if_false]
      have hne : st.stack.items ≠ [] := by
        intro hnil
        apply he
        simp [PointStack.isEmpty, hnil]
      obtain ⟨st1, hst1, hinv, hlt⟩ := mazeStep_ok st h hne
      rw [hst1]
      exact ih st1 hinv (by omega)

/-- The start cell has odd coordinates that are not negative. -/
theorem mazeStart_odd (p : SimplePRNG) :
    0 ≤ (mazeStart p).1.x ∧ (mazeStart p).1.x % 2 = 1 ∧
    0 ≤ (mazeStart p).1.y ∧ (mazeStart p).1.y % 2 = 1 := by
  unfold mazeStart
  simp only
  have hx := randInt_bounds p 0 (DUNGEON_WIDTH.tdiv 2) (by decide) (by decide) (by decide)
    (by decide)
  have hy := randInt_bounds (p.randInt 0 (DUNGEON_WIDTH.tdiv 2)).2 0 (DUNGEON_HEIGHT.tdiv 2)
    (by decide) (by decide) (by decide) (by decide)
  omega

/-- `generateRecursiveBacktracker` returns whenever the start cell it draws is
inside the grid. -/
theorem maze_ok (d : Dungeon)
    (hb : isInBounds (mazeStart d.prng).1.x (mazeStart d.prng).1.y = true) :
    ∃ d1, generateRecursiveBacktracker d = .ok d1 := by
  have hodd := mazeStart_odd d.prng
  have hlat : (mazeStart d.prng).1 ∈ latticeCells := by
    rw [mem_latticeCells]
    exact ⟨hb, hodd.2.1, hodd.2.2.2⟩
  unfold generateRecursiveBacktracker
  simp only [Grid.write, hb, if_true]
  have hpush : PointStack.empty.push (mazeStart d.prng).1 = ⟨[(mazeStart d.prng).1]⟩ := by
    simp [PointStack.push, PointStack.empty, DUNGEON_WIDTH, DUNGEON_HEIGHT]
  rw [hpush]
  have hw := latticeWalls_set_lt (initializeGrid WALL_CHAR) (mazeStart d.prng).1 hlat rfl
  rw [latticeWalls_allWall] at hw
  have hinv : MazeInv ⟨(initializeGrid WALL_CHAR).set (mazeStart d.prng).1 FLOOR_CHAR,
      ⟨[(mazeStart d.prng).1]⟩, (mazeStart d.prng).2⟩ := by
    refine ⟨?_, ?_⟩
    · intro p hp
      simp only [List.mem_singleton] at hp
      rw [hp]; exact hlat
    · simp only [List.length_singleton]
      omega
  obtain ⟨st1, hst1⟩ := mazeLoop_ok mazeFuel _ hinv (by
    simp only [mazeMeasure, List.length_singleton]
    have : mazeFuel = 3950 := rfl
    omega)
  rw [hst1]
  exact ⟨_, rfl⟩

end DungeonMaker


namespace DungeonMaker

/-! ## Theorems: the generators depend on the seed only -/

end DungeonMaker


namespace DungeonMaker

/-! ## Theorems: `setChar` and `getPathCharacter` -/

/-- C14. Bounds-checked write: for every grid, all integers `x`, `y` and every
byte `c`, `setChar(x, y, c)` leaves the whole grid unchanged when
`isInBounds(x, y)` is false (`x < 0`, `x ≥ 79`, `y < 0` or `y ≥ 25`) and never
fails; when `(x, y)` is inside the grid it sets exactly that cell to `c` and
leaves every other cell unchanged. -/
theorem setChar_frame (g : Grid) (x y : Int) (c : Nat) :
    (isInBounds x y = false ↔ (x < 0 ∨ x ≥ 79 ∨ y < 0 ∨ y ≥ 25)) ∧
    (isInBounds x y = false → setChar g x y c = g) ∧
    (isInBounds x y = true → setChar g x y c ⟨x, y⟩ = c ∧
      ∀ q : Point, q ≠ ⟨x, y⟩ → setChar g x y c q = g q) := by
  refine ⟨?_, ?_, ?_⟩
  · rw [← Bool.not_eq_true, isInBounds_iff]
    omega
  · intro h
    simp [setChar, h]
  · intro h
    simp only [setChar, h, if_true]
    exact ⟨gridSet_same _ _ _, fun q hq => gridSet_other _ _ hq⟩

theorem setChar_frame_witness :
    (isInBounds 79 3 = false ∧ isInBounds 2 1 = true) ∧
    setChar cornerGrid 79 3 START_CHAR = cornerGrid ∧
    setChar cornerGrid 2 1 START_CHAR ⟨2, 1⟩ = START_CHAR ∧
    ∀ q : Point, q ≠ ⟨2, 1⟩ → setChar cornerGrid 2 1 START_CHAR q = cornerGrid q :=
  ⟨⟨by decide, by decide⟩, (setChar_frame cornerGrid 79 3 START_CHAR).2.1 (by decide),
    (setChar_frame cornerGrid 2 1 START_CHAR).2.2 (by decide)⟩

/-- The value of `getPathCharacter` is one of the six line glyphs or `+`. -/
theorem getPathCharacter_mem (prev cur next : Point) :
    getPathCharacter prev cur next ∈ routeGlyphs := by
  unfold getPathCharacter routeGlyphs
  simp only
  split_ifs <;> simp

theorem getPathCharacter_ne_floor (prev cur next : Point) :
    getPathCharacter prev cur next ≠ FLOOR_CHAR := by
  have h := getPathCharacter_mem prev cur next
  intro hEq
  rw [hEq] at h
  revert h
  decide

theorem getPathCharacter_ne_wall (prev cur next : Point) :
    getPathCharacter prev cur next ≠ WALL_CHAR := by
  have h := getPathCharacter_mem prev cur next
  intro hEq
  rw [hEq] at h
  revert h
  decide

/-- `getPathCharacter` returns `+` exactly when `next` is level with `current`
and either equals it, or `prev` is level with `current` too and does not lie on
the other side: `next` to the right and `prev` not to the left, or both to the
left. -/
theorem getPathCharacter_plus_iff (prev cur next : Point) :
    getPathCharacter prev cur next = 43 ↔
      next.y = cur.y ∧
        (next.x = cur.x ∨
          (prev.y = cur.y ∧
            ((next.x > cur.x ∧ prev.x ≥ cur.x) ∨ (next.x < cur.x ∧ prev.x < cur.x)))) := by
  unfold getPathCharacter
  simp only
  constructor
  · intro h
    split_ifs at h with h1 h2 h3 h4 h5 h6
    all_goals first
      | exact absurd h (by decide)
      | (simp only [Bool.or_eq_true, Bool.and_eq_true, decide_eq_true_eq, Bool.not_eq_true',
          decide_eq_false_iff_not, not_or, not_and, not_lt] at h1 h2 h3 h4 h5 h6
         omega)
  · intro h
    have c1 : ((decide (prev.y < cur.y) && decide (next.y > cur.y)) ||
        (decide (prev.y > cur.y) && decide (next.y < cur.y))) = false := by
      simp only [Bool.or_eq_false_iff, Bool.and_eq_false_iff, decide_eq_false_iff_not]
      omega
    have c2 : ((decide (prev.x < cur.x) && decide (next.x > cur.x)) ||
        (decide (next.x < cur.x) && !decide (prev.x < cur.x))) = false := by
      simp only [Bool.or_eq_false_iff, Bool.and_eq_false_iff, decide_eq_false_iff_not,
        Bool.not_eq_false', decide_eq_true_eq]
      omega
    have c3 : ((decide (prev.y > cur.y) && decide (next.x > cur.x)) ||
        (decide (prev.x < cur.x) && decide (next.y < cur.y))) = false := by
      simp only [Bool.or_eq_false_iff, Bool.and_eq_false_iff, decide_eq_false_iff_not]
      omega
    have c4 : ((decide (prev.y > cur.y) && decide (next.x < cur.x)) ||
        (!decide (prev.x < cur.x) && decide (next.y < cur.y))) = false := by
      simp only [Bool.or_eq_false_iff, Bool.and_eq_false_iff, decide_eq_false_iff_not,
        Bool.not_eq_false', decide_eq_true_eq]
      omega
    have c5 : ((decide (prev.y < cur.y) && decide (next.x > cur.x)) ||
        (decide (prev.x < cur.x) && decide (next.y > cur.y))) = false := by
      simp only [Bool.or_eq_false_iff, Bool.and_eq_false_iff, decide_eq_false_iff_not]
      omega
    have c6 : ((decide (prev.y < cur.y) && decide (next.x < cur.x)) ||
        (!decide (prev.x < cur.x) && decide (next.y > cur.y))) = false := by
      simp only [Bool.or_eq_false_iff, Bool.and_eq_false_iff, decide_eq_false_iff_not,
        Bool.not_eq_false', decide_eq_true_eq]
      omega
    simp only [c1, c2, c3, c4, c5, c6, Bool.false_eq_true, if_false]

end DungeonMaker


namespace DungeonMaker

/-! ## Theorems: diagonal steps, the extraction of the best node -/

/-- C18 at a concrete input: from `(0, 0)` through `(1, 1)` to `(2, 2)` both
steps are diagonal and `getPathCharacter` returns the vertical glyph 179, not
`+`. -/
theorem diagonal_gets_vertical_glyph :
    ((0 : Int) ≠ 1 ∧ (1 : Int) ≠ 2) ∧
    getPathCharacter ⟨0, 0⟩ ⟨1, 1⟩ ⟨2, 2⟩ = 179 ∧ getPathCharacter ⟨0, 0⟩ ⟨1, 1⟩ ⟨2, 2⟩ ≠ 43 :=
  ⟨⟨by decide, by decide⟩, by decide, by decide⟩

/-- C18, amended. `getPathCharacter` returns the fallback glyph `+` exactly
when `next` is level with `current` and either has the same `x`, or `prev` is
level with `current` too and does not lie on the other side (`next` to the
right and `prev` not to the left, or both to the left).  So for every triple in
which the step from `prev` to `current` or the step from `current` to `next`
is diagonal and `next` is not `current`, it returns one of the six line glyphs
and not `+`. -/
theorem diagonal_glyph (prev cur next : Point) :
    (getPathCharacter prev cur next = 43 ↔
      next.y = cur.y ∧
        (next.x = cur.x ∨
          (prev.y = cur.y ∧
            ((next.x > cur.x ∧ prev.x ≥ cur.x) ∨ (next.x < cur.x ∧ prev.x < cur.x))))) ∧
    (((prev.x ≠ cur.x ∧ prev.y ≠ cur.y) ∨ (cur.x ≠ next.x ∧ cur.y ≠ next.y)) →
      next ≠ cur →
      getPathCharacter prev cur next ≠ 43 ∧
        getPathCharacter prev cur next ∈ [179, 196, 192, 217, 218, 191]) := by
  refine ⟨getPathCharacter_plus_iff prev cur next, fun hd hne => ?_⟩
  have hnp : getPathCharacter prev cur next ≠ 43 := by
    rw [Ne, getPathCharacter_plus_iff]
    rintro ⟨hy, h⟩
    have hx : next.x ≠ cur.x := by
      intro hx
      apply hne
      obtain ⟨nx, ny⟩ := next
      obtain ⟨cx, cy⟩ := cur
      simp only at hx hy
      rw [hx, hy]
    omega
  refine ⟨hnp, ?_⟩
  have hm := getPathCharacter_mem prev cur next
  simp only [routeGlyphs, List.mem_cons, List.mem_singleton, List.not_mem_nil, or_false] at hm ⊢
  tauto

theorem diagonal_glyph_witness :
    ((((0 : Int) ≠ 1 ∧ (0 : Int) ≠ 1) ∨ ((1 : Int) ≠ 2 ∧ (1 : Int) ≠ 2)) ∧
      (⟨2, 2⟩ : Point) ≠ ⟨1, 1⟩) ∧
    getPathCharacter ⟨0, 0⟩ ⟨1, 1⟩ ⟨2, 2⟩ ≠ 43 ∧
    getPathCharacter ⟨0, 0⟩ ⟨1, 1⟩ ⟨2, 2⟩ ∈ [179, 196, 192, 217, 218, 191] :=
  ⟨⟨by decide, by decide⟩,
    (diagonal_glyph ⟨0, 0⟩ ⟨1, 1⟩ ⟨2, 2⟩).2 (by decide) (by decide)⟩

theorem removeAt_length (l : List Point) (b : Nat) : (removeAt l b).length = l.length - 1 := by
  unfold removeAt
  rw [List.length_take, List.length_set]
  omega

/-- The open list after the extraction, entry by entry: the last entry stands
in the slot of the extracted one, every other entry is where it was. -/
theorem removeAt_getD (l : List Point) (b i : Nat) (d : Point) (hi : i < l.length - 1) :
    (removeAt l b).getD i d = if i = b then l.getD (l.length - 1) d else l.getD i d := by
  have hlen : i < (removeAt l b).length := by rw [removeAt_length]; exact hi
  have hil : i < l.length := by omega
  have hlast : l.length - 1 < l.length := by omega
  rw [List.getD_eq_getElem _ _ hlen]
  unfold removeAt
  rw [List.getElem_take, List.getElem_set]
  have e1 : ∀ d1 : Point, l.getD (l.length - 1) d1 = l.get ⟨l.length - 1, hlast⟩ :=
    fun d1 => List.getD_eq_getElem _ _ hlast
  have e2 : l.getD i d = l.get ⟨i, hil⟩ := List.getD_eq_getElem _ _ hil
  by_cases hib : b = i
  · rw [if_pos hib, if_pos hib.symm, e1, e1]
  · rw [if_neg hib, if_neg (fun h => hib h.symm), e2]
    rfl

/-- C15. Extract-min tie-break: in an iteration of the main loop of `findPath`
(a state with a non-empty open list), the node extracted is the one at the
smallest index among the entries whose `fCost` is least, and the open list
after the extraction is the previous list with the last entry moved into the
vacated slot, all other entries in their places. -/
theorem extract_min_tiebreak (grid : Grid) (e : Point) (useAStar : Bool) (st : SearchState)
    (hne : st.openList ≠ []) :
    bestNodeIndex st.nodes st.openList < st.openList.length ∧
    (∀ i, i < st.openList.length →
      (st.nodes (st.openList.getD (bestNodeIndex st.nodes st.openList) ⟨0, 0⟩)).fCost ≤
        (st.nodes (st.openList.getD i ⟨0, 0⟩)).fCost) ∧
    (∀ i, i < bestNodeIndex st.nodes st.openList →
      (st.nodes (st.openList.getD (bestNodeIndex st.nodes st.openList) ⟨0, 0⟩)).fCost <
        (st.nodes (st.openList.getD i ⟨0, 0⟩)).fCost) ∧
    (removeAt st.openList (bestNodeIndex st.nodes st.openList)).length =
      st.openList.length - 1 ∧
    (∀ i, i < st.openList.length - 1 →
      (removeAt st.openList (bestNodeIndex st.nodes st.openList)).getD i ⟨0, 0⟩ =
        if i = bestNodeIndex st.nodes st.openList
        then st.openList.getD (st.openList.length - 1) ⟨0, 0⟩
        else st.openList.getD i ⟨0, 0⟩) ∧
    (searchStep grid e useAStar st =
      if ((st.nodes.set (st.openList.getD (bestNodeIndex st.nodes st.openList) ⟨0, 0⟩)
            { st.nodes (st.openList.getD (bestNodeIndex st.nodes st.openList) ⟨0, 0⟩) with
              isOpen := false, isClosed := true })
            (st.openList.getD (bestNodeIndex st.nodes st.openList) ⟨0, 0⟩)).pos.x = e.x ∧
          ((st.nodes.set (st.openList.getD (bestNodeIndex st.nodes st.openList) ⟨0, 0⟩)
            { st.nodes (st.openList.getD (bestNodeIndex st.nodes st.openList) ⟨0, 0⟩) with
              isOpen := false, isClosed := true })
            (st.openList.getD (bestNodeIndex st.nodes st.openList) ⟨0, 0⟩)).pos.y = e.y
      then
        match reconstructPath
            (st.nodes.set (st.openList.getD (bestNodeIndex st.nodes st.openList) ⟨0, 0⟩)
              { st.nodes (st.openList.getD (bestNodeIndex st.nodes st.openList) ⟨0, 0⟩) with
                isOpen := false, isClosed := true })
            grid (st.openList.getD (bestNodeIndex st.nodes st.openList) ⟨0, 0⟩) with
        | .error f => .error f
        | .ok grid1 => .ok (.inl
            { found := true, grid := grid1,
              nodes := st.nodes.set
                (st.openList.getD (bestNodeIndex st.nodes st.openList) ⟨0, 0⟩)
                { st.nodes (st.openList.getD (bestNodeIndex st.nodes st.openList) ⟨0, 0⟩) with
                  isOpen := false, isClosed := true } })
      else
        .ok (.inr (dirs8.foldl
          (relaxNeighbor grid e useAStar
            (st.openList.getD (bestNodeIndex st.nodes st.openList) ⟨0, 0⟩))
          { nodes := st.nodes.set
              (st.openList.getD (bestNodeIndex st.nodes st.openList) ⟨0, 0⟩)
              { st.nodes (st.openList.getD (bestNodeIndex st.nodes st.openList) ⟨0, 0⟩) with
                isOpen := false, isClosed := true },
            openList := removeAt st.openList (bestNodeIndex st.nodes st.openList) }))) := by
  have hpos : 0 < st.openList.length := List.length_pos.mpr hne
  have hscan := scan_spec (fun i => (st.nodes (st.openList.getD i ⟨0, 0⟩)).fCost)
    (st.openList.length - 1)
  refine ⟨bestNodeIndex_lt _ _ hne, ?_, ?_, removeAt_length _ _, ?_, rfl⟩
  · intro i hi
    exact hscan.2.1 i (by omega)
  · intro i hi
    exact hscan.2.2 i hi
  · intro i hi
    exact removeAt_getD _ _ _ _ hi

theorem extract_min_tiebreak_witness :
    (SearchState.mk initNodes [⟨3, 3⟩, ⟨4, 4⟩, ⟨5, 5⟩]).openList ≠ [] ∧
    bestNodeIndex initNodes [⟨3, 3⟩, ⟨4, 4⟩, ⟨5, 5⟩] = 0 ∧
    removeAt [⟨3, 3⟩, ⟨4, 4⟩, ⟨5, 5⟩] 0 = [⟨5, 5⟩, ⟨4, 4⟩] ∧
    bestNodeIndex (SearchState.mk initNodes [⟨3, 3⟩, ⟨4, 4⟩, ⟨5, 5⟩]).nodes
        (SearchState.mk initNodes [⟨3, 3⟩, ⟨4, 4⟩, ⟨5, 5⟩]).openList <
      (SearchState.mk initNodes [⟨3, 3⟩, ⟨4, 4⟩, ⟨5, 5⟩]).openList.length :=
  ⟨by decide, by decide, by decide,
    (extract_min_tiebreak cornerGrid ⟨9, 9⟩ false
      (SearchState.mk initNodes [⟨3, 3⟩, ⟨4, 4⟩, ⟨5, 5⟩]) (by decide)).1⟩

end DungeonMaker


namespace DungeonMaker

/-! ## Theorems: the smoothing pass is the synchronous rule -/

/-- The cells of `neighbours8 p` are the cells 8-adjacent to `p`, each once. -/
theorem mem_neighbours8 (p q : Point) : q ∈ neighbours8 p ↔ Adj8 p q := by
  obtain ⟨px, py⟩ := p
  obtain ⟨qx, qy⟩ := q
  simp only [neighbours8, Adj8, List.mem_cons, Point.mk.injEq, List.mem_singleton,
    List.not_mem_nil, or_false, ne_eq, not_and]
  constructor
  · rintro (h | h | h | h | h | h | h | h) <;> obtain ⟨rfl, rfl⟩ := h <;>
      refine ⟨fun _ => by omega, by omega, by omega⟩
  · rintro ⟨h1, h2, h3⟩
    have hx : qx = px - 1 ∨ qx = px ∨ qx = px + 1 := by omega
    have hy : qy = py - 1 ∨ qy = py ∨ qy = py + 1 := by omega
    rcases hx with rfl | rfl | rfl <;> rcases hy with rfl | rfl | rfl <;>
      first
        | (exfalso; exact h1 rfl rfl)
        | (simp; try omega)

theorem neighbours8_nodup (p : Point) : (neighbours8 p).Nodup := by
  obtain ⟨px, py⟩ := p
  simp only [neighbours8, List.nodup_cons, List.mem_cons, Point.mk.injEq, List.mem_singleton,
    List.not_mem_nil, List.nodup_nil, not_or, not_and, not_false_eq_true, and_true]
  omega

theorem ite_succ_eq (c : Prop) [Decidable c] (wc : Int) :
    (if c then wc + 1 else wc) = wc + (if c then 1 else 0) := by
  split <;> simp

theorem countP_cons_eq (f : Point → Bool) (a : Point) (l : List Point) :
    (((a :: l).countP f : Nat) : Int) = (if f a = true then 1 else 0) + ((l.countP f : Nat) : Int) := by
  rw [List.countP_cons]
  split <;> simp [add_comm]

/-- The counter of the code holds the number of Wall cells among the eight
neighbours. -/
theorem wallCount_eq (g : Grid) (x y : Int) :
    wallCount g x y = ((wallNeighbours g ⟨x, y⟩ : Nat) : Int) := by
  have h1 : ¬ (y - 1 = y) := by omega
  have h2 : ¬ (y + 1 = y) := by omega
  have h3 : ¬ (x - 1 = x) := by omega
  have h4 : ¬ (x + 1 = x) := by omega
  unfold wallCount wallNeighbours neighbours8
  simp only [List.foldl_cons, List.foldl_nil, h1, h2, h3, h4, false_and, and_false, and_self,
    if_false, if_true, ite_succ_eq, countP_cons_eq, List.countP_nil, Nat.cast_zero,
    decide_eq_true_eq]
  ring

theorem smoothCell_self (grid : Grid) (y : Int) (t : Grid) (x : Int) :
    smoothCell grid y t x ⟨x, y⟩ =
      if grid ⟨x, y⟩ = WALL_CHAR then
        (if wallNeighbours grid ⟨x, y⟩ < 4 then FLOOR_CHAR else t ⟨x, y⟩)
      else (if wallNeighbours grid ⟨x, y⟩ > 4 then WALL_CHAR else t ⟨x, y⟩) := by
  unfold smoothCell
  simp only [wallCount_eq]
  by_cases hw : grid ⟨x, y⟩ = WALL_CHAR
  · simp only [hw, if_true]
    by_cases hn : wallNeighbours grid ⟨x, y⟩ < 4
    · have : ((wallNeighbours grid ⟨x, y⟩ : Nat) : Int) < 4 := by exact_mod_cast hn
      simp only [this, hn, if_true, gridSet_same]
    · have : ¬ ((wallNeighbours grid ⟨x, y⟩ : Nat) : Int) < 4 := by
        intro h; apply hn; exact_mod_cast h
      simp only [this, hn, if_false]
  · simp only [hw, if_false]
    by_cases hn : wallNeighbours grid ⟨x, y⟩ > 4
    · have : ((wallNeighbours grid ⟨x, y⟩ : Nat) : Int) > 4 := by exact_mod_cast hn
      simp only [this, hn, if_true, gridSet_same]
    · have : ¬ ((wallNeighbours grid ⟨x, y⟩ : Nat) : Int) > 4 := by
        intro h; apply hn; exact_mod_cast h
      simp only [this, hn, if_false]

/-- The loop over a row leaves in the cell `(x, y)` what its body writes there,
when `x` is among the columns visited. -/
theorem foldl_smoothCell_self (grid : Grid) (y : Int) (xs : List Int) (t : Grid) (x : Int)
    (hx : x ∈ xs) :
    xs.foldl (smoothCell grid y) t ⟨x, y⟩ = smoothCell grid y t x ⟨x, y⟩ := by
  induction xs generalizing t with
  | nil => simp at hx
  | cons a xs ih =>
    rw [List.foldl_cons]
    by_cases hmem : x ∈ xs
    · rw [ih _ hmem, smoothCell_self, smoothCell_self]
      by_cases hax : a = x
      · subst hax
        rw [smoothCell_self]
        split <;> split <;> rfl
      · have : smoothCell grid y t a ⟨x, y⟩ = t ⟨x, y⟩ :=
          smoothCell_other grid y t a ⟨x, y⟩ (by
            intro h
            simp only [Point.mk.injEq] at h
            exact hax h.1.symm)
        rw [this]
    · have hax : a = x := by
        rcases List.mem_cons.mp hx with h | h
        · exact h.symm
        · exact absurd h hmem
      subst hax
      exact foldl_smoothCell_other grid y xs _ ⟨a, y⟩ (Or.inr hmem)

theorem foldl_rows_smoothCell_self (grid : Grid) (ys xs : List Int) (t : Grid) (x y : Int)
    (hx : x ∈ xs) (hy : y ∈ ys) :
    ys.foldl (fun t y => xs.foldl (smoothCell grid y) t) t ⟨x, y⟩ =
      smoothCell grid y t x ⟨x, y⟩ := by
  induction ys generalizing t with
  | nil => simp at hy
  | cons b ys ih =>
    rw [List.foldl_cons]
    by_cases hmem : y ∈ ys
    · rw [ih _ hmem, smoothCell_self, smoothCell_self]
      by_cases hby : b = y
      · subst hby
        rw [foldl_smoothCell_self grid b xs t x hx, smoothCell_self]
        split <;> split <;> rfl
      · have : xs.foldl (smoothCell grid b) t ⟨x, y⟩ = t ⟨x, y⟩ :=
          foldl_smoothCell_other grid b xs t ⟨x, y⟩ (Or.inl (fun h => hby h.symm))
        rw [this]
    · have hby : b = y := by
        rcases List.mem_cons.mp hy with h | h
        · exact h.symm
        · exact absurd h hmem
      subst hby
      rw [foldl_rows_smoothCell_other grid ys xs _ ⟨x, b⟩ (Or.inl hmem)]
      exact foldl_smoothCell_self grid b xs t x hx

/-- One pass of the code computes the synchronous rule. -/
theorem smoothPass_eq (grid : Grid) : smoothPass grid = syncPass grid := by
  funext p
  obtain ⟨x, y⟩ := p
  unfold syncPass
  by_cases hi : IsInterior ⟨x, y⟩
  · rw [if_pos hi]
    have hx : x ∈ interiorXs := (mem_interiorXs x).mpr ⟨hi.1, hi.2.1⟩
    have hy : y ∈ interiorYs := (mem_interiorYs y).mpr ⟨hi.2.2.1, hi.2.2.2⟩
    unfold smoothPass
    rw [foldl_rows_smoothCell_self grid interiorYs interiorXs grid x y hx hy, smoothCell_self]
  · rw [if_neg hi]
    apply smoothPass_other
    simp only [mem_interiorXs, mem_interiorYs]
    unfold IsInterior at hi
    simp only at hi
    omega

theorem smoothLoop_eq (n : Nat) (grid : Grid) : smoothLoop n grid = syncPasses n grid := by
  induction n generalizing grid with
  | zero => rfl
  | succ n ih => rw [smoothLoop, syncPasses, smoothPass_eq, ih]

/-- C11. Synchronous cave rule: each smoothing pass of
`generateCellularAutomata` maps the grid `g` at its start to the grid in which
every interior cell (`1 ≤ x ≤ 77`, `1 ≤ y ≤ 23`), with `n` the number of Wall
cells among its 8 neighbours in `g`, is Floor if it was Wall and `n < 4`, is
Wall if it was not Wall and `n > 4`, and is unchanged otherwise, and in which
every border cell is unchanged; the final grid is this pass applied
`iterations` times to the random initial fill. -/
theorem cave_rule_synchronous (g : Grid) (d : Dungeon) (iterations wallProbability : Int) :
    (∀ p : Point, IsInterior p →
      smoothPass g p =
        if g p = WALL_CHAR then
          (if (neighbours8 p).countP (fun q => decide (g q = WALL_CHAR)) < 4 then FLOOR_CHAR
            else g p)
        else
          (if (neighbours8 p).countP (fun q => decide (g q = WALL_CHAR)) > 4 then WALL_CHAR
            else g p)) ∧
    (∀ p : Point, ¬ IsInterior p → smoothPass g p = g p) ∧
    (∀ p q : Point, q ∈ neighbours8 p ↔ Adj8 p q) ∧
    (generateCellularAutomata d iterations wallProbability).grid =
      syncPasses iterations.toNat
        (randomFill wallProbability (initializeGrid WALL_CHAR, d.prng)).1 ∧
    (∀ (n : Nat) (g0 : Grid), syncPasses (n + 1) g0 = syncPasses n (smoothPass g0)) := by
  refine ⟨fun p hp => ?_, fun p hp => ?_, mem_neighbours8, ?_, fun n g0 => ?_⟩
  · rw [smoothPass_eq]
    unfold syncPass wallNeighbours
    rw [if_pos hp]
  · rw [smoothPass_eq]
    unfold syncPass
    rw [if_neg hp]
  · unfold generateCellularAutomata
    simp only
    rw [smoothLoop_eq]
  · rw [syncPasses, smoothPass_eq]

theorem cave_rule_synchronous_witness :
    IsInterior ⟨1, 1⟩ ∧
    smoothPass cornerGrid ⟨1, 1⟩ = FLOOR_CHAR ∧
    smoothPass cornerGrid ⟨1, 1⟩ =
      if cornerGrid ⟨1, 1⟩ = WALL_CHAR then
        (if (neighbours8 ⟨1, 1⟩).countP (fun q => decide (cornerGrid q = WALL_CHAR)) < 4
          then FLOOR_CHAR else cornerGrid ⟨1, 1⟩)
      else
        (if (neighbours8 ⟨1, 1⟩).countP (fun q => decide (cornerGrid q = WALL_CHAR)) > 4
          then WALL_CHAR else cornerGrid ⟨1, 1⟩) :=
  ⟨by decide,
    by rw [(cave_rule_synchronous cornerGrid ⟨cornerGrid, ⟨42⟩⟩ 1 45).1 ⟨1, 1⟩ (by decide)]; decide,
    (cave_rule_synchronous cornerGrid ⟨cornerGrid, ⟨42⟩⟩ 1 45).1 ⟨1, 1⟩ (by decide)⟩

end DungeonMaker


namespace DungeonMaker

/-! ## Theorems: the steps of the search loop, one by one -/

theorem point_eq_of_coords {p q : Point} (hx : p.x = q.x) (hy : p.y = q.y) : p = q := by
  obtain ⟨px, py⟩ := p
  obtain ⟨qx, qy⟩ := q
  simp only at hx hy
  rw [hx, hy]

theorem extract_mid_best {grid : Grid} {s e : Point} {a : Bool} {k : Nat} {st : SearchState}
    (h : LoopInv grid s e a k st) (hne : st.openList ≠ []) :
    MidInv grid s e a (k + 1) (extractBest st) [] (closeBest st) :=
  extract_mid h hne

/-- The test `current->pos.x == end.x && current->pos.y == end.y` holds exactly
when the extracted cell is the end cell. -/
theorem searchStep_eq {grid : Grid} {s e : Point} {a : Bool} {k : Nat} {st : SearchState}
    (h : LoopInv grid s e a k st) (hne : st.openList ≠ []) :
    searchStep grid e a st =
      if extractBest st = e then
        match reconstructPath (closeBest st).nodes grid (extractBest st) with
        | .error f => .error f
        | .ok grid1 => .ok (.inl { found := true, grid := grid1, nodes := (closeBest st).nodes })
      else .ok (.inr (relaxAll grid e a st)) := by
  have hpos : ((closeBest st).nodes (extractBest st)).pos = extractBest st :=
    (extract_mid_best h hne).core.pos _
  unfold searchStep
  simp only
  change (if (((closeBest st).nodes (extractBest st)).pos.x = e.x ∧
      ((closeBest st).nodes (extractBest st)).pos.y = e.y) then _ else _) = _
  rw [hpos]
  by_cases hce : extractBest st = e
  · rw [if_pos hce, if_pos ⟨by rw [hce], by rw [hce]⟩]
    rfl
  · rw [if_neg hce, if_neg (fun hc => hce (point_eq_of_coords hc.1 hc.2))]
    rfl

/-- An iteration that extracts the end node ends the search with the grid
that `reconstructPath` draws. -/
theorem searchStep_found {grid : Grid} {s e : Point} {a : Bool} {k : Nat} {st : SearchState}
    (h : LoopInv grid s e a k st) (hne : st.openList ≠ []) (hce : extractBest st = e) :
    ∃ g1, reconstructPath (closeBest st).nodes grid e = .ok g1 ∧
      searchStep grid e a st =
        .ok (.inl { found := true, grid := g1, nodes := (closeBest st).nodes }) ∧
      MidInv grid s e a (k + 1) e [] (closeBest st) := by
  have hmid := extract_mid_best h hne
  rw [hce] at hmid
  have hv : Visited (closeBest st) e := Or.inr hmid.cur_closed
  have hg := hmid.core.g_closed e hmid.cur_closed
  have hk := hmid.core.k_le
  obtain ⟨g1, hg1⟩ := reconstructLoop_ok hmid.core cellCount grid none e hv
    (by push_cast at hg ⊢; omega)
  have hg2 : reconstructPath (closeBest st).nodes grid e = .ok g1 := hg1
  refine ⟨g1, hg2, ?_, hmid⟩
  rw [searchStep_eq h hne, if_pos hce, hce, hg2]

/-- An iteration that extracts another node relaxes its eight moves and goes
on from a state that satisfies the invariant. -/
theorem searchStep_continue {grid : Grid} {s e : Point} {a : Bool} {k : Nat}
    {st : SearchState} (h : LoopInv grid s e a k st) (hne : st.openList ≠ [])
    (hce : extractBest st ≠ e) :
    searchStep grid e a st = .ok (.inr (relaxAll grid e a st)) ∧
      MidInv grid s e a (k + 1) (extractBest st) dirs8 (relaxAll grid e a st) ∧
      LoopInv grid s e a (k + 1) (relaxAll grid e a st) := by
  have hmid := extract_mid_best h hne
  have hfold := mid_fold dirs8 (fun d hd => hd) [] _ hmid
  rw [List.nil_append] at hfold
  refine ⟨?_, hfold, mid_to_loop hfold hce⟩
  rw [searchStep_eq h hne, if_neg hce]

/-- Every state of a run satisfies the invariant at the head of the loop. -/
theorem searchRun_inv {grid : Grid} {s e : Point} {a : Bool} (hs : isInBounds s.x s.y = true)
    {k : Nat} {st : SearchState} (hr : SearchRun grid s e a k st) : LoopInv grid s e a k st := by
  induction hr with
  | init => exact init_inv grid s e a hs
  | @step k st st1 _ hlen hstep ih =>
    have hne : st.openList ≠ [] := List.length_pos.mp hlen
    by_cases hce : extractBest st = e
    · obtain ⟨g1, _, hf, _⟩ := searchStep_found ih hne hce
      rw [hf] at hstep
      simp at hstep
    · obtain ⟨hc, _, hinv⟩ := searchStep_continue ih hne hce
      rw [hc] at hstep
      simp only [Except.ok.injEq, Sum.inr.injEq] at hstep
      rw [← hstep]
      exact hinv

/-- The loop returns within its fuel; a failure leaves the grid as it was and
a success returns the drawing made from a node table of the search. -/
theorem searchLoop_found {grid : Grid} {s e : Point} {a : Bool} (fuel : Nat) (k : Nat)
    (st : SearchState) (h : LoopInv grid s e a k st) (hk : k + fuel = cellCount) :
    ∃ r, searchLoop grid e a fuel st = .ok r ∧ (r.found = false → r.grid = grid) ∧
      (r.found = true → FoundPost grid s e a r) := by
  induction fuel generalizing k st with
  | zero =>
    have hk' : k = cellCount := by omega
    subst hk'
    have hol := open_empty_of_full h
    refine ⟨⟨false, grid, st.nodes⟩, ?_, fun _ => rfl, fun hf => absurd hf (by simp)⟩
    simp [searchLoop, hol]
  | succ fuel ih =>
    rw [searchLoop]
    by_cases hol : st.openList = []
    · refine ⟨⟨false, grid, st.nodes⟩, ?_, fun _ => rfl, fun hf => absurd hf (by simp)⟩
      simp [hol]
    · have hlen : st.openList.length > 0 := List.length_pos.mpr hol
      rw [if_pos hlen]
      by_cases hce : extractBest st = e
      · obtain ⟨g1, hg1, hf, hmid⟩ := searchStep_found h hol hce
        rw [hf]
        refine ⟨_, rfl, fun hf => absurd hf (by simp), fun _ => ?_⟩
        exact ⟨k + 1, closeBest st, hmid.core, rfl, hmid.cur_closed, hg1⟩
      · obtain ⟨hc, _, hinv⟩ := searchStep_continue h hol hce
        rw [hc]
        exact ih (k + 1) _ hinv (by omega)

theorem findPath_found (grid : Grid) (s e : Point) (a : Bool)
    (hs : isInBounds s.x s.y = true) :
    ∃ r, findPath grid s e a = .ok r ∧ (r.found = false → r.grid = grid) ∧
      (r.found = true → FoundPost grid s e a r) := by
  unfold findPath
  simp only [hs, Bool.not_true, Bool.false_eq_true, if_false]
  exact searchLoop_found cellCount 0 _ (init_inv grid s e a hs) (by omega)

end DungeonMaker


namespace DungeonMaker

/-! ## Theorems: what `reconstructPath` draws -/

/-- The drawing statement either leaves the grid alone, or the node has a
successor and a predecessor, its cell holds Floor, and the cell gets a glyph. -/
theorem drawSegment_cases (nodes : NodeTable) (g : Grid) (succ : Option Point) (cur : Point)
    (pred : Option Point) :
    drawSegment nodes g succ cur pred = g ∨
    ∃ s1 p1, succ = some s1 ∧ pred = some p1 ∧ g (nodes cur).pos = FLOOR_CHAR ∧
      drawSegment nodes g succ cur pred =
        g.set (nodes cur).pos
          (getPathCharacter (nodes p1).pos (nodes cur).pos (nodes s1).pos) := by
  cases succ with
  | none => left; cases pred <;> rfl
  | some s1 =>
    cases pred with
    | none => left; rfl
    | some p1 =>
      by_cases hf : g (nodes cur).pos = FLOOR_CHAR
      · right
        refine ⟨s1, p1, rfl, rfl, hf, ?_⟩
        simp [drawSegment, hf]
      · left
        simp [drawSegment, hf]

/-- The cells that the loop of `reconstructPath` changes held Floor, hold a
glyph afterwards, are reached nodes other than the start, and cost no more
than the node the loop starts from, less if that node has no successor. -/
theorem reconstructLoop_frame {grid : Grid} {s : Point} {a : Bool} {k : Nat}
    {st : SearchState} (h : SearchCore grid s a k st) (fuel : Nat) (g : Grid)
    (succ : Option Point) (p : Point) (g1 : Grid) (hv : Visited st p)
    (hr : reconstructLoop st.nodes fuel g succ (some p) = .ok g1) (q : Point)
    (hq : g1 q ≠ g q) :
    g q = FLOOR_CHAR ∧ g1 q ∈ routeGlyphs ∧ q ≠ s ∧ Visited st q ∧
      (st.nodes q).gCost ≤ (st.nodes p).gCost ∧
      (succ = none → (st.nodes q).gCost < (st.nodes p).gCost) := by
  induction fuel generalizing g succ p with
  | zero => simp [reconstructLoop] at hr
  | succ fuel ih =>
    rw [reconstructLoop_succ] at hr
    rcases h.parent_cases p hv with ⟨hp, _, _⟩ | ⟨q0, hq0, hvq0, hg⟩
    · rw [hp, reconstructLoop_none] at hr
      have hg1 : g1 = g := by
        have : drawSegment st.nodes g succ p none = g1 := by
          simpa using hr
        rw [← this]
        cases succ <;> rfl
      exact absurd (by rw [hg1]) hq
    · rw [hq0] at hr
      have hps : p ≠ s := by
        intro hEq
        rw [hEq, h.start_node.1] at hq0
        simp at hq0
      by_cases hch : g1 q = drawSegment st.nodes g succ p (some q0) q
      · -- the cell was changed by the drawing statement of this iteration
        rcases drawSegment_cases st.nodes g succ p (some q0) with hd | ⟨s1, p1, hs1, hp1, hfl, hd⟩
        · rw [hd] at hch
          exact absurd hch hq
        · rw [hd, h.pos p] at hch
          rw [h.pos p] at hfl
          have hqp : q = p := by
            by_contra hne
            rw [gridSet_other _ _ hne] at hch
            exact hq hch
          subst hqp
          rw [gridSet_same] at hch
          refine ⟨hfl, ?_, hps, hv, le_refl _, fun hn => ?_⟩
          · rw [hch]; exact getPathCharacter_mem _ _ _
          · rw [hn] at hs1
            simp at hs1
      · -- the cell was changed later
        obtain ⟨h1, h2, h3, h4, h5, _⟩ := ih _ (some p) q0 hvq0 hr hch
        have hgq : g q = FLOOR_CHAR := by
          rcases drawSegment_cases st.nodes g succ p (some q0) with hd | ⟨s1, p1, _, _, _, hd⟩
          · rw [hd] at h1; exact h1
          · rw [hd, h.pos p] at h1
            by_cases hqp : q = p
            · subst hqp
              rw [gridSet_same] at h1
              exact absurd h1 (getPathCharacter_ne_floor _ _ _)
            · rwa [gridSet_other _ _ hqp] at h1
        exact ⟨hgq, h2, h3, h4, by omega, fun _ => by omega⟩

/-- Drawing a second time on the grid drawn changes nothing. -/
theorem reconstructLoop_idem {grid : Grid} {s : Point} {a : Bool} {k : Nat}
    {st : SearchState} (h : SearchCore grid s a k st) (fuel : Nat) (g : Grid)
    (succ : Option Point) (p : Point) (g1 : Grid) (hv : Visited st p)
    (hr : reconstructLoop st.nodes fuel g succ (some p) = .ok g1) :
    reconstructLoop st.nodes fuel g1 succ (some p) = .ok g1 := by
  induction fuel generalizing g succ p with
  | zero => simp [reconstructLoop] at hr
  | succ fuel ih =>
    rw [reconstructLoop_succ] at hr ⊢
    rcases h.parent_cases p hv with ⟨hp, _, _⟩ | ⟨q0, hq0, hvq0, hg⟩
    · rw [hp, reconstructLoop_none] at hr
      rw [hp, reconstructLoop_none]
      have h1 : drawSegment st.nodes g succ p none = g := by cases succ <;> rfl
      have h2 : drawSegment st.nodes g1 succ p none = g1 := by cases succ <;> rfl
      rw [h2]
    · rw [hq0] at hr ⊢
      have hkeep : g1 p = drawSegment st.nodes g succ p (some q0) p := by
        by_contra hne
        have := (reconstructLoop_frame h fuel _ (some p) q0 g1 hvq0 hr p hne).2.2.2.2.1
        omega
      have hdraw : drawSegment st.nodes g1 succ p (some q0) = g1 := by
        rcases drawSegment_cases st.nodes g1 succ p (some q0) with hd | ⟨s1, p1, hs1, _, hfl, _⟩
        · exact hd
        · exfalso
          rw [h.pos p, hkeep] at hfl
          rcases drawSegment_cases st.nodes g succ p (some q0) with hd | ⟨s2, p2, _, _, hfl2, hd⟩
          · subst hs1
            rw [hd] at hfl
            have : drawSegment st.nodes g (some s1) p (some q0) =
                g.set (st.nodes p).pos
                  (getPathCharacter (st.nodes q0).pos (st.nodes p).pos (st.nodes s1).pos) := by
              simp [drawSegment, h.pos p, hfl]
            rw [this, h.pos p] at hd
            have h3 := congrFun hd p
            rw [gridSet_same, hfl] at h3
            exact getPathCharacter_ne_floor _ _ _ h3
          · rw [hd, h.pos p, gridSet_same] at hfl
            exact getPathCharacter_ne_floor _ _ _ hfl
      rw [hdraw]
      exact ih _ (some p) q0 hvq0 hr

/-- Whether the loop of `reconstructPath` returns does not depend on the grid. -/
theorem reconstructLoop_ok_congr (nodes : NodeTable) (fuel : Nat) (g g2 : Grid)
    (succ : Option Point) (cur : Option Point) (g1 : Grid)
    (hr : reconstructLoop nodes fuel g succ cur = .ok g1) :
    ∃ g3, reconstructLoop nodes fuel g2 succ cur = .ok g3 := by
  induction fuel generalizing g g2 succ cur with
  | zero =>
    cases cur with
    | none => exact ⟨g2, reconstructLoop_none _ _ _ _⟩
    | some c => simp [reconstructLoop] at hr
  | succ fuel ih =>
    cases cur with
    | none => exact ⟨g2, reconstructLoop_none _ _ _ _⟩
    | some c =>
      rw [reconstructLoop_succ] at hr ⊢
      exact ih _ _ _ _ hr

end DungeonMaker


namespace DungeonMaker

/-! ## Theorems: the frame of the rendering and its idempotence -/

/-- The cells in which the grid after `findPath` differs from the grid before
held Floor, hold a glyph afterwards, and are neither the start nor the end. -/
theorem findPath_frame (grid : Grid) (s e : Point) (a : Bool)
    (hs : isInBounds s.x s.y = true) :
    ∃ r, findPath grid s e a = .ok r ∧
      ∀ p, r.grid p ≠ grid p →
        grid p = FLOOR_CHAR ∧ r.grid p ∈ routeGlyphs ∧ p ≠ s ∧ p ≠ e := by
  obtain ⟨r, hr, hnf, hf⟩ := findPath_found grid s e a hs
  refine ⟨r, hr, fun p hp => ?_⟩
  cases hfound : r.found
  · rw [hnf hfound] at hp
    exact absurd rfl hp
  · obtain ⟨k, st, hcore, hnodes, hclosed, hrec⟩ := hf hfound
    rw [← hnodes] at hrec hclosed
    have hv : Visited st e := Or.inr hclosed
    obtain ⟨h1, h2, h3, _, _, h6⟩ :=
      reconstructLoop_frame hcore cellCount grid none e r.grid hv hrec p hp
    refine ⟨h1, h2, h3, ?_⟩
    rintro rfl
    have := h6 rfl
    omega

/-- C12. Route rendering frame: for every grid, start and end inside the grid
and either mode, `findPath` returns, and every cell whose content differs
between the grid before and the grid after held Floor before the call and
holds one of the route glyphs (179, 196, 192, 217, 218, 191 or `+`)
afterwards; Wall cells, cells with any other value than Floor, and the start
and end cells are not modified. -/
theorem route_render_frame (grid : Grid) (s e : Point) (useAStar : Bool)
    (hs : isInBounds s.x s.y = true) (_he : isInBounds e.x e.y = true) :
    ∃ r, findPath grid s e useAStar = .ok r ∧
      (∀ p, r.grid p ≠ grid p →
        grid p = FLOOR_CHAR ∧ r.grid p ∈ [179, 196, 192, 217, 218, 191, 43]) ∧
      (∀ p, grid p = WALL_CHAR → r.grid p = WALL_CHAR) ∧
      (∀ p, grid p ≠ FLOOR_CHAR → r.grid p = grid p) ∧
      r.grid s = grid s ∧ r.grid e = grid e := by
  obtain ⟨r, hr, hframe⟩ := findPath_frame grid s e useAStar hs
  refine ⟨r, hr, fun p hp => ⟨(hframe p hp).1, (hframe p hp).2.1⟩, fun p hw => ?_,
    fun p hnf => ?_, ?_, ?_⟩
  · by_contra hne
    have hne2 : r.grid p ≠ grid p := by rw [hw]; exact hne
    have := (hframe p hne2).1
    rw [hw] at this
    exact FLOOR_ne_WALL this.symm
  · by_contra hne
    exact hnf (hframe p hne).1
  · by_contra hne
    exact (hframe s hne).2.2.1 rfl
  · by_contra hne
    exact (hframe e hne).2.2.2 rfl

theorem route_render_frame_witness :
    (isInBounds 0 2 = true ∧ isInBounds 3 0 = true) ∧
    resultGrid cornerGrid ⟨0, 2⟩ ⟨3, 0⟩ false ⟨1, 2⟩ = 196 ∧
    ∃ r, findPath cornerGrid ⟨0, 2⟩ ⟨3, 0⟩ false = .ok r ∧
      (∀ p, r.grid p ≠ cornerGrid p →
        cornerGrid p = FLOOR_CHAR ∧ r.grid p ∈ [179, 196, 192, 217, 218, 191, 43]) ∧
      (∀ p, cornerGrid p = WALL_CHAR → r.grid p = WALL_CHAR) ∧
      (∀ p, cornerGrid p ≠ FLOOR_CHAR → r.grid p = cornerGrid p) ∧
      r.grid ⟨0, 2⟩ = cornerGrid ⟨0, 2⟩ ∧ r.grid ⟨3, 0⟩ = cornerGrid ⟨3, 0⟩ :=
  ⟨⟨by decide, by decide⟩, by decide,
    route_render_frame cornerGrid ⟨0, 2⟩ ⟨3, 0⟩ false (by decide) (by decide)⟩

/-- The body of the loop over the moves reads the grid only to tell Wall from
the rest. -/
theorem relaxNeighbor_congr {g1 g2 : Grid} (hw : WallEq g1 g2) (e : Point) (a : Bool)
    (cur : Point) : relaxNeighbor g1 e a cur = relaxNeighbor g2 e a cur := by
  funext st d
  rw [relaxNeighbor_eq, relaxNeighbor_eq]
  have : decide (g1 (moveBy cur d) = WALL_CHAR) = decide (g2 (moveBy cur d) = WALL_CHAR) :=
    decide_eq_decide.mpr (hw _)
  rw [this]

/-- On two grids with the same Wall cells the loop of the search finds the same
node table and gives the same answer. -/
theorem searchLoop_congr {g1 g2 : Grid} (hw : WallEq g1 g2) (e : Point) (a : Bool)
    (fuel : Nat) (st : SearchState) (r1 : PathResult)
    (h1 : searchLoop g1 e a fuel st = .ok r1) :
    ∃ r2, searchLoop g2 e a fuel st = .ok r2 ∧ r2.found = r1.found ∧ r2.nodes = r1.nodes := by
  induction fuel generalizing st with
  | zero =>
    simp only [searchLoop] at h1 ⊢
    split at h1
    · simp at h1
    · rename_i hlen
      simp only [hlen, if_false]
      simp only [Except.ok.injEq] at h1
      exact ⟨_, rfl, by rw [← h1], by rw [← h1]⟩
  | succ fuel ih =>
    rw [searchLoop] at h1 ⊢
    by_cases hlen : st.openList.length > 0
    · rw [if_pos hlen] at h1 ⊢
      unfold searchStep at h1 ⊢
      simp only at h1 ⊢
      rw [relaxNeighbor_congr hw] at h1
      split_ifs at h1 ⊢ with hc
      · cases hrec : reconstructPath
            (st.nodes.set (st.openList.getD (bestNodeIndex st.nodes st.openList) ⟨0, 0⟩)
              { st.nodes (st.openList.getD (bestNodeIndex st.nodes st.openList) ⟨0, 0⟩) with
                isOpen := false, isClosed := true }) g1
            (st.openList.getD (bestNodeIndex st.nodes st.openList) ⟨0, 0⟩) with
        | error f =>
          rw [hrec] at h1
          simp at h1
        | ok g3 =>
          rw [hrec] at h1
          obtain ⟨g4, hg4⟩ := reconstructLoop_ok_congr _ _ _ g2 _ _ _ hrec
          have hg5 : reconstructPath
              (st.nodes.set (st.openList.getD (bestNodeIndex st.nodes st.openList) ⟨0, 0⟩)
                { st.nodes (st.openList.getD (bestNodeIndex st.nodes st.openList) ⟨0, 0⟩) with
                  isOpen := false, isClosed := true }) g2
              (st.openList.getD (bestNodeIndex st.nodes st.openList) ⟨0, 0⟩) = .ok g4 := hg4
          rw [hg5]
          simp only [Except.ok.injEq] at h1
          exact ⟨_, rfl, by rw [← h1], by rw [← h1]⟩
      · exact ih _ h1
    · rw [if_neg hlen] at h1 ⊢
      simp only [Except.ok.injEq] at h1
      exact ⟨_, rfl, by rw [← h1], by rw [← h1]⟩

theorem findPath_congr {g1 g2 : Grid} (hw : WallEq g1 g2) (s e : Point) (a : Bool)
    (r1 : PathResult) (h1 : findPath g1 s e a = .ok r1) :
    ∃ r2, findPath g2 s e a = .ok r2 ∧ r2.found = r1.found ∧ r2.nodes = r1.nodes := by
  unfold findPath at h1 ⊢
  by_cases hb : (!isInBounds s.x s.y) = true
  · rw [if_pos hb] at h1
    cases h1
  · rw [if_neg hb] at h1 ⊢
    exact searchLoop_congr hw e a _ _ r1 h1

/-- C19. Render idempotence: for every grid, start and end inside the grid and
either mode, running `findPath` a second time with the same arguments on the
grid produced by the first run gives the same outcome (success or failure, the
same node table and so the same route) and leaves that grid unchanged. -/
theorem render_idempotent (grid : Grid) (s e : Point) (useAStar : Bool)
    (hs : isInBounds s.x s.y = true) (_he : isInBounds e.x e.y = true) :
    ∃ r1 r2, findPath grid s e useAStar = .ok r1 ∧ findPath r1.grid s e useAStar = .ok r2 ∧
      r2.found = r1.found ∧ r2.nodes = r1.nodes ∧ routeCells r2 e = routeCells r1 e ∧
      r2.grid = r1.grid := by
  obtain ⟨r1, hr1, hnf1, hf1⟩ := findPath_found grid s e useAStar hs
  obtain ⟨r1b, hr1b, hframe⟩ := findPath_frame grid s e useAStar hs
  have hsame : r1b = r1 := by
    rw [hr1] at hr1b
    simp only [Except.ok.injEq] at hr1b
    exact hr1b.symm
  subst hsame
  have hw : WallEq grid r1b.grid := by
    intro p
    by_cases hp : r1b.grid p = grid p
    · rw [hp]
    · obtain ⟨h1, h2, _, _⟩ := hframe p hp
      constructor
      · intro hwall
        rw [hwall] at h1
        exact absurd h1.symm FLOOR_ne_WALL
      · intro hwall
        rw [hwall] at h2
        exact absurd h2 (by decide)
  obtain ⟨r2, hr2, hfound, hnodes⟩ := findPath_congr hw s e useAStar r1b hr1
  obtain ⟨r2b, hr2b, hnf2, hf2⟩ := findPath_found r1b.grid s e useAStar hs
  have hsame2 : r2b = r2 := by
    rw [hr2] at hr2b
    simp only [Except.ok.injEq] at hr2b
    exact hr2b.symm
  subst hsame2
  refine ⟨r1b, r2b, hr1, hr2, hfound, hnodes, ?_, ?_⟩
  · unfold routeCells
    rw [hnodes]
  · cases hfd : r1b.found
    · exact hnf2 (by rw [hfound, hfd])
    · obtain ⟨k, st, hcore, hn, hclosed, hrec⟩ := hf1 hfd
      obtain ⟨_, _, _, _, _, hrec2⟩ := hf2 (by rw [hfound, hfd])
      rw [← hn] at hrec hclosed
      have hidem := reconstructLoop_idem hcore cellCount grid none e r1b.grid
        (Or.inr hclosed) hrec
      rw [hnodes, ← hn] at hrec2
      have : reconstructLoop st.nodes cellCount r1b.grid none (some e) = .ok r2b.grid := hrec2
      rw [hidem] at this
      simp only [Except.ok.injEq] at this
      exact this.symm

theorem render_idempotent_witness :
    (isInBounds 0 2 = true ∧ isInBounds 3 0 = true) ∧
    pathFound cornerGrid ⟨0, 2⟩ ⟨3, 0⟩ true = true ∧
    ∃ r1 r2, findPath cornerGrid ⟨0, 2⟩ ⟨3, 0⟩ true = .ok r1 ∧
      findPath r1.grid ⟨0, 2⟩ ⟨3, 0⟩ true = .ok r2 ∧
      r2.found = r1.found ∧ r2.nodes = r1.nodes ∧
      routeCells r2 ⟨3, 0⟩ = routeCells r1 ⟨3, 0⟩ ∧ r2.grid = r1.grid :=
  ⟨⟨by decide, by decide⟩, by decide,
    render_idempotent cornerGrid ⟨0, 2⟩ ⟨3, 0⟩ true (by decide) (by decide)⟩

end DungeonMaker


namespace DungeonMaker

/-! ## Theorems: the search loop ends -/

theorem grows_refl (st : SearchState) : Grows st st :=
  ⟨fun _ => rfl, fun _ h => h, fun _ h => Or.inl h⟩

theorem grows_trans {st st1 st2 : SearchState} (h1 : Grows st st1) (h2 : Grows st1 st2) :
    Grows st st2 := by
  refine ⟨fun p => by rw [h2.1, h1.1], fun p hv => h2.2.1 p (h1.2.1 p hv), fun p hp => ?_⟩
  rcases h2.2.2 p hp with h | h
  · exact h1.2.2 p h
  · exact Or.inr (fun hv => h (h1.2.1 p hv))

/-- Relaxing a move closes nothing, forgets nothing, and appends to the open
list only a cell that was not reached before. -/
theorem relaxNeighbor_grows (grid : Grid) (e : Point) (a : Bool) (cur : Point)
    (st : SearchState) (d : Int × Int) : Grows st (relaxNeighbor grid e a cur st d) := by
  rcases relaxNeighbor_cases grid e a cur st d with
    ⟨heq, _⟩ | ⟨_, hnc, _, nd, _, _, _, hop, hcl, _, _, heq⟩
  · rw [heq]; exact grows_refl st
  · rw [heq]
    refine ⟨fun p => ?_, fun p hv => ?_, fun p hp => ?_⟩
    · by_cases hp : p = moveBy cur d
      · subst hp; simp only [nodeSet_same]; rw [hcl, hnc]
      · simp only [nodeSet_other _ _ hp]
    · by_cases hp : p = moveBy cur d
      · subst hp; left; simp only [nodeSet_same]; exact hop
      · simpa only [Visited, nodeSet_other _ _ hp] using hv
    · dsimp only at hp
      by_cases ho : (st.nodes (moveBy cur d)).isOpen = true
      · rw [if_pos ho] at hp; exact Or.inl hp
      · rw [if_neg ho, List.mem_append, List.mem_singleton] at hp
        rcases hp with hp | rfl
        · exact Or.inl hp
        · right
          rintro (hv | hv)
          · exact ho hv
          · rw [hnc] at hv; exact Bool.false_ne_true hv

theorem foldl_relax_grows (grid : Grid) (e : Point) (a : Bool) (cur : Point)
    (ds : List (Int × Int)) (st : SearchState) :
    Grows st (ds.foldl (relaxNeighbor grid e a cur) st) := by
  induction ds generalizing st with
  | nil => exact grows_refl st
  | cons d ds ih =>
    rw [List.foldl_cons]
    exact grows_trans (relaxNeighbor_grows grid e a cur st d) (ih _)

/-- What an iteration that goes on does to the state: it closes the extracted
node, which was on the open list and not closed; closed nodes stay closed and
reached nodes stay reached; every entry of the new open list was on the old one
or belongs to a node that had never been touched. -/
theorem relaxAll_step {grid : Grid} {s e : Point} {a : Bool} {k : Nat} {st : SearchState}
    (h : LoopInv grid s e a k st) (hne : st.openList ≠ []) :
    extractBest st ∈ st.openList ∧ (st.nodes (extractBest st)).isClosed = false ∧
    ((relaxAll grid e a st).nodes (extractBest st)).isClosed = true ∧
    (∀ p, (st.nodes p).isClosed = true → ((relaxAll grid e a st).nodes p).isClosed = true) ∧
    (∀ p, Visited st p → Visited (relaxAll grid e a st) p) ∧
    (∀ p, p ∈ (relaxAll grid e a st).openList →
      p ∈ st.openList ∨ st.nodes p = initNodes p) := by
  have hmem : extractBest st ∈ st.openList := bestNodeIndex_mem st.nodes st.openList hne
  have hopen := (h.core.open_iff _).mp hmem
  have hncl := h.core.open_not_closed _ hopen
  have hgrow : Grows (closeBest st) (relaxAll grid e a st) :=
    foldl_relax_grows grid e a (extractBest st) dirs8 (closeBest st)
  have hclose : ∀ p, ((closeBest st).nodes p).isClosed = true ↔
      (p = extractBest st ∨ (st.nodes p).isClosed = true) := by
    intro p
    by_cases hp : p = extractBest st
    · subst hp; simp [closeBest, nodeSet_same]
    · simp [closeBest, nodeSet_other _ _ hp, hp]
  have hopen1 : ∀ p, ((closeBest st).nodes p).isOpen = true ↔
      (p ≠ extractBest st ∧ (st.nodes p).isOpen = true) := by
    intro p
    by_cases hp : p = extractBest st
    · subst hp; simp [closeBest, nodeSet_same]
    · simp [closeBest, nodeSet_other _ _ hp, hp]
  refine ⟨hmem, hncl, ?_, fun p hp => ?_, fun p hv => ?_, fun p hp => ?_⟩
  · rw [hgrow.1, hclose]; exact Or.inl rfl
  · rw [hgrow.1, hclose]; exact Or.inr hp
  · apply hgrow.2.1
    rcases hv with ho | hc
    · by_cases hp : p = extractBest st
      · exact Or.inr ((hclose p).mpr (Or.inl hp))
      · exact Or.inl ((hopen1 p).mpr ⟨hp, ho⟩)
    · exact Or.inr ((hclose p).mpr (Or.inr hc))
  · rcases hgrow.2.2 p hp with hp1 | hp1
    · left
      have hb := bestNodeIndex_lt st.nodes st.openList hne
      exact ((mem_removeAt _ h.core.nodup _ hb p).mp hp1).1
    · by_cases hold : p ∈ st.openList
      · exact Or.inl hold
      · right
        have ho : (st.nodes p).isOpen = false := by
          cases hx : (st.nodes p).isOpen
          · rfl
          · exact absurd ((h.core.open_iff p).mpr hx) hold
        have hc : (st.nodes p).isClosed = false := by
          cases hx : (st.nodes p).isClosed
          · rfl
          · exact absurd (Or.inr ((hclose p).mpr (Or.inr hx))) hp1
        exact h.core.fresh p ho hc

/-- C16. Search termination: for every grid, every start and end inside the
grid and either mode, `findPath` returns.  At the head of the loop after `k`
iterations, exactly `k` cells are closed, the open list has no cell twice and
no closed cell, and `k` plus the length of the open list is at most `79 * 25`
(so there are at most `79 * 25` iterations and entries).  An
iteration that goes on closes a cell that was on the open list and not closed;
closed cells stay closed, and a cell enters the open list only if its node had
never been touched: so every cell is inserted at most once and extracted at
most once. -/
theorem search_terminates (grid : Grid) (s e : Point) (useAStar : Bool)
    (hs : isInBounds s.x s.y = true) (_he : isInBounds e.x e.y = true) :
    (∃ r, findPath grid s e useAStar = .ok r) ∧
    (∀ k st, SearchRun grid s e useAStar k st →
      k + st.openList.length ≤ 79 * 25 ∧ st.openList.Nodup ∧
      (∀ p, p ∈ st.openList → (st.nodes p).isClosed = false) ∧
      (∃ cl : List Point, cl.Nodup ∧ cl.length = k ∧
        ∀ p, p ∈ cl ↔ (st.nodes p).isClosed = true)) ∧
    (∀ k st st1, SearchRun grid s e useAStar k st → st.openList.length > 0 →
      searchStep grid e useAStar st = .ok (.inr st1) →
      extractBest st ∈ st.openList ∧ (st.nodes (extractBest st)).isClosed = false ∧
      (st1.nodes (extractBest st)).isClosed = true ∧
      (∀ p, (st.nodes p).isClosed = true → (st1.nodes p).isClosed = true) ∧
      (∀ p, Visited st p → Visited st1 p) ∧
      (∀ p, p ∈ st1.openList → p ∈ st.openList ∨ st.nodes p = initNodes p)) := by
  refine ⟨?_, fun k st hrun => ?_, fun k st st1 hrun hlen hstep => ?_⟩
  · obtain ⟨r, hr, _⟩ := findPath_spec grid s e useAStar hs
    exact ⟨r, hr⟩
  · have hinv := searchRun_inv hs hrun
    obtain ⟨cl, hcl1, hcl2, hcl3⟩ := hinv.core.closed_list
    have hnd : (cl ++ st.openList).Nodup := by
      rw [List.nodup_append]
      refine ⟨hcl1, hinv.core.nodup, fun p hp1 hp2 => ?_⟩
      have h1 := (hcl3 p).mp hp1
      have h2 := hinv.core.open_not_closed p ((hinv.core.open_iff p).mp hp2)
      rw [h1] at h2
      exact Bool.noConfusion h2
    have hlen := inBounds_nodup_length (cl ++ st.openList) hnd (fun p hp => by
      rcases List.mem_append.mp hp with h1 | h1
      · exact hinv.core.inb p (Or.inr ((hcl3 p).mp h1))
      · exact hinv.core.inb p (Or.inl ((hinv.core.open_iff p).mp h1)))
    rw [cellCount_eq, List.length_append, hcl2] at hlen
    exact ⟨by omega, hinv.core.nodup,
      fun p hp => hinv.core.open_not_closed p ((hinv.core.open_iff p).mp hp),
      hinv.core.closed_list⟩
  · have hinv := searchRun_inv hs hrun
    have hne : st.openList ≠ [] := List.length_pos.mp hlen
    by_cases hce : extractBest st = e
    · obtain ⟨g1, _, hf, _⟩ := searchStep_found hinv hne hce
      rw [hf] at hstep
      simp at hstep
    · obtain ⟨hc, _, _⟩ := searchStep_continue hinv hne hce
      rw [hc] at hstep
      simp only [Except.ok.injEq, Sum.inr.injEq] at hstep
      rw [← hstep]
      exact relaxAll_step hinv hne

theorem search_terminates_witness :
    (isInBounds 0 2 = true ∧ isInBounds 3 0 = true) ∧
    (∃ r, findPath cornerGrid ⟨0, 2⟩ ⟨3, 0⟩ true = .ok r) ∧
    (∀ k st, SearchRun cornerGrid ⟨0, 2⟩ ⟨3, 0⟩ true k st →
      k + st.openList.length ≤ 79 * 25 ∧ st.openList.Nodup ∧
      (∀ p, p ∈ st.openList → (st.nodes p).isClosed = false) ∧
      (∃ cl : List Point, cl.Nodup ∧ cl.length = k ∧
        ∀ p, p ∈ cl ↔ (st.nodes p).isClosed = true)) :=
  ⟨⟨by decide, by decide⟩,
    (search_terminates cornerGrid ⟨0, 2⟩ ⟨3, 0⟩ true (by decide) (by decide)).1,
    (search_terminates cornerGrid ⟨0, 2⟩ ⟨3, 0⟩ true (by decide) (by decide)).2.1⟩

end DungeonMaker


namespace DungeonMaker

/-! ## Theorems: the carving loop, step by step -/

theorem mazeStart_ext (p : SimplePRNG) : ExtLattice (mazeStart p).1 := by
  unfold mazeStart ExtLattice
  simp only
  have hx := randInt_bounds p 0 (DUNGEON_WIDTH.tdiv 2) (by decide) (by decide) (by decide)
    (by decide)
  have hy := randInt_bounds (p.randInt 0 (DUNGEON_WIDTH.tdiv 2)).2 0 (DUNGEON_HEIGHT.tdiv 2)
    (by decide) (by decide) (by decide) (by decide)
  have hw : DUNGEON_WIDTH.tdiv 2 = 39 := by decide
  have hh : DUNGEON_HEIGHT.tdiv 2 = 12 := by decide
  rw [hw] at hx
  rw [hh, hw] at hy
  rw [hw, hh]
  omega

theorem push_of_room (s : PointStack) (p : Point) (h : s.items.length ≤ 469) :
    s.push p = { items := p :: s.items } := by
  unfold PointStack.push
  rw [if_pos]
  simp only [DUNGEON_WIDTH, DUNGEON_HEIGHT]
  omega

/-- What one iteration of the carving loop does to a state whose stack holds
`cur` on top: with no Wall neighbour two cells away it pops; otherwise it draws
one such neighbour `next`, writes Floor into it and into the cell between, and
pushes it.  No access leaves the grid. -/
theorem mazeStep_cases (st : MazeState) (cur : Point) (rest : List Point)
    (hitems : st.stack.items = cur :: rest) (hcur : ExtLattice cur)
    (hroom : st.stack.items.length ≤ 469) :
    (mazeNeighbors st.grid cur = [] ∧ isPush st = false ∧
      mazeStep st = .ok { grid := st.grid, stack := { items := rest }, prng := st.prng }) ∨
    (∃ next prng1, next ∈ mazeNeighbors st.grid cur ∧ isPush st = true ∧
      next ∈ latticeCells ∧ isInBounds (midCell cur next).x (midCell cur next).y = true ∧
      (∃ d ∈ mazeDirs, next = ⟨cur.x + d.1, cur.y + d.2⟩ ∧
        midCell cur next = ⟨cur.x + d.1.tdiv 2, cur.y + d.2.tdiv 2⟩) ∧
      mazeStep st = .ok
        { grid := (st.grid.set next FLOOR_CHAR).set (midCell cur next) FLOOR_CHAR,
          stack := { items := next :: cur :: rest }, prng := prng1 }) := by
  have hpeek : st.stack.peek = cur := by simp [PointStack.peek, hitems]
  unfold mazeStep isPush
  simp only [hpeek]
  by_cases hn : ((mazeNeighbors st.grid cur).length : Int) > 0
  · right
    rw [if_pos hn]
    have hlen4 := mazeNeighbors_length_le st.grid cur
    have hb := randInt_bounds st.prng 0 (((mazeNeighbors st.grid cur).length : Int) - 1)
      (by unfold IsInt32; omega) (by unfold IsInt32; omega) (by omega) (by omega)
    set r := st.prng.randInt 0 (((mazeNeighbors st.grid cur).length : Int) - 1) with hr
    have hr0 : ¬ r.1 < 0 := by omega
    rw [if_neg hr0]
    have hidx : r.1.toNat < (mazeNeighbors st.grid cur).length := by omega
    rw [List.get?_eq_get hidx]
    simp only
    set next := (mazeNeighbors st.grid cur).get ⟨r.1.toNat, hidx⟩ with hnext
    have hmem : next ∈ mazeNeighbors st.grid cur := List.get_mem _ _ _
    obtain ⟨⟨d, hd, hnd⟩, hnb, hnw⟩ := (mem_mazeNeighbors _ _ _).mp hmem
    have hnb' := (isInBounds_iff _ _).mp hnb
    have hnx : next.x = cur.x + d.1 := by rw [hnd]
    have hny : next.y = cur.y + d.2 := by rw [hnd]
    obtain ⟨hc1, hc2, hc3, hc4, hc5, hc6⟩ := hcur
    have hnlat : next ∈ latticeCells := by
      rw [mem_latticeCells]
      refine ⟨hnb, ?_, ?_⟩
      · rw [hnx]
        rcases (mem_mazeDirs d).mp hd with rfl | rfl | rfl | rfl <;> simp only <;> omega
      · rw [hny]
        rcases (mem_mazeDirs d).mp hd with rfl | rfl | rfl | rfl <;> simp only <;> omega
    have hmid : midCell cur next = ⟨cur.x + d.1.tdiv 2, cur.y + d.2.tdiv 2⟩ := by
      unfold midCell
      rw [hnx, hny]
      simp only [add_sub_cancel_left]
    have t0 : (0 : Int).tdiv 2 = 0 := by decide
    have t1 : (2 : Int).tdiv 2 = 1 := by decide
    have t2 : (-2 : Int).tdiv 2 = -1 := by decide
    have hmidb : isInBounds (midCell cur next).x (midCell cur next).y = true := by
      rw [hmid, isInBounds_iff]
      rw [hnx, hny] at hnb'
      rcases (mem_mazeDirs d).mp hd with rfl | rfl | rfl | rfl <;>
        simp only [t0, t1, t2] <;> simp only at hnb' <;> omega
    have hmidb2 : isInBounds (cur.x + (next.x - cur.x).tdiv 2)
        (cur.y + (next.y - cur.y).tdiv 2) = true := hmidb
    have hpush : st.stack.push next = { items := next :: cur :: rest } := by
      rw [push_of_room st.stack next hroom, hitems]
    simp only [Grid.write, hnb, hmidb2, if_true, hpush]
    exact ⟨next, r.2, hmem, by simpa using hn, hnlat, hmidb, ⟨d, hd, hnd, hmid⟩, rfl⟩
  · left
    rw [if_neg hn]
    refine ⟨?_, by simpa using hn, ?_⟩
    · apply List.eq_nil_of_length_eq_zero
      omega
    · simp [PointStack.pop, hitems]

theorem midCell_not_lattice (cur next : Point) (hcur : ExtLattice cur)
    (hd : ∃ d ∈ mazeDirs, next = ⟨cur.x + d.1, cur.y + d.2⟩ ∧
      midCell cur next = ⟨cur.x + d.1.tdiv 2, cur.y + d.2.tdiv 2⟩) :
    midCell cur next ∉ latticeCells := by
  obtain ⟨d, hd, _, hmid⟩ := hd
  rw [hmid, mem_latticeCells]
  obtain ⟨hc1, hc2, _⟩ := hcur
  have t0 : (0 : Int).tdiv 2 = 0 := by decide
  have t1 : (2 : Int).tdiv 2 = 1 := by decide
  have t2 : (-2 : Int).tdiv 2 = -1 := by decide
  rcases (mem_mazeDirs d).mp hd with rfl | rfl | rfl | rfl <;>
    simp only [t0, t1, t2] <;> omega

theorem latticeCells_ext {p : Point} (h : p ∈ latticeCells) : ExtLattice p := by
  rw [mem_latticeCells, isInBounds_iff] at h
  unfold ExtLattice
  omega

/-- An iteration of the carving loop keeps the invariant, counts its push, and
either pushes a cell that held Wall and now holds Floor or pops. -/
theorem mazeStep_inv {n k : Nat} (st : MazeState) (h : MazeInvX n k st)
    (hne : st.stack.isEmpty = false) :
    ∃ st1, mazeStep st = .ok st1 ∧
      MazeInvX (n + 1) (k + if isPush st = true then 1 else 0) st1 ∧
      ((isPush st = true ∧ ∃ next, st.grid next = WALL_CHAR ∧ st1.grid next = FLOOR_CHAR ∧
          st1.stack.items = next :: st.stack.items) ∨
        (isPush st = false ∧ st1.stack.items = st.stack.items.tail ∧ st1.grid = st.grid)) := by
  have hne2 : st.stack.items ≠ [] := by
    intro hnil
    simp [PointStack.isEmpty, hnil] at hne
  obtain ⟨cur, rest, hitems⟩ := List.exists_cons_of_ne_nil hne2
  have hcur : ExtLattice cur := h.on_ext cur (by rw [hitems]; exact List.mem_cons_self _ _)
  have hroom := h.room
  have hpushes := h.pushes
  have hsteps := h.steps
  rcases mazeStep_cases st cur rest hitems hcur (by omega) with
    ⟨_, hp, hstep⟩ | ⟨next, prng1, hmem, hp, hnlat, hmidb, hd, hstep⟩
  · refine ⟨_, hstep, ⟨?_, ?_, ?_, ?_⟩, Or.inr ⟨hp, by simp [hitems], rfl⟩⟩
    · intro p hp1
      exact h.on_ext p (by rw [hitems]; exact List.mem_cons_of_mem _ hp1)
    · rw [hitems] at hroom
      simp only [List.length_cons] at hroom ⊢
      omega
    · simp only [hp, Bool.false_eq_true, if_false]
      omega
    · simp only [mazeMeasure, hitems, List.length_cons] at hsteps ⊢
      omega
  · have hw : st.grid next = WALL_CHAR := ((mem_mazeNeighbors _ _ _).mp hmem).2.2
    have h1 := latticeWalls_set_lt st.grid next hnlat hw
    have h2 := latticeWalls_set_le (st.grid.set next FLOOR_CHAR) (midCell cur next)
    have hnm : next ≠ midCell cur next := by
      intro hEq
      exact midCell_not_lattice cur next hcur hd (hEq ▸ hnlat)
    refine ⟨_, hstep, ⟨?_, ?_, ?_, ?_⟩, Or.inl ⟨hp, next, hw, ?_, by simp [hitems]⟩⟩
    · intro p hp1
      simp only [List.mem_cons] at hp1
      rcases hp1 with rfl | rfl | hp1
      · exact latticeCells_ext hnlat
      · exact hcur
      · exact h.on_ext p (by rw [hitems]; exact List.mem_cons_of_mem _ hp1)
    · rw [hitems] at hroom
      simp only [List.length_cons] at hroom ⊢
      omega
    · simp only [hp, if_true]
      omega
    · simp only [mazeMeasure, hitems, List.length_cons] at hsteps ⊢
      omega
    · simp only
      rw [gridSet_other _ _ hnm, gridSet_same]

/-- Every state of a run of the carving loop satisfies the invariant. -/
theorem mazeRun_inv {st0 : MazeState} (h0 : MazeInvX 0 1 st0) {n k : Nat} {st : MazeState}
    (hr : MazeRun st0 n k st) : MazeInvX n k st := by
  induction hr with
  | init => exact h0
  | @step n k st st1 _ hne hstep ih =>
    obtain ⟨st2, hst2, hinv, _⟩ := mazeStep_inv st ih hne
    rw [hstep] at hst2
    simp only [Except.ok.injEq] at hst2
    rw [hst2]
    exact hinv

/-- The state in which the loop starts satisfies the invariant, on any grid. -/
theorem mazeInit_inv (g0 : Grid) (p : SimplePRNG) : MazeInvX 0 1 (mazeInitState g0 p) := by
  have hpush : PointStack.empty.push (mazeStart p).1 = ⟨[(mazeStart p).1]⟩ := by
    rw [push_of_room]
    · rfl
    · simp [PointStack.empty]
  have hle : latticeWalls g0 ≤ 468 := by
    unfold latticeWalls
    rw [← latticeCells_length]
    exact List.countP_le_length _
  refine ⟨?_, ?_, ?_, ?_⟩
  · intro q hq
    simp only [mazeInitState, hpush, List.mem_singleton] at hq
    rw [hq]
    exact mazeStart_ext p
  · simp only [mazeInitState, hpush, List.length_singleton]
    omega
  · simp only [mazeInitState]
    omega
  · simp only [mazeMeasure, mazeInitState, hpush, List.length_singleton]
    omega

/-- The carving loop returns, with an empty stack, when its fuel covers the
steps that the invariant leaves. -/
theorem mazeLoop_returns (fuel : Nat) {n k : Nat} (st : MazeState) (h : MazeInvX n k st)
    (hf : 937 ≤ n + fuel) : ∃ st1, mazeLoop fuel st = .ok st1 ∧ st1.stack.isEmpty = true := by
  induction fuel generalizing n k st with
  | zero =>
    have hlen : st.stack.items.length = 0 := by
      have := h.steps
      unfold mazeMeasure at this
      omega
    have he : st.stack.isEmpty = true := by
      simp [PointStack.isEmpty, List.length_eq_zero.mp hlen]
    exact ⟨st, by simp [mazeLoop, he], he⟩
  | succ fuel ih =>
    rw [mazeLoop]
    by_cases he : st.stack.isEmpty = true
    · exact ⟨st, by simp [he], he⟩
    · have he2 : st.stack.isEmpty = false := by simpa using he
      simp only [he2, Bool.false_eq_true, if_false]
      obtain ⟨st1, hst1, hinv, _⟩ := mazeStep_inv st h he2
      rw [hst1]
      exact ih st1 hinv (by omega)

end DungeonMaker


namespace DungeonMaker

/-! ## Theorems: the carving loop ends -/

/-- With the start cell inside the grid, the generator is its carving loop run
from the grid that is Wall except for the start cell. -/
theorem generate_eq_loop (d : Dungeon)
    (hb : isInBounds (mazeStart d.prng).1.x (mazeStart d.prng).1.y = true) :
    generateRecursiveBacktracker d =
      match mazeLoop mazeFuel
          (mazeInitState ((initializeGrid WALL_CHAR).set (mazeStart d.prng).1 FLOOR_CHAR)
            d.prng) with
      | .error f => .error f
      | .ok st => .ok { grid := st.grid, prng := st.prng } := by
  unfold generateRecursiveBacktracker Grid.write
  simp only [hb, if_true]
  rfl

/-- C17. Maze termination: for every seed, and whatever the grid holds when the
loop starts, the carving loop of `generateRecursiveBacktracker` returns with
an empty stack.  Every iteration either pushes a cell that held Wall and holds
Floor afterwards, or pops the stack; the number of pushes, the one before the
loop included, is at most the number of lattice cells plus one, `468 + 1`, the
stack never holds more than that, so never more than its capacity `79 * 25`,
and no push is dropped.  With the start cell inside the grid the generator is
this loop and returns. -/
theorem maze_loop_terminates (d : Dungeon) (g0 : Grid) :
    (∃ st, mazeLoop mazeFuel (mazeInitState g0 d.prng) = .ok st ∧ st.stack.isEmpty = true) ∧
    (∀ n k st, MazeRun (mazeInitState g0 d.prng) n k st →
      k ≤ 468 + 1 ∧ st.stack.items.length ≤ 468 + 1 ∧
      (st.stack.items.length : Int) ≤ DUNGEON_WIDTH * DUNGEON_HEIGHT ∧ n ≤ 937 ∧
      (st.stack.isEmpty = false →
        ∃ st1, mazeStep st = .ok st1 ∧
          ((isPush st = true ∧ ∃ next, st.grid next = WALL_CHAR ∧
              st1.grid next = FLOOR_CHAR ∧ st1.stack.items = next :: st.stack.items) ∨
            (isPush st = false ∧ st1.stack.items = st.stack.items.tail ∧
              st1.grid = st.grid)))) ∧
    (isInBounds (mazeStart d.prng).1.x (mazeStart d.prng).1.y = true →
      (generateRecursiveBacktracker d =
        match mazeLoop mazeFuel
            (mazeInitState ((initializeGrid WALL_CHAR).set (mazeStart d.prng).1 FLOOR_CHAR)
              d.prng) with
        | .error f => .error f
        | .ok st => .ok { grid := st.grid, prng := st.prng }) ∧
      ∃ d1, generateRecursiveBacktracker d = .ok d1) := by
  refine ⟨?_, fun n k st hrun => ?_, fun hb => ⟨generate_eq_loop d hb, maze_ok d hb⟩⟩
  · exact mazeLoop_returns mazeFuel _ (mazeInit_inv g0 d.prng) (by
      have : mazeFuel = 3950 := rfl
      omega)
  · have hinv := mazeRun_inv (mazeInit_inv g0 d.prng) hrun
    have h1 := hinv.room
    have h2 := hinv.pushes
    have h3 := hinv.steps
    refine ⟨by omega, by omega, ?_, by omega, fun hne => ?_⟩
    · simp only [DUNGEON_WIDTH, DUNGEON_HEIGHT]
      omega
    · obtain ⟨st1, hst1, _, hcase⟩ := mazeStep_inv st hinv hne
      exact ⟨st1, hst1, hcase⟩

theorem maze_loop_terminates_witness :
    isInBounds (mazeStart ⟨42⟩).1.x (mazeStart ⟨42⟩).1.y = true ∧
    (∃ st, mazeLoop mazeFuel (mazeInitState cornerGrid (Dungeon.mk cornerGrid ⟨29⟩).prng)
      = .ok st ∧ st.stack.isEmpty = true) ∧
    ∃ d1, generateRecursiveBacktracker (Dungeon.mk cornerGrid ⟨42⟩) = .ok d1 :=
  ⟨by decide, (maze_loop_terminates (Dungeon.mk cornerGrid ⟨29⟩) cornerGrid).1,
    ((maze_loop_terminates (Dungeon.mk cornerGrid ⟨42⟩) cornerGrid).2.2 (by decide)).2⟩

end DungeonMaker


namespace DungeonMaker

/-! ## Theorems: the maze covers the lattice -/

theorem set_floor_keeps (g : Grid) (q p : Point) (h : g p = FLOOR_CHAR) :
    g.set q FLOOR_CHAR p = FLOOR_CHAR := by
  by_cases hp : p = q
  · subst hp; exact gridSet_same _ _ _
  · rw [gridSet_other _ _ hp]; exact h

/-- An iteration of the carving loop keeps the covering invariant. -/
theorem mazeStep_cover {n k : Nat} (start : Point) (st : MazeState) (h : MazeInvX n k st)
    (hc : MazeCover start st) (hne : st.stack.isEmpty = false) :
    ∃ st1, mazeStep st = .ok st1 ∧ MazeCover start st1 := by
  have hne2 : st.stack.items ≠ [] := by
    intro hnil
    simp [PointStack.isEmpty, hnil] at hne
  obtain ⟨cur, rest, hitems⟩ := List.exists_cons_of_ne_nil hne2
  have hcur : ExtLattice cur := h.on_ext cur (by rw [hitems]; exact List.mem_cons_self _ _)
  have hroom := h.room
  rcases mazeStep_cases st cur rest hitems hcur (by omega) with
    ⟨hnil, _, hstep⟩ | ⟨next, prng1, hmem, _, hnlat, _, hd, hstep⟩
  · refine ⟨_, hstep, ⟨hc.values, hc.start_floor, fun c hcl hcf => ?_⟩⟩
    rcases hc.finished c hcl hcf with hs | hs
    · rw [hitems, List.mem_cons] at hs
      rcases hs with rfl | hs
      · right
        intro d hd hb
        rcases hc.values ⟨c.x + d.1, c.y + d.2⟩ with hw | hf
        · have : (⟨c.x + d.1, c.y + d.2⟩ : Point) ∈ mazeNeighbors st.grid c :=
            (mem_mazeNeighbors _ _ _).mpr ⟨⟨d, hd, rfl⟩, hb, hw⟩
          rw [hnil] at this
          simp at this
        · exact hf
      · exact Or.inl hs
    · exact Or.inr hs
  · have hmidn : midCell cur next ∉ latticeCells := midCell_not_lattice cur next hcur hd
    refine ⟨_, hstep, ⟨fun p => ?_, ?_, fun c hcl hcf => ?_⟩⟩
    · simp only
      by_cases hp1 : p = midCell cur next
      · right; rw [hp1]; exact gridSet_same _ _ _
      · rw [gridSet_other _ _ hp1]
        by_cases hp2 : p = next
        · right; rw [hp2]; exact gridSet_same _ _ _
        · rw [gridSet_other _ _ hp2]; exact hc.values p
    · exact set_floor_keeps _ _ _ (set_floor_keeps _ _ _ hc.start_floor)
    · simp only at hcf ⊢
      by_cases hcn : c = next
      · left; rw [hcn]; exact List.mem_cons_self _ _
      · have hcm : c ≠ midCell cur next := fun hEq => hmidn (hEq ▸ hcl)
        rw [gridSet_other _ _ hcm, gridSet_other _ _ hcn] at hcf
        rcases hc.finished c hcl hcf with hs | hs
        · left
          rw [hitems] at hs
          exact List.mem_cons_of_mem _ hs
        · right
          intro d hd hb
          exact set_floor_keeps _ _ _ (set_floor_keeps _ _ _ (hs d hd hb))

/-- When the carving loop returns, its stack is empty and the covering
invariant holds. -/
theorem mazeLoop_cover (start : Point) (fuel : Nat) {n k : Nat} (st st1 : MazeState)
    (h : MazeInvX n k st) (hc : MazeCover start st) (hr : mazeLoop fuel st = .ok st1) :
    st1.stack.isEmpty = true ∧ MazeCover start st1 := by
  induction fuel generalizing n k st with
  | zero =>
    simp only [mazeLoop] at hr
    split at hr
    · rename_i he
      simp only [Except.ok.injEq] at hr
      rw [← hr]
      exact ⟨he, hc⟩
    · simp at hr
  | succ fuel ih =>
    rw [mazeLoop] at hr
    by_cases he : st.stack.isEmpty = true
    · rw [if_pos he] at hr
      simp only [Except.ok.injEq] at hr
      rw [← hr]
      exact ⟨he, hc⟩
    · have he2 : st.stack.isEmpty = false := by simpa using he
      rw [if_neg he] at hr
      obtain ⟨st2, hst2, hinv, _⟩ := mazeStep_inv st h he2
      obtain ⟨st3, hst3, hcov⟩ := mazeStep_cover start st h hc he2
      rw [hst2] at hst3
      simp only [Except.ok.injEq] at hst3
      subst hst3
      rw [hst2] at hr
      exact ih st2 hinv hcov hr

/-- A set of lattice cells that holds the start cell and, with a cell, its
lattice neighbours, holds every lattice cell. -/
theorem lattice_closure (F : Point → Prop) (start : Point) (hs : start ∈ latticeCells)
    (h0 : F start)
    (hstep : ∀ c ∈ latticeCells, F c → ∀ d ∈ mazeDirs,
      isInBounds (c.x + d.1) (c.y + d.2) = true → F ⟨c.x + d.1, c.y + d.2⟩) :
    ∀ c ∈ latticeCells, F c := by
  have hsb := (mem_latticeCells start).mp hs
  have hsb1 := (isInBounds_iff _ _).mp hsb.1
  -- along the row of the start cell
  have hrow : ∀ m : Nat, ∀ c ∈ latticeCells, c.y = start.y →
      (c.x - start.x).natAbs = 2 * m → F c := by
    intro m
    induction m with
    | zero =>
      intro c _ hy hx
      have : c = start := point_eq_of_coords (by omega) hy
      rw [this]; exact h0
    | succ m ih =>
      intro c hc hy hx
      have hcb := (mem_latticeCells c).mp hc
      have hcb1 := (isInBounds_iff _ _).mp hcb.1
      by_cases hlt : start.x < c.x
      · have hc1 : (⟨c.x - 2, c.y⟩ : Point) ∈ latticeCells := by
          rw [mem_latticeCells, isInBounds_iff]
          simp only
          omega
        have hF := ih ⟨c.x - 2, c.y⟩ hc1 hy (by simp only; omega)
        have := hstep _ hc1 hF (2, 0) (by simp [mazeDirs]) (by
          rw [isInBounds_iff]; simp only; omega)
        simpa using this
      · have hc1 : (⟨c.x + 2, c.y⟩ : Point) ∈ latticeCells := by
          rw [mem_latticeCells, isInBounds_iff]
          simp only
          omega
        have hF := ih ⟨c.x + 2, c.y⟩ hc1 hy (by simp only; omega)
        have := hstep _ hc1 hF (-2, 0) (by simp [mazeDirs]) (by
          rw [isInBounds_iff]; simp only; omega)
        simpa using this
  have hcol : ∀ m : Nat, ∀ c ∈ latticeCells, (c.y - start.y).natAbs = 2 * m → F c := by
    intro m
    induction m with
    | zero =>
      intro c hc hy
      have hcb := (mem_latticeCells c).mp hc
      exact hrow ((c.x - start.x).natAbs / 2) c hc (by omega) (by omega)
    | succ m ih =>
      intro c hc hy
      have hcb := (mem_latticeCells c).mp hc
      have hcb1 := (isInBounds_iff _ _).mp hcb.1
      by_cases hlt : start.y < c.y
      · have hc1 : (⟨c.x, c.y - 2⟩ : Point) ∈ latticeCells := by
          rw [mem_latticeCells, isInBounds_iff]
          simp only
          omega
        have hF := ih ⟨c.x, c.y - 2⟩ hc1 (by simp only; omega)
        have := hstep _ hc1 hF (0, 2) (by simp [mazeDirs]) (by
          rw [isInBounds_iff]; simp only; omega)
        simpa using this
      · have hc1 : (⟨c.x, c.y + 2⟩ : Point) ∈ latticeCells := by
          rw [mem_latticeCells, isInBounds_iff]
          simp only
          omega
        have hF := ih ⟨c.x, c.y + 2⟩ hc1 (by simp only; omega)
        have := hstep _ hc1 hF (0, -2) (by simp [mazeDirs]) (by
          rw [isInBounds_iff]; simp only; omega)
        simpa using this
  intro c hc
  have hcb := (mem_latticeCells c).mp hc
  exact hcol ((c.y - start.y).natAbs / 2) c hc (by omega)

/-- C20. Maze covers the lattice: for every seed for which the start cell drawn
is inside the grid, `generateRecursiveBacktracker` returns, and afterwards
every cell with both coordinates odd (`x` in `1, 3, ..., 77` and `y` in
`1, 3, ..., 23`, the `39 * 12` lattice cells) holds Floor. -/
theorem maze_covers_lattice (d : Dungeon)
    (hb : isInBounds (mazeStart d.prng).1.x (mazeStart d.prng).1.y = true) :
    ∃ d1, generateRecursiveBacktracker d = .ok d1 ∧
      (∀ x y : Int, 1 ≤ x → x ≤ 77 → x % 2 = 1 → 1 ≤ y → y ≤ 23 → y % 2 = 1 →
        d1.grid ⟨x, y⟩ = FLOOR_CHAR) ∧
      (∀ p ∈ latticeCells, d1.grid p = FLOOR_CHAR) ∧ latticeCells.length = 39 * 12 := by
  have hodd := mazeStart_odd d.prng
  have hlat : (mazeStart d.prng).1 ∈ latticeCells := by
    rw [mem_latticeCells]
    exact ⟨hb, hodd.2.1, hodd.2.2.2⟩
  have hinv := mazeInit_inv
    ((initializeGrid WALL_CHAR).set (mazeStart d.prng).1 FLOOR_CHAR) d.prng
  have hitems : (mazeInitState
      ((initializeGrid WALL_CHAR).set (mazeStart d.prng).1 FLOOR_CHAR) d.prng).stack.items =
      [(mazeStart d.prng).1] := by
    simp only [mazeInitState]
    rw [push_of_room]
    · rfl
    · simp [PointStack.empty]
  have hcov : MazeCover (mazeStart d.prng).1 (mazeInitState
      ((initializeGrid WALL_CHAR).set (mazeStart d.prng).1 FLOOR_CHAR) d.prng) := by
    refine ⟨fun p => ?_, gridSet_same _ _ _, fun c _ hcf => ?_⟩
    · simp only [mazeInitState]
      by_cases hp : p = (mazeStart d.prng).1
      · right; rw [hp]; exact gridSet_same _ _ _
      · left; rw [gridSet_other _ _ hp]; rfl
    · left
      rw [hitems, List.mem_singleton]
      by_contra hne
      simp only [mazeInitState] at hcf
      rw [gridSet_other _ _ hne] at hcf
      exact FLOOR_ne_WALL hcf.symm
  obtain ⟨st1, hst1, _⟩ := mazeLoop_returns mazeFuel _ hinv (by
    have : mazeFuel = 3950 := rfl
    omega)
  obtain ⟨hempty, hcov1⟩ := mazeLoop_cover _ mazeFuel _ st1 hinv hcov hst1
  have hnil : st1.stack.items = [] := by
    simpa [PointStack.isEmpty] using hempty
  have hall : ∀ c ∈ latticeCells, st1.grid c = FLOOR_CHAR := by
    apply lattice_closure (fun c => st1.grid c = FLOOR_CHAR) (mazeStart d.prng).1 hlat
      hcov1.start_floor
    intro c hc hcf dd hdd hbb
    rcases hcov1.finished c hc hcf with hs | hs
    · rw [hnil] at hs
      simp at hs
    · exact hs dd hdd hbb
  refine ⟨⟨st1.grid, st1.prng⟩, ?_, fun x y h1 h2 h3 h4 h5 h6 => ?_, hall, ?_⟩
  · rw [generate_eq_loop d hb, hst1]
  · apply hall
    rw [mem_latticeCells, isInBounds_iff]
    simp only
    omega
  · rw [latticeCells_length]

theorem maze_covers_lattice_witness :
    isInBounds (mazeStart (Dungeon.mk cornerGrid ⟨42⟩).prng).1.x
      (mazeStart (Dungeon.mk cornerGrid ⟨42⟩).prng).1.y = true ∧
    ∃ d1, generateRecursiveBacktracker (Dungeon.mk cornerGrid ⟨42⟩) = .ok d1 ∧
      (∀ x y : Int, 1 ≤ x → x ≤ 77 → x % 2 = 1 → 1 ≤ y → y ≤ 23 → y % 2 = 1 →
        d1.grid ⟨x, y⟩ = FLOOR_CHAR) ∧
      (∀ p ∈ latticeCells, d1.grid p = FLOOR_CHAR) ∧ latticeCells.length = 39 * 12 :=
  ⟨by decide, maze_covers_lattice (Dungeon.mk cornerGrid ⟨42⟩) (by decide)⟩

end DungeonMaker


namespace DungeonMaker

/-! ## Theorems: the straight two-step route -/

theorem extractBest_mem {st : SearchState} (hne : st.openList ≠ []) :
    extractBest st ∈ st.openList := bestNodeIndex_mem st.nodes st.openList hne

theorem extractBest_min {st : SearchState} (p : Point) (hp : p ∈ st.openList) :
    (st.nodes (extractBest st)).fCost ≤ (st.nodes p).fCost :=
  bestNodeIndex_min st.nodes st.openList p hp

theorem closeBest_nodes (st : SearchState) :
    (closeBest st).nodes = st.nodes.set (extractBest st)
      { st.nodes (extractBest st) with isOpen := false, isClosed := true } := rfl

theorem closeBest_gCost (st : SearchState) (p : Point) :
    ((closeBest st).nodes p).gCost = (st.nodes p).gCost := by
  rw [closeBest_nodes]
  by_cases hp : p = extractBest st
  · rw [hp, nodeSet_same]
  · rw [nodeSet_other _ _ hp]

theorem closeBest_fCost (st : SearchState) (p : Point) :
    ((closeBest st).nodes p).fCost = (st.nodes p).fCost := by
  rw [closeBest_nodes]
  by_cases hp : p = extractBest st
  · rw [hp, nodeSet_same]
  · rw [nodeSet_other _ _ hp]

/-- Relaxing a move never raises a cost. -/
theorem relaxNeighbor_gCost_le (grid : Grid) (e : Point) (a : Bool) (cur : Point)
    (st : SearchState) (d : Int × Int) (p : Point) :
    ((relaxNeighbor grid e a cur st d).nodes p).gCost ≤ (st.nodes p).gCost := by
  rcases relaxNeighbor_cases grid e a cur st d with
    ⟨heq, _⟩ | ⟨_, _, hlt, nd, _, hg, _, _, _, _, _, heq⟩
  · rw [heq]
  · rw [heq]
    by_cases hp : p = moveBy cur d
    · rw [hp]
      simp only [nodeSet_same]
      rw [hg]
      exact le_of_lt hlt
    · simp only [nodeSet_other _ _ hp]
      exact le_refl _

theorem foldl_relax_gCost_le (grid : Grid) (e : Point) (a : Bool) (cur : Point)
    (ds : List (Int × Int)) (st : SearchState) (p : Point) :
    ((ds.foldl (relaxNeighbor grid e a cur) st).nodes p).gCost ≤ (st.nodes p).gCost := by
  induction ds generalizing st with
  | nil => exact le_refl _
  | cons d ds ih =>
    rw [List.foldl_cons]
    exact le_trans (ih _) (relaxNeighbor_gCost_le grid e a cur st d p)

/-- An iteration of the search loop never raises a cost. -/
theorem relaxAll_gCost_le (grid : Grid) (e : Point) (a : Bool) (st : SearchState) (p : Point) :
    ((relaxAll grid e a st).nodes p).gCost ≤ (st.nodes p).gCost := by
  unfold relaxAll
  exact le_trans (foldl_relax_gCost_le grid e a _ dirs8 _ p) (le_of_eq (closeBest_gCost st p))

theorem heur_init (s e : Point) : HeurInv e (searchInit s e true) := by
  intro p hv
  by_cases hp : p = s
  · subst hp
    unfold searchInit
    simp only [nodeSet_same]
    simp
  · exfalso
    unfold Visited searchInit at hv
    simp only [nodeSet_other _ _ hp] at hv
    simp [initNodes] at hv

theorem heur_close {grid : Grid} {s e : Point} {a : Bool} {k : Nat} {st : SearchState}
    (h : LoopInv grid s e a k st) (hne : st.openList ≠ []) (hh : HeurInv e st) :
    HeurInv e (closeBest st) := by
  intro p hv
  have hvo : Visited st p := by
    by_cases hp : p = extractBest st
    · rw [hp]
      exact Or.inl ((h.core.open_iff _).mp (extractBest_mem hne))
    · unfold Visited at hv
      rw [closeBest_nodes, nodeSet_other _ _ hp] at hv
      exact hv
  rw [closeBest_fCost, closeBest_gCost]
  exact hh p hvo

theorem heur_relax (grid : Grid) (e : Point) (cur : Point) (st : SearchState) (d : Int × Int)
    (hh : HeurInv e st) : HeurInv e (relaxNeighbor grid e true cur st d) := by
  rw [relaxNeighbor_eq]
  simp only [eq_self_iff_true, if_true]
  split_ifs with h1 h2 h3
  · exact hh
  · intro p hv
    by_cases hp : p = moveBy cur d
    · rw [hp]
      simp only [nodeSet_same]
    · simp only [Visited, nodeSet_other _ _ hp] at hv ⊢
      exact hh p hv
  · intro p hv
    by_cases hp : p = moveBy cur d
    · rw [hp]
      simp only [nodeSet_same]
    · simp only [Visited, nodeSet_other _ _ hp] at hv ⊢
      exact hh p hv
  · exact hh

theorem heur_fold (grid : Grid) (e : Point) (cur : Point) (ds : List (Int × Int))
    (st : SearchState) (hh : HeurInv e st) :
    HeurInv e (ds.foldl (relaxNeighbor grid e true cur) st) := by
  induction ds generalizing st with
  | nil => exact hh
  | cons d ds ih =>
    rw [List.foldl_cons]
    exact ih _ (heur_relax grid e cur st d hh)

/-- In A* mode every state of a run keeps `fCost = gCost + heuristic` on the
reached nodes. -/
theorem heur_run {grid : Grid} {s e : Point} (hs : isInBounds s.x s.y = true) {k : Nat}
    {st : SearchState} (hr : SearchRun grid s e true k st) : HeurInv e st := by
  induction hr with
  | init => exact heur_init s e
  | @step k st st1 hrun hlen hstep ih =>
    have hne : st.openList ≠ [] := List.length_pos.mp hlen
    have hinv := searchRun_inv hs hrun
    by_cases hce : extractBest st = e
    · obtain ⟨g1, _, hf, _⟩ := searchStep_found hinv hne hce
      rw [hf] at hstep
      simp at hstep
    · obtain ⟨hc, _, _⟩ := searchStep_continue hinv hne hce
      rw [hc] at hstep
      simp only [Except.ok.injEq, Sum.inr.injEq] at hstep
      rw [← hstep]
      unfold relaxAll
      exact heur_fold grid e _ dirs8 _ (heur_close hinv hne ih)

/-- A successful search ends in an iteration that extracts the end node: the
node table returned is the one right after that extraction, and the grid
returned is the one `reconstructPath` draws from it. -/
theorem searchLoop_trace {grid : Grid} {s e : Point} {a : Bool}
    (hs : isInBounds s.x s.y = true) (fuel : Nat) (k : Nat) (st : SearchState)
    (hr : SearchRun grid s e a k st) (r : PathResult)
    (hres : searchLoop grid e a fuel st = .ok r) (hf : r.found = true) :
    ∃ k1 st1, SearchRun grid s e a k1 st1 ∧ st1.openList ≠ [] ∧ extractBest st1 = e ∧
      r.nodes = (closeBest st1).nodes ∧
      reconstructPath (closeBest st1).nodes grid e = .ok r.grid := by
  induction fuel generalizing k st with
  | zero =>
    exfalso
    rw [searchLoop] at hres
    by_cases hol : st.openList.length > 0
    · rw [if_pos hol] at hres
      cases hres
    · rw [if_neg hol] at hres
      simp only [Except.ok.injEq] at hres
      rw [← hres] at hf
      exact absurd hf (by simp)
  | succ fuel ih =>
    rw [searchLoop] at hres
    by_cases hol : st.openList = []
    · exfalso
      have hlen : ¬ st.openList.length > 0 := by simp [hol]
      rw [if_neg hlen] at hres
      simp only [Except.ok.injEq] at hres
      rw [← hres] at hf
      exact absurd hf (by simp)
    · have hlen : st.openList.length > 0 := List.length_pos.mpr hol
      rw [if_pos hlen] at hres
      have hinv := searchRun_inv hs hr
      by_cases hce : extractBest st = e
      · obtain ⟨g1, hg1, hstep, _⟩ := searchStep_found hinv hol hce
        rw [hstep] at hres
        simp only [Except.ok.injEq] at hres
        refine ⟨k, st, hr, hol, hce, ?_, ?_⟩
        · rw [← hres]
        · rw [← hres]
          exact hg1
      · obtain ⟨hc, _, _⟩ := searchStep_continue hinv hol hce
        rw [hc] at hres
        exact ih (k + 1) _ (SearchRun.step hr hlen hc) hres

/-- Once the start node is closed, a cell next to it that can be entered has
cost at most one, for the rest of the search. -/
theorem start_neighbour_cost {grid : Grid} {s e : Point} {a : Bool}
    (hs : isInBounds s.x s.y = true) (n : Point) (hadj : Adj8 s n) (hp : Passable grid n)
    {k : Nat} {st : SearchState} (hr : SearchRun grid s e a k st) (hk : 0 < k) :
    (st.nodes n).gCost ≤ 1 := by
  induction hr with
  | init => exact absurd hk (lt_irrefl _)
  | @step k st st1 hrun hlen hstep ih =>
    have hne : st.openList ≠ [] := List.length_pos.mp hlen
    have hinv := searchRun_inv hs hrun
    have hinv1 := searchRun_inv hs (SearchRun.step hrun hlen hstep)
    by_cases hk0 : k = 0
    · subst hk0
      obtain ⟨d, hd, hnd⟩ := (adj8_iff s n).mp hadj
      have hsc := hinv1.core.start_first.2 (by omega)
      have hgs := hinv1.core.start_node.2.1
      rcases hinv1.relaxed s s hsc d hd (fun _ => hd) (hnd ▸ hp) with hc | ⟨_, hg⟩
      · have := hinv1.core.g_closed _ hc
        rw [hnd]
        push_cast at this
        omega
      · rw [hnd]
        omega
    · have h1 := ih (by omega)
      by_cases hce : extractBest st = e
      · obtain ⟨g1, _, hf, _⟩ := searchStep_found hinv hne hce
        rw [hf] at hstep
        simp at hstep
      · obtain ⟨hc, _, _⟩ := searchStep_continue hinv hne hce
        rw [hc] at hstep
        simp only [Except.ok.injEq, Sum.inr.injEq] at hstep
        rw [← hstep]
        exact le_trans (relaxAll_gCost_le grid e a st n) h1

theorem parentChain_some (nodes : NodeTable) (fuel : Nat) (p q : Point)
    (h : (nodes p).parent = some q) :
    parentChain nodes (fuel + 1) p = (parentChain nodes fuel q).map (fun l => p :: l) := by
  rw [parentChain]
  simp only [h]

theorem parentChain_none (nodes : NodeTable) (fuel : Nat) (p : Point)
    (h : (nodes p).parent = none) : parentChain nodes fuel p = some [p] := by
  cases fuel <;> simp [parentChain, h]

/-- The drawing of a route of two links: only the middle cell is drawn. -/
theorem reconstruct_three (nodes : NodeTable) (grid : Grid) (s m e : Point) (fuel : Nat)
    (hpos : ∀ p, (nodes p).pos = p) (h1 : (nodes e).parent = some m)
    (h2 : (nodes m).parent = some s) (h3 : (nodes s).parent = none)
    (hm : grid m = FLOOR_CHAR) :
    reconstructLoop nodes (fuel + 3) grid none (some e) =
      .ok (grid.set m (getPathCharacter s m e)) := by
  rw [show fuel + 3 = (fuel + 2) + 1 from rfl, reconstructLoop_succ, h1]
  rw [show fuel + 2 = (fuel + 1) + 1 from rfl, reconstructLoop_succ, h2]
  rw [reconstructLoop_succ, h3, reconstructLoop_none]
  simp only [drawSegment, hpos, hm, if_true]

theorem glyph_straight (x y : Int) :
    getPathCharacter ⟨x, y⟩ ⟨x + 1, y⟩ ⟨x + 2, y⟩ = 196 := by
  have h1 : ¬ y < y := lt_irrefl _
  have h2 : x < x + 1 := by omega
  have h3 : x + 2 > x + 1 := by omega
  simp [getPathCharacter, h1, h2, h3]

/-- What the search leaves in the node table on a straight corridor of two
steps: the end node hangs on the middle node, which hangs on the start node. -/
theorem straight_parents (grid : Grid) (x y : Int) (a : Bool)
    (hs : isInBounds x y = true) (he : isInBounds (x + 2) y = true)
    (hm : grid ⟨x + 1, y⟩ = FLOOR_CHAR) (hend : grid ⟨x + 2, y⟩ ≠ WALL_CHAR)
    (hup : grid ⟨x + 1, y - 1⟩ = WALL_CHAR ∨ isInBounds (x + 1) (y - 1) = false)
    (hdn : grid ⟨x + 1, y + 1⟩ = WALL_CHAR ∨ isInBounds (x + 1) (y + 1) = false) :
    ∃ r, findPath grid ⟨x, y⟩ ⟨x + 2, y⟩ a = .ok r ∧ r.found = true ∧
      (r.nodes ⟨x + 2, y⟩).parent = some ⟨x + 1, y⟩ ∧
      (r.nodes ⟨x + 1, y⟩).parent = some ⟨x, y⟩ ∧
      (r.nodes ⟨x, y⟩).parent = none ∧ (∀ p, (r.nodes p).pos = p) ∧
      reconstructPath r.nodes grid ⟨x + 2, y⟩ = .ok r.grid := by
  have hsb := (isInBounds_iff _ _).mp hs
  have heb := (isInBounds_iff _ _).mp he
  have hmb : isInBounds (x + 1) y = true := by rw [isInBounds_iff]; omega
  have hpm : Passable grid ⟨x + 1, y⟩ := ⟨hmb, by rw [hm]; exact FLOOR_ne_WALL⟩
  have hpe : Passable grid ⟨x + 2, y⟩ := ⟨he, hend⟩
  have hasm : Adj8 ⟨x, y⟩ ⟨x + 1, y⟩ := by
    refine ⟨fun h => ?_, by simp only; omega, by simp only; omega⟩
    have := congrArg Point.x h
    simp only at this
    omega
  have hame : Adj8 ⟨x + 1, y⟩ ⟨x + 2, y⟩ := by
    refine ⟨fun h => ?_, by simp only; omega, by simp only; omega⟩
    have := congrArg Point.x h
    simp only at this
    omega
  have hes : (⟨x + 2, y⟩ : Point) ≠ ⟨x, y⟩ := by
    intro h
    have := congrArg Point.x h
    simp only at this
    omega
  have hmv : ∀ u v : Int, moveBy ⟨u, v⟩ (1, 0) = ⟨u + 1, v⟩ := by
    intro u v
    simp [moveBy]
  have hd10 : ((1, 0) : Int × Int) ∈ dirs8 := by simp [dirs8]
  obtain ⟨r, hr, hpost⟩ := findPath_spec grid ⟨x, y⟩ ⟨x + 2, y⟩ a hs
  have hwalk : Walk grid ⟨x, y⟩ ⟨x + 2, y⟩ 2 :=
    Walk.step (Walk.step Walk.start hasm hpm) hame hpe
  have hfound : r.found = true := by
    by_contra hnf
    exact (hpost.1 (by simpa using hnf)).2 2 hwalk
  have hloop : searchLoop grid ⟨x + 2, y⟩ a cellCount (searchInit ⟨x, y⟩ ⟨x + 2, y⟩ a) =
      .ok r := by
    unfold findPath at hr
    simpa [hs] using hr
  obtain ⟨k, st, hrun, hne, hbest, hnodes, hgrid⟩ :=
    searchLoop_trace hs cellCount 0 _ SearchRun.init r hloop hfound
  have hinv := searchRun_inv hs hrun
  have hmid := extract_mid_best hinv hne
  rw [hbest] at hmid
  have hk : 0 < k := by
    by_contra hk0
    have hk0 : k = 0 := by omega
    have hl := hinv.core.start_first.1 hk0
    have hmem := extractBest_mem hne
    rw [hbest, hl, List.mem_singleton] at hmem
    exact hes hmem
  have hgm := start_neighbour_cost hs ⟨x + 1, y⟩ hasm hpm hrun hk
  have hsc := hinv.core.start_first.2 hk
  have hgs := hinv.core.start_node.2.1
  have heo : (st.nodes ⟨x + 2, y⟩).isOpen = true := by
    have := extractBest_mem hne
    rw [hbest] at this
    exact (hinv.core.open_iff _).mp this
  have hge : (st.nodes ⟨x + 2, y⟩).gCost ≤ 2 := by
    have hrel := hinv.relaxed ⟨x, y⟩ ⟨x, y⟩ hsc (1, 0) hd10 (fun _ => hd10)
      (by rw [hmv]; exact hpm)
    rw [hmv] at hrel
    rcases hrel with hmc | ⟨hmo, _⟩
    · have hrel2 := hinv.relaxed ⟨x + 1, y⟩ ⟨x + 1, y⟩ hmc (1, 0) hd10 (fun _ => hd10)
        (by rw [hmv]; exact (show x + 1 + 1 = x + 2 by ring) ▸ hpe)
      rw [hmv, show x + 1 + 1 = x + 2 by ring] at hrel2
      rcases hrel2 with hec | ⟨_, hg⟩
      · exact absurd rfl (hinv.not_end _ hec)
      · omega
    · have hmin := extractBest_min ⟨x + 1, y⟩ ((hinv.core.open_iff _).mpr hmo)
      rw [hbest] at hmin
      cases a with
      | false =>
        have u1 := (hinv.core.uniform rfl ⟨x + 2, y⟩).2
        have u2 := (hinv.core.uniform rfl ⟨x + 1, y⟩).2
        omega
      | true =>
        have hh := heur_run hs hrun
        have u1 := hh ⟨x + 2, y⟩ (Or.inl heo)
        have u2 := hh ⟨x + 1, y⟩ (Or.inl hmo)
        have m1 : manhattan ⟨x + 2, y⟩ ⟨x + 2, y⟩ = 0 := by simp [manhattan]
        have m2 : manhattan ⟨x + 1, y⟩ ⟨x + 2, y⟩ = 1 := by
          simp only [manhattan]
          split_ifs <;> omega
        omega
  have hge2 : ((closeBest st).nodes ⟨x + 2, y⟩).gCost ≤ 2 := by
    rw [closeBest_gCost]; exact hge
  have core := hmid.core
  obtain ⟨q, hpq, hqc, hgq, hadjq, _⟩ := core.parent ⟨x + 2, y⟩ hes (Or.inr hmid.cur_closed)
  have hqs : q ≠ ⟨x, y⟩ := by
    rintro rfl
    have := hadjq.2.1
    simp only at this
    omega
  obtain ⟨q2, hpq2, hq2c, hgq2, hadjq2, hpassq⟩ := core.parent q hqs (Or.inr hqc)
  have hq2s : q2 = ⟨x, y⟩ := by
    by_contra hne2
    obtain ⟨q3, _, hq3c, hgq3, _, _⟩ := core.parent q2 hne2 (Or.inr hq2c)
    have := core.g_nonneg q3 (Or.inr hq3c)
    omega
  subst hq2s
  have hqm : q = ⟨x + 1, y⟩ := by
    have a1 := hadjq2.2.1
    have a2 := hadjq2.2.2
    have a3 := hadjq.2.1
    have a4 := hadjq.2.2
    simp only at a1 a2 a3 a4
    have hqx : q.x = x + 1 := by omega
    have hqy : q.y = y := by
      by_contra hy
      have hcase : q.y = y - 1 ∨ q.y = y + 1 := by omega
      rcases hcase with h | h
      · have hq : q = ⟨x + 1, y - 1⟩ := point_eq_of_coords hqx h
        rw [hq] at hpassq
        rcases hup with hw | hb
        · exact hpassq.2 hw
        · have := hpassq.1
          simp only at this
          rw [hb] at this
          exact absurd this (by simp)
      · have hq : q = ⟨x + 1, y + 1⟩ := point_eq_of_coords hqx h
        rw [hq] at hpassq
        rcases hdn with hw | hb
        · exact hpassq.2 hw
        · have := hpassq.1
          simp only at this
          rw [hb] at this
          exact absurd this (by simp)
    exact point_eq_of_coords hqx hqy
  subst hqm
  refine ⟨r, hr, hfound, ?_, ?_, ?_, ?_, ?_⟩
  · rw [hnodes]; exact hpq
  · rw [hnodes]; exact hpq2
  · rw [hnodes]; exact core.start_node.1
  · rw [hnodes]; exact core.pos
  · rw [hnodes]; exact hgrid

/-- C13. Straight two-step route: for every grid and every start `(x, y)` and
end `(x + 2, y)` inside the grid such that the cell `(x + 1, y)` holds Floor,
the end cell is not Wall, and the cells `(x + 1, y - 1)` and `(x + 1, y + 1)`
are Wall or outside the grid, `findPath` in either mode returns with a route
found; the route is end, `(x + 1, y)`, start, so it has exactly 2 steps; and
the grid afterwards differs from the grid before in exactly one cell,
`(x + 1, y)`, which holds the horizontal glyph, char 196. -/
theorem straight_two_step_route (grid : Grid) (x y : Int) (useAStar : Bool)
    (hs : isInBounds x y = true) (he : isInBounds (x + 2) y = true)
    (hm : grid ⟨x + 1, y⟩ = FLOOR_CHAR) (hend : grid ⟨x + 2, y⟩ ≠ WALL_CHAR)
    (hup : grid ⟨x + 1, y - 1⟩ = WALL_CHAR ∨ isInBounds (x + 1) (y - 1) = false)
    (hdn : grid ⟨x + 1, y + 1⟩ = WALL_CHAR ∨ isInBounds (x + 1) (y + 1) = false) :
    ∃ r, findPath grid ⟨x, y⟩ ⟨x + 2, y⟩ useAStar = .ok r ∧ r.found = true ∧
      routeCells r ⟨x + 2, y⟩ = some [⟨x + 2, y⟩, ⟨x + 1, y⟩, ⟨x, y⟩] ∧
      routeSteps r ⟨x + 2, y⟩ = some 2 ∧
      r.grid ⟨x + 1, y⟩ = 196 ∧ grid ⟨x + 1, y⟩ ≠ 196 ∧
      ∀ q, q ≠ ⟨x + 1, y⟩ → r.grid q = grid q := by
  obtain ⟨r, hr, hfound, h1, h2, h3, hpos, hgrid⟩ :=
    straight_parents grid x y useAStar hs he hm hend hup hdn
  have hroute : routeCells r ⟨x + 2, y⟩ = some [⟨x + 2, y⟩, ⟨x + 1, y⟩, ⟨x, y⟩] := by
    unfold routeCells
    rw [cellCount_eq, show (1975 : Nat) = 1973 + 1 + 1 from rfl, parentChain_some _ _ _ _ h1,
      parentChain_some _ _ _ _ h2, parentChain_none _ _ _ h3]
    rfl
  have hg : r.grid = grid.set ⟨x + 1, y⟩ 196 := by
    unfold reconstructPath at hgrid
    rw [cellCount_eq, show (1975 : Nat) = 1972 + 3 from rfl,
      reconstruct_three r.nodes grid ⟨x, y⟩ ⟨x + 1, y⟩ ⟨x + 2, y⟩ 1972 hpos h1 h2 h3 hm,
      glyph_straight] at hgrid
    simp only [Except.ok.injEq] at hgrid
    exact hgrid.symm
  refine ⟨r, hr, hfound, hroute, ?_, ?_, ?_, ?_⟩
  · unfold routeSteps
    rw [hroute]
    rfl
  · rw [hg]; exact gridSet_same _ _ _
  · rw [hm]; decide
  · intro q hq
    rw [hg]
    exact gridSet_other _ _ hq

theorem straight_two_step_route_witness :
    isInBounds 1 1 = true ∧ isInBounds (1 + 2) 1 = true ∧
    (∀ a, ∃ r, findPath (gridOfFloor [⟨1, 1⟩, ⟨2, 1⟩, ⟨3, 1⟩, ⟨1, 2⟩]) ⟨1, 1⟩ ⟨1 + 2, 1⟩ a
        = .ok r ∧ r.found = true ∧
      routeCells r ⟨1 + 2, 1⟩ = some [⟨1 + 2, 1⟩, ⟨1 + 1, 1⟩, ⟨1, 1⟩] ∧
      routeSteps r ⟨1 + 2, 1⟩ = some 2 ∧
      r.grid ⟨1 + 1, 1⟩ = 196 ∧
      gridOfFloor [⟨1, 1⟩, ⟨2, 1⟩, ⟨3, 1⟩, ⟨1, 2⟩] ⟨1 + 1, 1⟩ ≠ 196 ∧
      ∀ q, q ≠ ⟨1 + 1, 1⟩ → r.grid q = gridOfFloor [⟨1, 1⟩, ⟨2, 1⟩, ⟨3, 1⟩, ⟨1, 2⟩] q) ∧
    resultGrid (gridOfFloor [⟨1, 1⟩, ⟨2, 1⟩, ⟨3, 1⟩, ⟨1, 2⟩]) ⟨1, 1⟩ ⟨3, 1⟩ true ⟨2, 1⟩ = 196 ∧
    routeLength (gridOfFloor [⟨1, 1⟩, ⟨2, 1⟩, ⟨3, 1⟩, ⟨1, 2⟩]) ⟨1, 1⟩ ⟨3, 1⟩ false = some 2 :=
  ⟨by decide, by decide,
    fun a => straight_two_step_route (gridOfFloor [⟨1, 1⟩, ⟨2, 1⟩, ⟨3, 1⟩, ⟨1, 2⟩]) 1 1 a
      (by decide) (by decide) (by decide) (by decide) (Or.inl (by decide)) (Or.inl (by decide)),
    by decide, by decide⟩

end DungeonMaker


namespace DungeonMaker

/-! ## Theorems: the route is a valid walk -/

/-- The parent chain of a reached node: it leads back to the start node over
as many links as the node's cost, each link joins 8-adjacent cells, the cells
are distinct reached cells, and each but the start can be entered. -/
theorem parentChain_valid {grid : Grid} {s : Point} {a : Bool} {k : Nat}
    {st : SearchState} (h : SearchCore grid s a k st) (fuel : Nat) (p : Point)
    (hv : Visited st p) (hf : (st.nodes p).gCost ≤ fuel) :
    ∃ l, parentChain st.nodes fuel p = some l ∧ l.head? = some p ∧ l.getLast? = some s ∧
      l.length = (st.nodes p).gCost.toNat + 1 ∧
      l.Chain' (fun c q => (st.nodes c).parent = some q ∧ Adj8 q c) ∧
      (∀ c ∈ l, Visited st c ∧ (st.nodes c).gCost ≤ (st.nodes p).gCost ∧
        (c ≠ s → Passable grid c)) ∧
      l.Nodup := by
  induction fuel generalizing p with
  | zero =>
    have h0 := h.g_nonneg p hv
    rcases h.parent_cases p hv with ⟨hp, hg, hps⟩ | ⟨q, hq, hvq, hgq⟩
    · refine ⟨[p], by simp [parentChain, hp], rfl, by simp [hps], by simp [hg],
        List.chain'_singleton _, ?_, List.nodup_singleton _⟩
      intro c hc
      rw [List.mem_singleton] at hc
      subst hc
      exact ⟨hv, le_refl _, fun hne => absurd hps hne⟩
    · have := h.g_nonneg q hvq
      simp at hf
      omega
  | succ fuel ih =>
    by_cases hps : p = s
    · have hp : (st.nodes p).parent = none := by rw [hps]; exact h.start_node.1
      have hg : (st.nodes p).gCost = 0 := by rw [hps]; exact h.start_node.2.1
      refine ⟨[p], by simp [parentChain, hp], rfl, by simp [hps], by simp [hg],
        List.chain'_singleton _, ?_, List.nodup_singleton _⟩
      intro c hc
      rw [List.mem_singleton] at hc
      subst hc
      exact ⟨hv, le_refl _, fun hne => absurd hps hne⟩
    · obtain ⟨q, hq, hqc, hgq, hadj, hpass⟩ := h.parent p hps hv
      have hvq : Visited st q := Or.inr hqc
      have h0 := h.g_nonneg q hvq
      have hfq : (st.nodes q).gCost ≤ fuel := by
        push_cast at hf
        omega
      obtain ⟨l, hl, hhead, hlast, hlen, hchain, hall, hnd⟩ := ih q hvq hfq
      refine ⟨p :: l, by simp [parentChain, hq, hl], rfl, ?_, ?_, ?_, ?_, ?_⟩
      · cases l with
        | nil => simp at hhead
        | cons b l => rw [List.getLast?_cons_cons]; exact hlast
      · rw [List.length_cons, hlen, hgq]
        omega
      · rw [List.chain'_cons']
        refine ⟨fun y hy => ?_, hchain⟩
        rw [hhead, Option.mem_def, Option.some.injEq] at hy
        rw [← hy]
        exact ⟨hq, hadj⟩
      · intro c hc
        rw [List.mem_cons] at hc
        rcases hc with rfl | hc
        · exact ⟨hv, le_refl _, fun _ => hpass⟩
        · obtain ⟨h1, h2, h3⟩ := hall c hc
          exact ⟨h1, by omega, h3⟩
      · rw [List.nodup_cons]
        refine ⟨fun hmem => ?_, hnd⟩
        have := (hall p hmem).2.1
        omega

theorem routeGlyphs_ne_wall {c : Nat} (h : c ∈ routeGlyphs) : c ≠ WALL_CHAR := by
  intro hEq
  rw [hEq] at h
  exact absurd h (by decide)

/-- C21. Route validity: for every grid, every start and end inside the grid
and either mode, `findPath` returns, and whenever it succeeds, following the
parent links from the end node reaches the start node (which has no parent)
after exactly `gCost(end)` links; consecutive cells of this chain are
8-adjacent (distinct, at most 1 apart in each coordinate), the cells of the
chain are pairwise distinct and inside the grid, and every cell of it other
than the start is not Wall, in the grid before the call and in the grid after
it. -/
theorem route_valid (grid : Grid) (s e : Point) (useAStar : Bool)
    (hs : isInBounds s.x s.y = true) (_he : isInBounds e.x e.y = true) :
    ∃ r, findPath grid s e useAStar = .ok r ∧
      (r.found = true → ∃ l : List Point, routeCells r e = some l ∧
        l.head? = some e ∧ l.getLast? = some s ∧ (r.nodes s).parent = none ∧
        0 ≤ (r.nodes e).gCost ∧ ((l.length : Int) = (r.nodes e).gCost + 1) ∧
        routeSteps r e = some (r.nodes e).gCost.toNat ∧
        l.Chain' (fun c q => (r.nodes c).parent = some q ∧ Adj8 q c) ∧
        l.Chain' (fun c q => q ≠ c ∧ (c.x - q.x).natAbs ≤ 1 ∧ (c.y - q.y).natAbs ≤ 1) ∧
        l.Nodup ∧ (∀ c ∈ l, isInBounds c.x c.y = true) ∧
        (∀ c ∈ l, c ≠ s → grid c ≠ WALL_CHAR ∧ r.grid c ≠ WALL_CHAR)) := by
  obtain ⟨r, hr, _, hfound⟩ := findPath_found grid s e useAStar hs
  obtain ⟨r2, hr2, hframe⟩ := findPath_frame grid s e useAStar hs
  have hr2eq : r2 = r := by
    rw [hr] at hr2
    simp only [Except.ok.injEq] at hr2
    exact hr2.symm
  subst hr2eq
  refine ⟨r2, hr, fun hf => ?_⟩
  obtain ⟨k, st, hcore, hnodes, hclosed, _⟩ := hfound hf
  rw [← hnodes] at hclosed
  have hv : Visited st e := Or.inr hclosed
  have hg := hcore.g_closed e hclosed
  have hk := hcore.k_le
  have h0 := hcore.g_nonneg e hv
  obtain ⟨l, hl, hhead, hlast, hlen, hchain, hall, hnd⟩ :=
    parentChain_valid hcore cellCount e hv (by omega)
  have hroute : routeCells r2 e = some l := by
    unfold routeCells
    rw [← hnodes]
    exact hl
  refine ⟨l, hroute, hhead, hlast, ?_, ?_, ?_, ?_, ?_, ?_, hnd, ?_, ?_⟩
  · rw [← hnodes]; exact hcore.start_node.1
  · rw [← hnodes]; exact h0
  · rw [← hnodes, hlen]
    push_cast
    rw [Int.toNat_of_nonneg h0]
  · rw [← hnodes]
    exact routeSteps_of_cells hroute hlen
  · rw [← hnodes]; exact hchain
  · exact hchain.imp (fun c q hcq => ⟨Ne.symm hcq.2.1, hcq.2.2.1, hcq.2.2.2⟩)
  · intro c hc
    exact hcore.inb c (hall c hc).1
  · intro c hc hcs
    have hp := ((hall c hc).2.2 hcs).2
    refine ⟨hp, ?_⟩
    by_cases hch : r2.grid c = grid c
    · rw [hch]; exact hp
    · exact routeGlyphs_ne_wall (hframe c hch).2.1

theorem route_valid_witness :
    (isInBounds 0 2 = true ∧ isInBounds 3 0 = true) ∧
    pathFound cornerGrid ⟨0, 2⟩ ⟨3, 0⟩ true = true ∧
    routeLength cornerGrid ⟨0, 2⟩ ⟨3, 0⟩ true = some 4 ∧
    ∃ r, findPath cornerGrid ⟨0, 2⟩ ⟨3, 0⟩ true = .ok r ∧
      (r.found = true → ∃ l : List Point, routeCells r ⟨3, 0⟩ = some l ∧
        l.head? = some ⟨3, 0⟩ ∧ l.getLast? = some ⟨0, 2⟩ ∧ (r.nodes ⟨0, 2⟩).parent = none ∧
        0 ≤ (r.nodes ⟨3, 0⟩).gCost ∧ ((l.length : Int) = (r.nodes ⟨3, 0⟩).gCost + 1) ∧
        routeSteps r ⟨3, 0⟩ = some (r.nodes ⟨3, 0⟩).gCost.toNat ∧
        l.Chain' (fun c q => (r.nodes c).parent = some q ∧ Adj8 q c) ∧
        l.Chain' (fun c q => q ≠ c ∧ (c.x - q.x).natAbs ≤ 1 ∧ (c.y - q.y).natAbs ≤ 1) ∧
        l.Nodup ∧ (∀ c ∈ l, isInBounds c.x c.y = true) ∧
        (∀ c ∈ l, c ≠ ⟨0, 2⟩ → cornerGrid c ≠ WALL_CHAR ∧ r.grid c ≠ WALL_CHAR)) :=
  ⟨⟨by decide, by decide⟩, by decide, by decide,
    route_valid cornerGrid ⟨0, 2⟩ ⟨3, 0⟩ true (by decide) (by decide)⟩

end DungeonMaker


namespace DungeonMaker

/-! ## Theorems: right-angle turns -/

/-- C22 at a concrete input: `(1, 0)` is directly above `(1, 1)` and `(0, 1)` is
directly to its left, and `getPathCharacter` returns the horizontal glyph 196
for this right-angle turn, not one of the corner glyphs. -/
theorem right_angle_left_turn_is_straight :
    ((⟨1, 0⟩ : Point).x = (⟨1, 1⟩ : Point).x ∧ (⟨1, 0⟩ : Point).y = (⟨1, 1⟩ : Point).y - 1 ∧
      (⟨0, 1⟩ : Point).y = (⟨1, 1⟩ : Point).y ∧ (⟨0, 1⟩ : Point).x = (⟨1, 1⟩ : Point).x - 1) ∧
    getPathCharacter ⟨1, 0⟩ ⟨1, 1⟩ ⟨0, 1⟩ = 196 ∧
    getPathCharacter ⟨1, 0⟩ ⟨1, 1⟩ ⟨0, 1⟩ ∉ [192, 217, 218, 191] :=
  ⟨⟨by decide, by decide, by decide, by decide⟩, by decide, by decide⟩

/-- The glyphs of the eight right-angle turns at the cell `(x, y)`: the two
turns to the left from a vertical entry get the horizontal glyph, because the
test `to_left && !from_left` of the horizontal glyph comes first and holds
whenever `prev` is directly above or below; the six others get a corner. -/
theorem right_angle_table (x y : Int) :
    getPathCharacter ⟨x, y - 1⟩ ⟨x, y⟩ ⟨x - 1, y⟩ = 196 ∧
    getPathCharacter ⟨x, y + 1⟩ ⟨x, y⟩ ⟨x - 1, y⟩ = 196 ∧
    getPathCharacter ⟨x, y - 1⟩ ⟨x, y⟩ ⟨x + 1, y⟩ = 218 ∧
    getPathCharacter ⟨x, y + 1⟩ ⟨x, y⟩ ⟨x + 1, y⟩ = 192 ∧
    getPathCharacter ⟨x - 1, y⟩ ⟨x, y⟩ ⟨x, y - 1⟩ = 192 ∧
    getPathCharacter ⟨x - 1, y⟩ ⟨x, y⟩ ⟨x, y + 1⟩ = 218 ∧
    getPathCharacter ⟨x + 1, y⟩ ⟨x, y⟩ ⟨x, y - 1⟩ = 217 ∧
    getPathCharacter ⟨x + 1, y⟩ ⟨x, y⟩ ⟨x, y + 1⟩ = 191 := by
  have h1 : ¬ x < x := lt_irrefl _
  have h2 : x - 1 < x := by omega
  have h3 : ¬ x - 1 > x := by omega
  have h4 : ¬ y < y := lt_irrefl _
  have h5 : y - 1 < y := by omega
  have h6 : ¬ y - 1 > y := by omega
  have h7 : y + 1 > y := by omega
  have h8 : ¬ y + 1 < y := by omega
  have h9 : x + 1 > x := by omega
  have h10 : ¬ x + 1 < x := by omega
  refine ⟨?_, ?_, ?_, ?_, ?_, ?_, ?_, ?_⟩ <;>
    simp [getPathCharacter, h1, h2, h3, h4, h5, h6, h7, h8, h9, h10]

/-- C22, amended. For every point `current` and every pair `prev`, `next` of
cardinal neighbours of `current` on perpendicular axes (one of them directly
above or below `current`, the other directly left or right),
`getPathCharacter(prev, current, next)` returns one of the four corner glyphs
(192, 217, 218, 191), except when `next` is directly to the left of `current`
(`prev` is then directly above or below), where it returns the horizontal
glyph 196; it never returns 179 or `+`. -/
theorem right_angle_glyphs (prev cur next : Point)
    (h : (prev.x = cur.x ∧ (prev.y = cur.y - 1 ∨ prev.y = cur.y + 1) ∧
          next.y = cur.y ∧ (next.x = cur.x - 1 ∨ next.x = cur.x + 1)) ∨
         (prev.y = cur.y ∧ (prev.x = cur.x - 1 ∨ prev.x = cur.x + 1) ∧
          next.x = cur.x ∧ (next.y = cur.y - 1 ∨ next.y = cur.y + 1))) :
    (next.x = cur.x - 1 → getPathCharacter prev cur next = 196) ∧
    (next.x ≠ cur.x - 1 → getPathCharacter prev cur next ∈ [192, 217, 218, 191]) ∧
    getPathCharacter prev cur next ≠ 179 ∧ getPathCharacter prev cur next ≠ 43 := by
  obtain ⟨t1, t2, t3, t4, t5, t6, t7, t8⟩ := right_angle_table cur.x cur.y
  have hc : cur = ⟨cur.x, cur.y⟩ := rfl
  rcases h with ⟨hpx, hpy, hny, hnx⟩ | ⟨hpy, hpx, hnx, hny⟩
  · rcases hpy with hpy | hpy <;> rcases hnx with hnx | hnx
    · have hp : prev = ⟨cur.x, cur.y - 1⟩ := point_eq_of_coords hpx hpy
      have hn : next = ⟨cur.x - 1, cur.y⟩ := point_eq_of_coords hnx hny
      rw [hp, hn, hc, t1]
      exact ⟨fun _ => rfl, fun hne => absurd rfl hne, by decide, by decide⟩
    · have hp : prev = ⟨cur.x, cur.y - 1⟩ := point_eq_of_coords hpx hpy
      have hn : next = ⟨cur.x + 1, cur.y⟩ := point_eq_of_coords hnx hny
      rw [hp, hn, hc, t3]
      exact ⟨fun hEq => by simp only at hEq; omega, fun _ => by decide, by decide, by decide⟩
    · have hp : prev = ⟨cur.x, cur.y + 1⟩ := point_eq_of_coords hpx hpy
      have hn : next = ⟨cur.x - 1, cur.y⟩ := point_eq_of_coords hnx hny
      rw [hp, hn, hc, t2]
      exact ⟨fun _ => rfl, fun hne => absurd rfl hne, by decide, by decide⟩
    · have hp : prev = ⟨cur.x, cur.y + 1⟩ := point_eq_of_coords hpx hpy
      have hn : next = ⟨cur.x + 1, cur.y⟩ := point_eq_of_coords hnx hny
      rw [hp, hn, hc, t4]
      exact ⟨fun hEq => by simp only at hEq; omega, fun _ => by decide, by decide, by decide⟩
  · rcases hpx with hpx | hpx <;> rcases hny with hny | hny
    · have hp : prev = ⟨cur.x - 1, cur.y⟩ := point_eq_of_coords hpx hpy
      have hn : next = ⟨cur.x, cur.y - 1⟩ := point_eq_of_coords hnx hny
      rw [hp, hn, hc, t5]
      exact ⟨fun hEq => by simp only at hEq; omega, fun _ => by decide, by decide, by decide⟩
    · have hp : prev = ⟨cur.x - 1, cur.y⟩ := point_eq_of_coords hpx hpy
      have hn : next = ⟨cur.x, cur.y + 1⟩ := point_eq_of_coords hnx hny
      rw [hp, hn, hc, t6]
      exact ⟨fun hEq => by simp only at hEq; omega, fun _ => by decide, by decide, by decide⟩
    · have hp : prev = ⟨cur.x + 1, cur.y⟩ := point_eq_of_coords hpx hpy
      have hn : next = ⟨cur.x, cur.y - 1⟩ := point_eq_of_coords hnx hny
      rw [hp, hn, hc, t7]
      exact ⟨fun hEq => by simp only at hEq; omega, fun _ => by decide, by decide, by decide⟩
    · have hp : prev = ⟨cur.x + 1, cur.y⟩ := point_eq_of_coords hpx hpy
      have hn : next = ⟨cur.x, cur.y + 1⟩ := point_eq_of_coords hnx hny
      rw [hp, hn, hc, t8]
      exact ⟨fun hEq => by simp only at hEq; omega, fun _ => by decide, by decide, by decide⟩

theorem right_angle_glyphs_witness :
    (((⟨2, 0⟩ : Point).x = (⟨2, 1⟩ : Point).x ∧
        ((⟨2, 0⟩ : Point).y = (⟨2, 1⟩ : Point).y - 1 ∨
          (⟨2, 0⟩ : Point).y = (⟨2, 1⟩ : Point).y + 1) ∧
        (⟨3, 1⟩ : Point).y = (⟨2, 1⟩ : Point).y ∧
        ((⟨3, 1⟩ : Point).x = (⟨2, 1⟩ : Point).x - 1 ∨
          (⟨3, 1⟩ : Point).x = (⟨2, 1⟩ : Point).x + 1)) ∨
      ((⟨2, 0⟩ : Point).y = (⟨2, 1⟩ : Point).y ∧
        ((⟨2, 0⟩ : Point).x = (⟨2, 1⟩ : Point).x - 1 ∨
          (⟨2, 0⟩ : Point).x = (⟨2, 1⟩ : Point).x + 1) ∧
        (⟨3, 1⟩ : Point).x = (⟨2, 1⟩ : Point).x ∧
        ((⟨3, 1⟩ : Point).y = (⟨2, 1⟩ : Point).y - 1 ∨
          (⟨3, 1⟩ : Point).y = (⟨2, 1⟩ : Point).y + 1))) ∧
    getPathCharacter ⟨2, 0⟩ ⟨2, 1⟩ ⟨3, 1⟩ = 218 ∧
    ((⟨3, 1⟩ : Point).x ≠ (⟨2, 1⟩ : Point).x - 1 →
      getPathCharacter ⟨2, 0⟩ ⟨2, 1⟩ ⟨3, 1⟩ ∈ [192, 217, 218, 191]) :=
  ⟨by decide, by decide, (right_angle_glyphs ⟨2, 0⟩ ⟨2, 1⟩ ⟨3, 1⟩ (by decide)).2.1⟩

end DungeonMaker


namespace DungeonMaker

/-! ## Theorems: the wall probability of the random fill -/

/-- The roll of the random fill lies in `0, ..., 100`. -/
theorem roll_bounds (p : SimplePRNG) :
    0 ≤ (p.randInt 0 100).1 ∧ (p.randInt 0 100).1 ≤ 100 :=
  randInt_bounds p 0 100 (by decide) (by decide) (by decide) (by decide)

theorem foldl_fillCell_all (wp y : Int) (Q : Nat → Prop)
    (hQ : ∀ (st : Grid × SimplePRNG) (x : Int), Q ((fillCell wp y st x).1 ⟨x, y⟩))
    (xs : List Int) (st : Grid × SimplePRNG) (q : Point) (hy : q.y = y) (hx : q.x ∈ xs) :
    Q ((xs.foldl (fillCell wp y) st).1 q) := by
  induction xs generalizing st with
  | nil => simp at hx
  | cons x xs ih =>
    rw [List.foldl_cons]
    by_cases hmem : q.x ∈ xs
    · exact ih _ hmem
    · rw [foldl_fillCell_other wp y xs _ q (Or.inr hmem)]
      have hqx : q.x = x := by
        rcases List.mem_cons.mp hx with h | h
        · exact h
        · exact absurd h hmem
      have hq : q = ⟨x, y⟩ := point_eq_of_coords hqx hy
      rw [hq]
      exact hQ st x

/-- A property of the values that the fill writes holds in every cell of the
rows and columns filled. -/
theorem foldl_rows_fillCell_all (wp : Int) (Q : Nat → Prop)
    (hQ : ∀ (y : Int) (st : Grid × SimplePRNG) (x : Int), Q ((fillCell wp y st x).1 ⟨x, y⟩))
    (ys xs : List Int) (st : Grid × SimplePRNG) (q : Point) (hy : q.y ∈ ys) (hx : q.x ∈ xs) :
    Q ((ys.foldl (fun st y => xs.foldl (fillCell wp y) st) st).1 q) := by
  induction ys generalizing st with
  | nil => simp at hy
  | cons y ys ih =>
    rw [List.foldl_cons]
    by_cases hmem : q.y ∈ ys
    · exact ih _ hmem
    · rw [foldl_rows_fillCell_other wp ys xs _ q (Or.inl hmem)]
      have hqy : q.y = y := by
        rcases List.mem_cons.mp hy with h | h
        · exact h
        · exact absurd h hmem
      exact foldl_fillCell_all wp y Q (hQ y) xs st q hqy hx

/-- A property of the values that the fill writes holds in every interior
cell after the random fill. -/
theorem randomFill_all (wp : Int) (Q : Nat → Prop)
    (hQ : ∀ (y : Int) (st : Grid × SimplePRNG) (x : Int), Q ((fillCell wp y st x).1 ⟨x, y⟩))
    (st : Grid × SimplePRNG) (q : Point) (hy : q.y ∈ interiorYs) (hx : q.x ∈ interiorXs) :
    Q ((randomFill wp st).1 q) :=
  foldl_rows_fillCell_all wp Q hQ interiorYs interiorXs st q hy hx

theorem fillCell_zero (y : Int) (st : Grid × SimplePRNG) (x : Int) :
    (fillCell 0 y st x).1 ⟨x, y⟩ = FLOOR_CHAR := by
  have h := (roll_bounds st.2).1
  unfold fillCell
  simp only
  rw [if_neg (not_lt.mpr h)]
  exact gridSet_same _ _ _

theorem fillCell_101 (y : Int) (st : Grid × SimplePRNG) (x : Int) :
    (fillCell 101 y st x).1 ⟨x, y⟩ = WALL_CHAR := by
  have h := (roll_bounds st.2).2
  unfold fillCell
  simp only
  rw [if_pos (by omega)]
  exact gridSet_same _ _ _

/-- The cells of row 1 are as the fill of row 1 leaves them. -/
theorem randomFill_row1 (wp : Int) (st : Grid × SimplePRNG) (q : Point) (hq : q.y = 1) :
    (randomFill wp st).1 q = (interiorXs.foldl (fillCell wp 1) st).1 q := by
  have hys : interiorYs = 1 :: (List.range' 2 22).map Int.ofNat := by decide
  unfold randomFill
  rw [hys, List.foldl_cons]
  apply foldl_rows_fillCell_other
  left
  rw [hq]
  decide

set_option maxRecDepth 20000 in
/-- With seed 42 and wall probability 100 the fill of row 1 leaves Floor in
the cell `(76, 1)`. -/
theorem row1_seed_42 :
    (interiorXs.foldl (fillCell 100 1) (initializeGrid WALL_CHAR, ⟨42⟩)).1 ⟨76, 1⟩
      = FLOOR_CHAR := by
  decide

/-- Without smoothing passes the grid generated is the random fill. -/
theorem generate_zero_iterations (d : Dungeon) (wp : Int) :
    (generateCellularAutomata d 0 wp).grid =
      (randomFill wp (initializeGrid WALL_CHAR, d.prng)).1 := rfl

/-- Without smoothing passes, row 1 of the grid generated is as the fill of
row 1 leaves it. -/
theorem generate_row1 (g : Grid) (p : SimplePRNG) (wp : Int) (q : Point) (hq : q.y = 1) :
    (generateCellularAutomata (Dungeon.mk g p) 0 wp).grid q =
      (interiorXs.foldl (fillCell wp 1) (initializeGrid WALL_CHAR, p)).1 q := by
  rw [generate_zero_iterations]
  exact randomFill_row1 wp _ q hq

/-- C23 at a concrete input: with seed 42, `generateCellularAutomata(0, 100)`
leaves Floor in the interior cell `(76, 1)`, whose roll is 100 and so not
below the wall probability 100: the roll `randInt(0, 100)` has the 101 values
`0, ..., 100`.  For every seed, the wall probability 0 gives Floor in every
interior cell, and the wall probability 101 gives Wall in every cell. -/
theorem wall_probability_100_leaves_floor :
    ((generateCellularAutomata (Dungeon.mk (initializeGrid WALL_CHAR) ⟨42⟩) 0 100).grid ⟨76, 1⟩
        = FLOOR_CHAR ∧
      FLOOR_CHAR ≠ WALL_CHAR ∧ IsInterior ⟨76, 1⟩) ∧
    (∀ (d : Dungeon) (i : Fin 77) (j : Fin 23),
      (generateCellularAutomata d 0 0).grid ⟨(i.val : Int) + 1, (j.val : Int) + 1⟩
        = FLOOR_CHAR) ∧
    (∀ (d : Dungeon) (q : Point), (generateCellularAutomata d 0 101).grid q = WALL_CHAR) ∧
    (∀ p : SimplePRNG, 0 ≤ (p.randInt 0 100).1 ∧ (p.randInt 0 100).1 ≤ 100) := by
  refine ⟨⟨?_, by decide, by decide⟩, fun d i j => ?_, fun d q => ?_, roll_bounds⟩
  · exact (generate_row1 (initializeGrid WALL_CHAR) ⟨42⟩ 100 ⟨76, 1⟩ rfl).trans row1_seed_42
  · rw [generate_zero_iterations]
    have hy : ((j.val : Int) + 1) ∈ interiorYs := by
      rw [mem_interiorYs]
      have := j.isLt
      omega
    have hx : ((i.val : Int) + 1) ∈ interiorXs := by
      rw [mem_interiorXs]
      have := i.isLt
      omega
    exact randomFill_all 0 (fun c => c = FLOOR_CHAR) fillCell_zero
      (initializeGrid WALL_CHAR, d.prng) ⟨(i.val : Int) + 1, (j.val : Int) + 1⟩ hy hx
  · rw [generate_zero_iterations]
    by_cases h : q.y ∈ interiorYs ∧ q.x ∈ interiorXs
    · exact randomFill_all 101 (fun c => c = WALL_CHAR) fillCell_101
        (initializeGrid WALL_CHAR, d.prng) q h.1 h.2
    · rw [randomFill_other 101 (initializeGrid WALL_CHAR, d.prng) q (by tauto)]
      rfl

end DungeonMaker


namespace DungeonMaker

/-! ## Theorems: the fallback glyph on routes -/

/-- For `prev` and `next` both 8-adjacent to `current` and different from each
other, `getPathCharacter` returns one of the six line glyphs, not `+`. -/
theorem glyph_of_adjacent (prev cur next : Point) (hp : Adj8 cur prev) (hn : Adj8 cur next)
    (hne : prev ≠ next) :
    getPathCharacter prev cur next ∈ [179, 196, 192, 217, 218, 191] ∧
      getPathCharacter prev cur next ≠ 43 := by
  have hnp : getPathCharacter prev cur next ≠ 43 := by
    rw [Ne, getPathCharacter_plus_iff]
    rintro ⟨hy, h⟩
    unfold Adj8 at hp hn
    obtain ⟨hp0, hp1, hp2⟩ := hp
    obtain ⟨hn0, hn1, hn2⟩ := hn
    have hnx : next.x ≠ cur.x := fun hx => hn0 (point_eq_of_coords hx hy)
    rcases h with h | ⟨hpy, h⟩
    · exact hnx h
    · have hpx : prev.x ≠ cur.x := fun hx => hp0 (point_eq_of_coords hx hpy)
      have hx : prev.x = next.x := by omega
      have hy2 : prev.y = next.y := by omega
      exact hne (point_eq_of_coords hx hy2)
  refine ⟨?_, hnp⟩
  have hm := getPathCharacter_mem prev cur next
  simp only [routeGlyphs, List.mem_cons, List.mem_singleton, List.not_mem_nil, or_false] at hm ⊢
  tauto

/-- The loop of `reconstructPath`, started at a reached node whose successor,
if any, hangs on it, never writes the fallback glyph. -/
theorem reconstructLoop_no_plus {grid : Grid} {s : Point} {a : Bool} {k : Nat}
    {st : SearchState} (h : SearchCore grid s a k st) (fuel : Nat) (g : Grid)
    (succ : Option Point) (p : Point) (g1 : Grid) (hv : Visited st p)
    (hsucc : ∀ t, succ = some t → (st.nodes t).parent = some p ∧ Visited st t ∧ t ≠ s)
    (hr : reconstructLoop st.nodes fuel g succ (some p) = .ok g1) (q : Point)
    (hq : g1 q ≠ g q) :
    g1 q ∈ [179, 196, 192, 217, 218, 191] ∧ g1 q ≠ 43 := by
  induction fuel generalizing g succ p with
  | zero => simp [reconstructLoop] at hr
  | succ fuel ih =>
    rw [reconstructLoop_succ] at hr
    by_cases hps : p = s
    · have hp : (st.nodes p).parent = none := by rw [hps]; exact h.start_node.1
      rw [hp, reconstructLoop_none] at hr
      have hg1 : g1 = g := by
        have : drawSegment st.nodes g succ p none = g1 := by
          simpa using hr
        rw [← this]
        cases succ <;> rfl
      exact absurd (by rw [hg1]) hq
    · obtain ⟨q0, hq0, hq0c, hgp, hadj0, _⟩ := h.parent p hps hv
      rw [hq0] at hr
      have hvq0 : Visited st q0 := Or.inr hq0c
      by_cases hch : g1 q = drawSegment st.nodes g succ p (some q0) q
      · rcases drawSegment_cases st.nodes g succ p (some q0) with hd | ⟨s1, p1, hs1, hp1, _, hd⟩
        · rw [hd] at hch
          exact absurd hch hq
        · rw [hd, h.pos p, h.pos p1, h.pos s1] at hch
          have hqp : q = p := by
            by_contra hne
            rw [gridSet_other _ _ hne] at hch
            exact hq hch
          subst hqp
          rw [gridSet_same] at hch
          rw [hch]
          simp only [Option.some.injEq] at hp1
          subst hp1
          obtain ⟨hpar, hvs1, hs1s⟩ := hsucc s1 hs1
          obtain ⟨q1, hq1, _, hgs1, hadj1, _⟩ := h.parent s1 hs1s hvs1
          rw [hpar, Option.some.injEq] at hq1
          subst hq1
          have hadjp : Adj8 q q0 := ⟨Ne.symm hadj0.1, by have := hadj0.2.1; omega,
            by have := hadj0.2.2; omega⟩
          refine glyph_of_adjacent q0 q s1 hadjp hadj1 ?_
          intro hEq
          rw [hEq] at hgp
          omega
      · exact ih _ (some p) q0 hvq0
          (fun t ht => by
            simp only [Option.some.injEq] at ht
            subst ht
            exact ⟨hq0, hv, hps⟩) hr hch

/-- The cells that `findPath` changes hold one of the six line glyphs. -/
theorem findPath_no_plus (grid : Grid) (s e : Point) (a : Bool)
    (hs : isInBounds s.x s.y = true) :
    ∃ r, findPath grid s e a = .ok r ∧
      ∀ q, r.grid q ≠ grid q → r.grid q ∈ [179, 196, 192, 217, 218, 191] ∧ r.grid q ≠ 43 := by
  obtain ⟨r, hr, hnf, hf⟩ := findPath_found grid s e a hs
  refine ⟨r, hr, fun q hq => ?_⟩
  cases hfound : r.found
  · rw [hnf hfound] at hq
    exact absurd rfl hq
  · obtain ⟨k, st, hcore, hnodes, hclosed, hrec⟩ := hf hfound
    rw [← hnodes] at hrec hclosed
    exact reconstructLoop_no_plus hcore cellCount grid none e r.grid (Or.inr hclosed)
      (fun t ht => by simp at ht) hrec q hq

/-- C24. Fallback glyph unreachable on real routes: for every triple
`(prev, current, next)` in which `prev` and `next` are each 8-adjacent to
`current` and `prev ≠ next`, `getPathCharacter` returns one of the chars 179,
196, 192, 217, 218, 191 and not `+`; and for every grid, start and end inside
the grid and either mode, `findPath` returns a grid in which every changed
cell holds one of these six glyphs, so that a cell holding `+` afterwards
held `+` before. -/
theorem fallback_unreachable (grid : Grid) (s e : Point) (useAStar : Bool)
    (hs : isInBounds s.x s.y = true) (_he : isInBounds e.x e.y = true) :
    (∀ prev cur next : Point, Adj8 cur prev → Adj8 cur next → prev ≠ next →
      getPathCharacter prev cur next ∈ [179, 196, 192, 217, 218, 191] ∧
        getPathCharacter prev cur next ≠ 43) ∧
    ∃ r, findPath grid s e useAStar = .ok r ∧
      (∀ q, r.grid q ≠ grid q → r.grid q ∈ [179, 196, 192, 217, 218, 191]) ∧
      (∀ q, r.grid q = 43 → grid q = 43) := by
  refine ⟨glyph_of_adjacent, ?_⟩
  obtain ⟨r, hr, hno⟩ := findPath_no_plus grid s e useAStar hs
  refine ⟨r, hr, fun q hq => (hno q hq).1, fun q hq => ?_⟩
  by_contra hne
  have hch : r.grid q ≠ grid q := by
    rw [hq]
    exact fun hEq => hne hEq.symm
  exact (hno q hch).2 hq

theorem fallback_unreachable_witness :
    (isInBounds 0 2 = true ∧ isInBounds 3 0 = true) ∧
    resultGrid cornerGrid ⟨0, 2⟩ ⟨3, 0⟩ false ⟨1, 2⟩ = 196 ∧
    ((∀ prev cur next : Point, Adj8 cur prev → Adj8 cur next → prev ≠ next →
      getPathCharacter prev cur next ∈ [179, 196, 192, 217, 218, 191] ∧
        getPathCharacter prev cur next ≠ 43) ∧
    ∃ r, findPath cornerGrid ⟨0, 2⟩ ⟨3, 0⟩ false = .ok r ∧
      (∀ q, r.grid q ≠ cornerGrid q → r.grid q ∈ [179, 196, 192, 217, 218, 191]) ∧
      (∀ q, r.grid q = 43 → cornerGrid q = 43)) :=
  ⟨⟨by decide, by decide⟩, by decide,
    fallback_unreachable cornerGrid ⟨0, 2⟩ ⟨3, 0⟩ false (by decide) (by decide)⟩

end DungeonMaker


namespace DungeonMaker

/-! ## Theorems: routes do not turn between adjacent cells -/

theorem turn_init (s e : Point) (a : Bool) : TurnInv (searchInit s e a) := by
  intro n c q hv hp _
  exfalso
  by_cases hn : n = s
  · subst hn
    have : ((searchInit n e a).nodes n).parent = none := by
      unfold searchInit
      simp only [nodeSet_same]
      cases a <;> rfl
    rw [this] at hp
    simp at hp
  · unfold Visited searchInit at hv
    simp only [nodeSet_other _ _ hn] at hv
    simp [initNodes] at hv

theorem turn_close {grid : Grid} {s e : Point} {a : Bool} {k : Nat} {st : SearchState}
    (h : LoopInv grid s e a k st) (hne : st.openList ≠ []) (ht : TurnInv st) :
    TurnInv (closeBest st) := by
  have hpar : ∀ p, ((closeBest st).nodes p).parent = (st.nodes p).parent := by
    intro p
    rw [closeBest_nodes]
    by_cases hp : p = extractBest st
    · rw [hp, nodeSet_same]
    · rw [nodeSet_other _ _ hp]
  intro n c q hv hp hq
  rw [hpar] at hp hq
  refine ht n c q ?_ hp hq
  by_cases hn : n = extractBest st
  · rw [hn]
    exact Or.inl ((h.core.open_iff _).mp (extractBest_mem hne))
  · unfold Visited at hv
    rw [closeBest_nodes, nodeSet_other _ _ hn] at hv
    exact hv

theorem turn_relax {grid : Grid} {s e : Point} {a : Bool} {k : Nat} {cur : Point}
    {done : List (Int × Int)} {st : SearchState} (d : Int × Int)
    (h : MidInv grid s e a k cur done st) (ht : TurnInv st) :
    TurnInv (relaxNeighbor grid e a cur st d) := by
  rcases relaxNeighbor_cases grid e a cur st d with
    ⟨heq, _⟩ | ⟨hpass, hnc, hlt, nd, _, _, hpar, hop, hcl, _, _, heq⟩
  · rw [heq]; exact ht
  rw [heq]
  have hcurne : cur ≠ moveBy cur d := by
    intro hEq
    rw [← hEq, h.cur_closed] at hnc
    simp at hnc
  intro n c q hv hp hq
  simp only at hv hp hq
  by_cases hn : n = moveBy cur d
  · -- the node just relaxed hangs on `cur`
    subst hn
    rw [nodeSet_same, hpar, Option.some.injEq] at hp
    subst hp
    rw [nodeSet_other _ _ hcurne] at hq
    have hcs : cur ≠ s := by
      intro hEq
      rw [hEq, h.core.start_node.1] at hq
      simp at hq
    obtain ⟨q1, hq1, hq1c, hg, hadj, _⟩ := h.core.parent cur hcs (Or.inr h.cur_closed)
    rw [hq, Option.some.injEq] at hq1
    subst hq1
    intro hadjn
    obtain ⟨d1, hd1, hmv⟩ := (adj8_iff q (moveBy cur d)).mp hadjn
    have hqc : q ≠ cur := fun hEq => hadj.1 hEq.symm
    rcases h.relaxed q hq1c d1 hd1 (fun hEq => absurd hEq hqc) (hmv ▸ hpass) with hc | ⟨_, hgn⟩
    · rw [← hmv, hnc] at hc
      simp at hc
    · rw [← hmv] at hgn
      omega
  · rw [nodeSet_other _ _ hn] at hp
    have hvn : Visited st n := by
      unfold Visited at hv ⊢
      simp only at hv
      rw [nodeSet_other _ _ hn] at hv
      exact hv
    have hns : n ≠ s := by
      intro hEq
      rw [hEq, h.core.start_node.1] at hp
      simp at hp
    obtain ⟨c1, hc1, hc1c, _, _, _⟩ := h.core.parent n hns hvn
    rw [hp, Option.some.injEq] at hc1
    subst hc1
    have hcn : c ≠ moveBy cur d := by
      intro hEq
      rw [hEq, hnc] at hc1c
      simp at hc1c
    rw [nodeSet_other _ _ hcn] at hq
    exact ht n c q hvn hp hq

theorem turn_fold {grid : Grid} {s e : Point} {a : Bool} {k : Nat} {cur : Point}
    (ds : List (Int × Int)) (hds : ∀ d ∈ ds, d ∈ dirs8) (done : List (Int × Int))
    (st : SearchState) (h : MidInv grid s e a k cur done st) (ht : TurnInv st) :
    TurnInv (ds.foldl (relaxNeighbor grid e a cur) st) := by
  induction ds generalizing done st with
  | nil => exact ht
  | cons d ds ih =>
    rw [List.foldl_cons]
    exact ih (fun d1 hd1 => hds d1 (List.mem_cons_of_mem _ hd1)) (done ++ [d]) _
      (mid_relax d (hds d (List.mem_cons_self _ _)) h) (turn_relax d h ht)

/-- Every state of a run keeps two parent links in a row from joining adjacent
cells. -/
theorem turn_run {grid : Grid} {s e : Point} {a : Bool} (hs : isInBounds s.x s.y = true)
    {k : Nat} {st : SearchState} (hr : SearchRun grid s e a k st) : TurnInv st := by
  induction hr with
  | init => exact turn_init s e a
  | @step k st st1 hrun hlen hstep ih =>
    have hne : st.openList ≠ [] := List.length_pos.mp hlen
    have hinv := searchRun_inv hs hrun
    by_cases hce : extractBest st = e
    · obtain ⟨g1, _, hf, _⟩ := searchStep_found hinv hne hce
      rw [hf] at hstep
      simp at hstep
    · obtain ⟨hc, _, _⟩ := searchStep_continue hinv hne hce
      rw [hc] at hstep
      simp only [Except.ok.injEq, Sum.inr.injEq] at hstep
      rw [← hstep]
      unfold relaxAll
      exact turn_fold dirs8 (fun d hd => hd) [] _ (extract_mid_best hinv hne)
        (turn_close hinv hne ih)

/-- On a route that `findPath` found, the cell before and the cell after a
cell of the route are never 8-adjacent: with moves in eight directions the
search links the two directly instead.  So `reconstructPath` never passes a
right-angle turn between cardinal neighbours to `getPathCharacter`. -/
theorem route_no_sharp_turn (grid : Grid) (s e : Point) (a : Bool)
    (hs : isInBounds s.x s.y = true) :
    ∃ r, findPath grid s e a = .ok r ∧
      (r.found = true → ∀ n c q, (r.nodes n).isClosed = true →
        (r.nodes n).parent = some c → (r.nodes c).parent = some q → ¬ Adj8 q n) := by
  obtain ⟨r, hr, _, _⟩ := findPath_found grid s e a hs
  refine ⟨r, hr, fun hf n c q hcl hp hq => ?_⟩
  have hloop : searchLoop grid e a cellCount (searchInit s e a) = .ok r := by
    unfold findPath at hr
    simpa [hs] using hr
  obtain ⟨k, st, hrun, hne, _, hnodes, _⟩ :=
    searchLoop_trace hs cellCount 0 _ SearchRun.init r hloop hf
  have ht := turn_close (searchRun_inv hs hrun) hne (turn_run hs hrun)
  rw [hnodes] at hcl hp hq
  exact ht n c q (Or.inr hcl) hp hq

end DungeonMaker

